import Mathlib

/-!
# go2chatgpt: path filter and chunk writer

A shallow embedding of `main.go` (package `main` of go2chatgpt) and theorems
about it.

* Go `string` values are Lean `String`s, `[]byte` values are lists of `Byte`.
* Go `int` values are Lean `Int`s (the platform `int` is taken to be 64 bits
  wide; the only arithmetic that can leave that range is the multiplication
  of the `-chunksize` flag by 1024, which is wrapped explicitly).
* The package-level variables `chunkIndex`, `chunkSizeRemaining` and
  `chunkFile` become fields of an explicit `State`, together with the files
  created so far and what was written to them.
* Library functions whose result the program only passes along
  (`doublestar.PathMatch`, `util.IsText`, `filepath.Rel`, `filepath.Join`) and
  the answers of the operating system (`os.Open`, `os.Create`) are fields of
  an environment `Env`.
-/

namespace Go2ChatGPT

/-- One byte of file content. -/
abbrev Byte := Fin 256

/-- The errors `doChunk` can return. -/
inductive GoError
  /-- The call `os.Open` failed. -/
  | openFailed
  /-- The call `os.Create` failed. -/
  | createFailed
  /-- The error `bufio.ErrTooLong`: "bufio.Scanner: token too long". -/
  | tooLong
  /-- The error `bufio.ErrNegativeAdvance`. -/
  | negativeAdvance
  /-- The error `bufio.ErrAdvanceTooFar`. -/
  | advanceTooFar
  /-- The error `io.ErrNoProgress`. -/
  | noProgress
  deriving DecidableEq, Repr

/-- What the program takes from its libraries and from the operating system. -/
structure Env where
  /-- The call `doublestar.PathMatch(pattern, name)`: the `matched` result and whether
  the returned error is non-nil. -/
  pathMatch : String → String → Bool × Bool
  /-- The function `util.IsText` of `golang.org/x/tools/godoc/util`. -/
  isText : List Byte → Bool
  /-- The call `filepath.Rel(basepath, targpath)`, the path result (the program drops
  the error). -/
  rel : String → String → String
  /-- The call `filepath.Join` on two elements. -/
  join : String → String → String
  /-- The call `os.Open` followed by reading: the content of the file at a path, or
  `none` when the file cannot be opened. -/
  openFile : String → Option (List Byte)
  /-- Whether `os.Create` succeeds at a path. -/
  createOk : String → Bool

/-- The `options` struct of `main.go`. -/
structure options where
  chunkSize : Int
  includePatterns : List String
  excludePatterns : List String
  reportPath : String
  source : String

/-! ## Path filter -/

/-- The loop `for _, pattern := range patterns { matched, _ := PathMatch(pattern, filePath);
if matched { return ... } }`: whether some pattern of the list reports a match.
The error result of `PathMatch` is dropped, as in the source. -/
def anyMatch (env : Env) (patterns : List String) (filePath : String) : Bool :=
  match patterns with
  | [] => false
  | pattern :: rest =>
    let matched := (env.pathMatch pattern filePath).1
    if matched then true else anyMatch env rest filePath

/-- The function `shouldProcess` of `main.go`, its three loops in order. -/
def shouldProcess (env : Env) (opts : options) (filePath : String) : Bool :=
  if anyMatch env opts.excludePatterns filePath then false
  else if opts.includePatterns.length > 0 then
    (if anyMatch env opts.includePatterns filePath then true else false)
  else if anyMatch env opts.excludePatterns filePath then false
  else true

/-! ## Option parsing in `main` -/

/-- Splitting a list of characters at every occurrence of `sep`. -/
def splitOnSep (sep : Char) : List Char → List (List Char)
  | [] => [[]]
  | c :: cs =>
    if c = sep then [] :: splitOnSep sep cs
    else
      match splitOnSep sep cs with
      | [] => [[c]]
      | f :: fs => (c :: f) :: fs

/-- The call `strings.Split(s, sep)` for a separator of one character: all
substrings of `s` between the separators; one field (the empty one) for the
empty string. -/
def strings.Split (s : String) (sep : Char) : List String :=
  (splitOnSep sep s.data).map String.mk

/-- A Go `int` result wrapped to the 64-bit two's complement range. -/
def wrapInt64 (x : Int) : Int := (x + 2 ^ 63) % 2 ^ 64 - 2 ^ 63

/-- The implicit exclude pattern of `main`. -/
def gitPattern : String := "**/.git/**"

/-- Lines 45-57 of `main`: the options built from the flags `-chunksize`,
`-exclude`, `-include` and the two positional arguments. -/
def mainOptions (chunkSizeFlag : Int) (excludeFlag includeFlag : String)
    (source reportPath : String) : options :=
  { chunkSize := wrapInt64 (chunkSizeFlag * 1024)
    source := source
    reportPath := reportPath
    includePatterns := if includeFlag ≠ "" then strings.Split includeFlag ',' else []
    excludePatterns :=
      if excludeFlag ≠ "" then strings.Split excludeFlag ',' ++ [gitPattern]
      else [gitPattern] }

/-! ## The block reader: `bufio.Scanner` with the split function of `doChunk`

`doChunk` reads the file through `bufio.NewScanner(file)` with its own split
function. The scanner is the one of the Go standard library with the settings
`NewScanner` gives it: an empty initial buffer, which grows from
`startBufSize` by doubling up to `bufio.MaxScanTokenSize`. The reader is a
regular file: a `Read` fills the space it is offered unless the file ends
first, and reports `io.EOF` (with no byte) once the file is exhausted. -/

/-- The constant `bufio.MaxScanTokenSize`. -/
def maxScanTokenSize : Nat := 64 * 1024

/-- The constant `startBufSize` of package `bufio`. -/
def startBufSize : Nat := 4096

/-- The constant `maxConsecutiveEmptyReads` of package `bufio`. -/
def maxConsecutiveEmptyReads : Nat := 100

/-- The largest Go `int`. -/
def maxInt : Nat := 2 ^ 63 - 1

/-- The values the field `err` of a scanner takes here. -/
inductive ScanErr
  /-- The value `io.EOF`. -/
  | eof
  /-- `bufio.ErrTooLong`. -/
  | tooLong
  /-- The error `bufio.ErrNegativeAdvance`. -/
  | negativeAdvance
  /-- The error `bufio.ErrAdvanceTooFar`. -/
  | advanceTooFar
  /-- The error `io.ErrNoProgress`. -/
  | noProgress
  deriving DecidableEq, Repr

/-- The closure `split` of `doChunk` (lines 137-151): the advance and the token
(`none` for a nil token); the error result is always nil and is left out. The
outer `none` is the run-time panic of the slice expression
`data[0:opts.chunkSize]` when `opts.chunkSize` is negative. -/
def split (opts : options) (data : List Byte) (atEOF : Bool) :
    Option (Int × Option (List Byte)) :=
  if atEOF && data.length == 0 then some (0, none)
  else if (data.length : Int) ≥ opts.chunkSize then
    (if opts.chunkSize < 0 then none
     else some (opts.chunkSize, some (data.take opts.chunkSize.toNat)))
  else if atEOF then some ((data.length : Int), some data)
  else some (0, none)

/-- The state of a `bufio.Scanner` reading a file. -/
structure Scanner where
  /-- The part of the file the reader has not delivered yet. -/
  rest : List Byte
  /-- The filled part of the buffer, `s.buf[0:s.end]`. -/
  buf : List Byte
  /-- The size of the buffer, `len(s.buf)`. -/
  bufLen : Nat
  /-- The field `s.start`: the first unprocessed byte of the buffer. -/
  start : Nat
  /-- The field `s.tok`: the last token returned by the split function. -/
  tok : Option (List Byte)
  /-- The field `s.err`. -/
  err : Option ScanErr
  /-- The field `s.empties`. -/
  empties : Nat
  deriving DecidableEq, Repr

/-- The call `bufio.NewScanner(file)` on a file of the given content. -/
def NewScanner (content : List Byte) : Scanner :=
  { rest := content, buf := [], bufLen := 0, start := 0, tok := none, err := none, empties := 0 }

/-- The method `setErr`: records the first error that is not `io.EOF`. -/
def Scanner.setErr (s : Scanner) (e : ScanErr) : Scanner :=
  if s.err = none ∨ s.err = some ScanErr.eof then { s with err := some e } else s

/-- The method `Err`: the first error that is not `io.EOF`. -/
def Scanner.Err (s : Scanner) : Option GoError :=
  match s.err with
  | none => none
  | some ScanErr.eof => none
  | some ScanErr.tooLong => some GoError.tooLong
  | some ScanErr.negativeAdvance => some GoError.negativeAdvance
  | some ScanErr.advanceTooFar => some GoError.advanceTooFar
  | some ScanErr.noProgress => some GoError.noProgress

/-- The method `Bytes`: the most recent token. -/
def Scanner.Bytes (s : Scanner) : List Byte := s.tok.getD []

/-- How a call of `Scan` ends. -/
inductive ScanResult
  /-- The call of `Scan` returned true: a token is available. -/
  | token (s : Scanner)
  /-- The call of `Scan` returned false. -/
  | stop (s : Scanner)
  /-- The call panicked (in the split function, or on too many empty tokens). -/
  | panic
  deriving DecidableEq, Repr

/-- The step "shift data to beginning of buffer if there's lots of empty space
or space is needed" of `Scan`. -/
def Scanner.shift (s : Scanner) : Scanner :=
  if s.start > 0 ∧ (s.buf.length = s.bufLen ∨ s.start > s.bufLen / 2) then
    { s with buf := s.buf.drop s.start, start := 0 }
  else s

/-- The step "is the buffer full? If so, resize" of `Scan`; `none` when the
buffer cannot grow any more (`ErrTooLong`). -/
def Scanner.grow (s : Scanner) : Option Scanner :=
  if s.buf.length = s.bufLen then
    if s.bufLen ≥ maxScanTokenSize ∨ s.bufLen > maxInt / 2 then none
    else
      let newSize := if s.bufLen * 2 = 0 then startBufSize else s.bufLen * 2
      some { s with buf := s.buf.drop s.start, start := 0,
                    bufLen := min newSize maxScanTokenSize }
  else some s

/-- The step "finally we can read some input" of `Scan`: one `Read` into the
free space of the buffer. With no free space every read is empty and the
scanner gives up with `io.ErrNoProgress`. -/
def Scanner.read (s : Scanner) : Scanner :=
  let space := s.bufLen - s.buf.length
  if space = 0 then s.setErr ScanErr.noProgress
  else if s.rest = [] then s.setErr ScanErr.eof
  else { s with buf := s.buf ++ s.rest.take space, rest := s.rest.drop space, empties := 0 }

/-- The second half of one round of the loop of `Scan`, entered when no token
could be produced from the buffer: stop at an error or end of file; otherwise
shift, resize and read. `Sum.inl` ends the call, `Sum.inr` is the scanner for
the next round. -/
def Scanner.fill (s : Scanner) : ScanResult ⊕ Scanner :=
  if s.err ≠ none then Sum.inl (ScanResult.stop { s with start := 0, buf := [] })
  else
    match s.shift.grow with
    | none => Sum.inl (ScanResult.stop (s.shift.setErr ScanErr.tooLong))
    | some s2 => Sum.inr s2.read

/-- One round of the loop of `Scan` with the split function of `doChunk`: try
to get a token from what the buffer holds, and fill the buffer when there is
none. `Sum.inl` ends the call, `Sum.inr` is the scanner for the next round. -/
def Scanner.round (opts : options) (s : Scanner) : ScanResult ⊕ Scanner :=
  if s.start < s.buf.length ∨ s.err ≠ none then
    match split opts (s.buf.drop s.start) (decide (s.err ≠ none)) with
    | none => Sum.inl ScanResult.panic
    | some (advance, token) =>
      if advance < 0 then Sum.inl (ScanResult.stop (s.setErr ScanErr.negativeAdvance))
      else if advance > ((s.buf.length - s.start : Nat) : Int) then
        Sum.inl (ScanResult.stop (s.setErr ScanErr.advanceTooFar))
      else
        let s1 : Scanner := { s with start := s.start + advance.toNat, tok := token }
        match token with
        | some _ =>
          if s1.err = none ∨ advance > 0 then Sum.inl (ScanResult.token { s1 with empties := 0 })
          else if s1.empties + 1 > maxConsecutiveEmptyReads then Sum.inl ScanResult.panic
          else Sum.inl (ScanResult.token { s1 with empties := s1.empties + 1 })
        | none => s1.fill
  else s.fill

/-- The method `Scan`; `fuel` bounds the rounds of its loop (`none`: the bound
was reached). -/
def Scanner.Scan (opts : options) : Nat → Scanner → Option ScanResult
  | 0, _ => none
  | fuel + 1, s =>
    match s.round opts with
    | Sum.inl r => some r
    | Sum.inr s1 => Scanner.Scan opts fuel s1

/-- The blocks a file yields: the tokens of the successive calls of `Scan` until
it returns false, with the final `scanner.Err()`; `none` when a call panics or
`fuel` (the bound on the calls and on the rounds of each) is reached. -/
def readBlocks (opts : options) (fuel : Nat) : Nat → Scanner →
    Option (List (List Byte) × Option GoError)
  | 0, _ => none
  | n + 1, s =>
    match Scanner.Scan opts fuel s with
    | none => none
    | some ScanResult.panic => none
    | some (ScanResult.stop s1) => some ([], s1.Err)
    | some (ScanResult.token s1) =>
      match readBlocks opts fuel n s1 with
      | none => none
      | some (bs, e) => some (s1.Bytes :: bs, e)

/-! ## The chunk writer -/

/-- One write to a chunk file: a delimiter line naming the relative path, or
the payload bytes of a `Write` call. -/
inductive Segment
  /-- The line `"\n----BEGIN FILE: %s----\n"`. -/
  | beginFile (relPath : String)
  /-- The line `"\n----CONTINUED FILE: %s----\n"`. -/
  | continuedFile (relPath : String)
  /-- The line `"\n----END PART OF FILE: %s----\n"`. -/
  | endPartOfFile (relPath : String)
  /-- The line `"\n----END FILE: %s----\n"`. -/
  | endFile (relPath : String)
  /-- File content written by `chunkFile.Write`. -/
  | payload (bytes : List Byte)
  deriving DecidableEq, Repr

/-- A file made by `os.Create`: its path, the writes it received in order, and
whether it has been closed. -/
structure ChunkFile where
  path : String
  segments : List Segment
  closed : Bool
  deriving DecidableEq, Repr

/-- The package-level variables of `main.go` and the effects of the writer: the
files created so far (a handle is a position in this list), the lines printed
to standard output, and the number of writes that failed because the handle
was nil or closed (the program drops the error of a write). -/
structure State where
  chunkIndex : Int
  chunkSizeRemaining : Int
  chunkFile : Option Nat
  files : List ChunkFile
  stdout : List String
  lostWrites : Nat
  deriving DecidableEq, Repr

/-- The state at program start. -/
def State.init : State :=
  { chunkIndex := 0, chunkSizeRemaining := 0, chunkFile := none, files := [], stdout := [],
    lostWrites := 0 }

/-- The call `chunkFile.Close()`; closing a nil or closed file has no effect
(the error is dropped). -/
def State.close (w : State) : State :=
  match w.chunkFile with
  | none => w
  | some h => { w with files := w.files.modify (fun f => { f with closed := true }) h }

/-- A write to `chunkFile`; it fails, with no effect on the file, when the
handle is nil or the file closed. -/
def State.write (w : State) (seg : Segment) : State :=
  match w.chunkFile with
  | none => { w with lostWrites := w.lostWrites + 1 }
  | some h =>
    match w.files.get? h with
    | none => { w with lostWrites := w.lostWrites + 1 }
    | some f =>
      if f.closed then { w with lostWrites := w.lostWrites + 1 }
      else { w with files := w.files.modify (fun f => { f with segments := f.segments ++ [seg] }) h }

/-- The path `filepath.Join(opts.reportPath, fmt.Sprintf("chunk%d.txt", chunkIndex))`. -/
def chunkPath (env : Env) (opts : options) (chunkIndex : Int) : String :=
  env.join opts.reportPath ("chunk" ++ toString chunkIndex ++ ".txt")

/-- How a call of `doChunk` ends. -/
inductive Exit
  /-- The call returned this error (`none` for nil). -/
  | returned (err : Option GoError)
  /-- The call panicked. -/
  | panicked
  deriving DecidableEq, Repr

/-- Lines 165-176: when the current chunk has no room left, close it and
create the next one. `Except.error` is the return of `doChunk` on a failure of
`os.Create`. -/
def openChunk (env : Env) (opts : options) (w : State) : Except (Exit × State) State :=
  if w.chunkSizeRemaining ≤ 0 then
    let w1 := if w.chunkFile ≠ none then w.close else w
    let path := chunkPath env opts w1.chunkIndex
    if env.createOk path then
      Except.ok { w1 with chunkFile := some w1.files.length
                          files := w1.files ++ [{ path := path, segments := [], closed := false }]
                          chunkIndex := w1.chunkIndex + 1
                          chunkSizeRemaining := opts.chunkSize }
    else Except.error (Exit.returned (some GoError.createFailed), { w1 with chunkFile := none })
  else Except.ok w

/-- Lines 178-203: write a header, as much of the block as the current chunk
has room for, and a trailer; close the chunk when it is full. The result is
the unwritten part of the block, the flag `needToContinue` and the state. -/
def writeSegment (relPath : String) (chunk : List Byte) (needToContinue : Bool) (w : State) :
    Except (Exit × State) (List Byte × Bool × State) :=
  -- lines 178-183: the header
  let w1 := if needToContinue then w.write (Segment.continuedFile relPath)
            else w.write (Segment.beginFile relPath)
  -- lines 185-189
  let truncated : Bool := decide ((chunk.length : Int) > w1.chunkSizeRemaining)
  let bytesToWrite : Int := if truncated then w1.chunkSizeRemaining else chunk.length
  -- line 191: the slice expression panics on a negative bound
  if bytesToWrite < 0 then Except.error (Exit.panicked, w1)
  else
    let w2 := w1.write (Segment.payload (chunk.take bytesToWrite.toNat))
    let w3 := { w2 with chunkSizeRemaining := w2.chunkSizeRemaining - bytesToWrite }
    -- lines 195-199: the trailer
    let w4 := if truncated then w3.write (Segment.endPartOfFile relPath)
              else w3.write (Segment.endFile relPath)
    -- lines 201-203
    let w5 := if w4.chunkSizeRemaining = 0 then w4.close else w4
    Except.ok (chunk.drop bytesToWrite.toNat, truncated, w5)

/-- The body of the loop `for len(chunk) > 0` (lines 165-203), once: from the
unwritten part of the block, the flag `needToContinue` and the state, either
the end of the call (`Except.error`) or the three after the round. -/
def placeStep (env : Env) (opts : options) (relPath : String) (chunk : List Byte)
    (needToContinue : Bool) (w : State) : Except (Exit × State) (List Byte × Bool × State) :=
  match openChunk env opts w with
  | Except.error r => Except.error r
  | Except.ok w1 => writeSegment relPath chunk needToContinue w1

/-- The loop `for len(chunk) > 0` (lines 164-204); `fuel` bounds its rounds.
The result is the flag `needToContinue` and the state after the loop, or the end
of the call. -/
def placeLoop (env : Env) (opts : options) (relPath : String) :
    Nat → List Byte → Bool → State → Option (Except (Exit × State) (Bool × State))
  | 0, _, _, _ => none
  | fuel + 1, chunk, needToContinue, w =>
    if chunk.length > 0 then
      match placeStep env opts relPath chunk needToContinue w with
      | Except.error r => some (Except.error r)
      | Except.ok (chunk1, needToContinue1, w1) =>
        placeLoop env opts relPath fuel chunk1 needToContinue1 w1
    else some (Except.ok (needToContinue, w))

/-- The loop `for scanner.Scan()` of `doChunk` (lines 156-205) and the return
after it; `n` bounds the number of its rounds, `fuel` the rounds of the loops
inside. -/
def scanLoop (env : Env) (opts : options) (filePath : String) (fuel : Nat) :
    Nat → Scanner → Bool → State → Option (Exit × State)
  | 0, _, _, _ => none
  | n + 1, scanner, needToContinue, w =>
    match Scanner.Scan opts fuel scanner with
    | none => none
    | some ScanResult.panic => some (Exit.panicked, w)
    | some (ScanResult.stop scanner1) => some (Exit.returned scanner1.Err, w)
    | some (ScanResult.token scanner1) =>
      let chunk := scanner1.Bytes
      if !env.isText chunk then
        some (Exit.returned none,
          { w with stdout := w.stdout ++ ["Skipping non-text file: " ++ filePath] })
      else
        let relPath := env.rel opts.source filePath
        match placeLoop env opts relPath fuel chunk needToContinue w with
        | none => none
        | some (Except.error r) => some r
        | some (Except.ok (needToContinue1, w1)) =>
          scanLoop env opts filePath fuel n scanner1 needToContinue1 w1

/-- The function `doChunk` of `main.go`. Every loop runs for at most `fuel`
rounds; the result is `none` when that bound is reached. -/
def doChunk (env : Env) (opts : options) (fuel : Nat) (filePath : String) (w : State) :
    Option (Exit × State) :=
  match env.openFile filePath with
  | none => some (Exit.returned (some GoError.openFailed), w)
  | some content => scanLoop env opts filePath fuel fuel (NewScanner content) false w

/-- The states the writer can be in between calls of `doChunk`, from program
start, whatever the files and however each call ends. -/
inductive Reachable (env : Env) (opts : options) : State → Prop
  | init : Reachable env opts State.init
  | call {w w1 : State} (fuel : Nat) (filePath : String) (e : Exit) :
      Reachable env opts w → doChunk env opts fuel filePath w = some (e, w1) →
      Reachable env opts w1

/-- The payload bytes of a chunk file, in the order written. -/
def ChunkFile.payload (f : ChunkFile) : List Byte :=
  (f.segments.map (fun seg => match seg with
    | Segment.payload bytes => bytes
    | _ => [])).flatten

/-- The payload bytes of all chunk files, in the order of creation. -/
def State.payload (w : State) : List Byte :=
  (w.files.map ChunkFile.payload).flatten

/-! ## Invariants, auxiliary definitions and examples -/

/-- The part of the file the scanner has not turned into tokens yet. -/
def Scanner.pending (s : Scanner) : List Byte := s.buf.drop s.start ++ s.rest

/-- Well-formedness of a scanner that has met no error but the end of the file. -/
def Scanner.Good (s : Scanner) : Prop :=
  s.start ≤ s.buf.length ∧ s.buf.length ≤ s.bufLen ∧ s.bufLen ≤ maxScanTokenSize ∧
  (s.err = none ∨ (s.err = some ScanErr.eof ∧ s.rest = []))

/-- The scanner measure: what is left to read, plus one while the end of the
file has not been seen. -/
def Scanner.todo (s : Scanner) : Nat := s.rest.length + (if s.err = none then 1 else 0)

/-- The state after lines 166-175 when `os.Create` succeeds: the old chunk is
closed and a new, empty chunk is the current one. -/
def State.rotated (env : Env) (opts : options) (w : State) : State :=
  { (if w.chunkFile ≠ none then w.close else w) with
    chunkIndex := w.chunkIndex + 1
    chunkSizeRemaining := opts.chunkSize
    chunkFile := some w.files.length
    files := (if w.chunkFile ≠ none then w.close else w).files ++
      [{ path := chunkPath env opts w.chunkIndex, segments := [], closed := false }] }

/-- The header line of a segment. -/
def header (needToContinue : Bool) (relPath : String) : Segment :=
  if needToContinue then Segment.continuedFile relPath else Segment.beginFile relPath

/-- The trailer line of a segment. -/
def trailer (truncated : Bool) (relPath : String) : Segment :=
  if truncated then Segment.endPartOfFile relPath else Segment.endFile relPath

/-- The writer invariant for capacity `cap`: the room left is within bounds,
no write was lost, no chunk holds more payload than `cap`, and the current
chunk is the last one created, with `cap` minus its payload as room left and
open while there is room. -/
def State.Inv (cap : Int) (w : State) : Prop :=
  0 ≤ w.chunkSizeRemaining ∧ w.chunkSizeRemaining ≤ cap ∧ w.lostWrites = 0 ∧
  (∀ f ∈ w.files, (f.payload.length : Int) ≤ cap) ∧
  (0 < w.chunkSizeRemaining → w.chunkFile ≠ none) ∧
  (∀ h, w.chunkFile = some h → ∃ pre f, w.files = pre ++ [f] ∧ h = pre.length ∧
    w.chunkSizeRemaining = cap - (f.payload.length : Int) ∧
    (0 < w.chunkSizeRemaining → f.closed = false))

/-- The content cut into pieces of `c` bytes, the last one possibly shorter. -/
def blocks (c : Nat) (u : List Byte) : List (List Byte) :=
  if h : 0 < c ∧ u ≠ [] then
    have : (u.drop c).length < u.length := by
      have hpos := List.length_pos.mpr h.2
      simp only [List.length_drop]
      omega
    u.take c :: blocks c (u.drop c)
  else []
termination_by u.length

/-- The scanner never fills its largest buffer without finding a token: the
chunk size is at most `bufio.MaxScanTokenSize`, or the file is shorter. -/
def Fits (opts : options) (content : List Byte) : Prop :=
  opts.chunkSize ≤ maxScanTokenSize ∨ content.length < maxScanTokenSize

/-- Every block the scanner yields for the file is classified as text. -/
def TextBlocks (env : Env) (opts : options) (content : List Byte) : Prop :=
  ∀ (fuel n : Nat) (bs : List (List Byte)) (e : Option GoError),
    readBlocks opts fuel n (NewScanner content) = some (bs, e) → ∀ b ∈ bs, env.isText b = true

/-- The calls of `doChunk` that the walk makes for a list of files, in order;
the walk stops at the first call that does not return nil. -/
def processFiles (env : Env) (opts : options) (fuel : Nat) :
    List String → State → Option (Exit × State)
  | [], w => some (Exit.returned none, w)
  | filePath :: rest, w =>
    match doChunk env opts fuel filePath w with
    | none => none
    | some (Exit.returned none, w1) => processFiles env opts fuel rest w1
    | some r => some r

/-- Whether a list of characters occurs inside another one. -/
def occursIn (pat : List Char) : List Char → Bool
  | [] => pat.isPrefixOf []
  | c :: cs => pat.isPrefixOf (c :: cs) || occursIn pat cs

/-- An environment for examples: the pattern `**/.git/**` matches the paths
with a component `.git`, any other pattern the paths that start with it; a
block is text when it holds no zero byte; the file `aa` holds two bytes `a`,
the file `a0` a byte `a` and a zero byte, the file `00` two zero bytes. -/
def exampleEnv : Env :=
  { pathMatch := fun pattern name =>
      if pattern = gitPattern then (occursIn "/.git/".data name.data, false)
      else (pattern.data.isPrefixOf name.data, false)
    isText := fun b => !b.contains 0
    rel := fun _ p => p
    join := fun d n => d ++ "/" ++ n
    openFile := fun p =>
      if p = "aa" then some [97, 97]
      else if p = "a0" then some [97, 0]
      else if p = "00" then some [0, 0]
      else none
    createOk := fun _ => true }

/-- Options for examples, with a capacity in bytes. -/
def exampleOpts (chunkSize : Int) : options :=
  { chunkSize := chunkSize, includePatterns := ["src"], excludePatterns := ["src/vendor"],
    reportPath := "out", source := "src" }

/-- The files are numbered in the order of creation: the index of the next
chunk is the number of files, and the file at position `n` is `chunk<n>.txt`. -/
def State.Numbered (env : Env) (opts : options) (w : State) : Prop :=
  w.chunkIndex = (w.files.length : Int) ∧
  w.files.map ChunkFile.path =
    (List.range w.files.length).map (fun n : Nat => chunkPath env opts (n : Int))

/-- The state after `doChunk` has processed the example file `aa` with capacity
2 from program start. -/
def exampleState : State :=
  { chunkIndex := 1, chunkSizeRemaining := 0, chunkFile := some 0,
    files := [{ path := "out/chunk0.txt",
                segments := [Segment.beginFile "aa", Segment.payload [97, 97],
                  Segment.endFile "aa"],
                closed := true }],
    stdout := [], lostWrites := 0 }

/-- The state after the first block of a file longer than the capacity has been
placed from program start: `chunk0.txt` holds it between `BEGIN FILE` and
`END FILE`, is full and closed. -/
def afterFirstBlock (env : Env) (opts : options) (filePath : String) (content : List Byte) :
    State :=
  { chunkIndex := 1, chunkSizeRemaining := 0, chunkFile := some 0,
    files := [⟨chunkPath env opts 0,
      [Segment.beginFile (env.rel opts.source filePath),
        Segment.payload (content.take opts.chunkSize.toNat),
        Segment.endFile (env.rel opts.source filePath)], true⟩],
    stdout := [], lostWrites := 0 }

/-- The example environment with a classifier that takes every block as text. -/
def textEnv : Env := { exampleEnv with isText := fun _ => true }

/-- The example environment with a given classifier and with the given content
at every path. -/
def constEnv (isText : List Byte → Bool) (content : List Byte) : Env :=
  { exampleEnv with isText := isText, openFile := fun _ => some content }

/-- The classifier of the example environment: a block is text when it holds no
zero byte. -/
def noZeroByte (b : List Byte) : Bool := !b.contains 0

/-- The segments of a file that is written whole: `BEGIN FILE`, the content,
`END FILE`. -/
def wholeFile (env : Env) (opts : options) (pc : String × List Byte) : List Segment :=
  [Segment.beginFile (env.rel opts.source pc.1), Segment.payload pc.2,
    Segment.endFile (env.rel opts.source pc.1)]

/-- The function `shouldProcess` without its trailing exclude loop (lines
117-122 deleted). -/
def shouldProcessNoTail (env : Env) (opts : options) (filePath : String) : Bool :=
  if anyMatch env opts.excludePatterns filePath then false
  else if opts.includePatterns.length > 0 then
    (if anyMatch env opts.includePatterns filePath then true else false)
  else true

/-- The formula `!anyExcludeMatches && (len(include) == 0 || anyIncludeMatches)`,
where a pattern matches when `PathMatch` reports a match and no error. -/
def shouldProcessFormula (env : Env) (opts : options) (filePath : String) : Bool :=
  !(opts.excludePatterns.any
      (fun p => (env.pathMatch p filePath).1 && !(env.pathMatch p filePath).2)) &&
    (opts.includePatterns.length == 0 ||
      opts.includePatterns.any
        (fun p => (env.pathMatch p filePath).1 && !(env.pathMatch p filePath).2))

/-- An environment in which the file `empty` has length 0. -/
def emptyFileEnv : Env := { exampleEnv with openFile := fun _ => some [] }

/-- Every open chunk file is the current one: a file that is not closed sits at
the position the handle `chunkFile` refers to. -/
def State.OpenIsCurrent (w : State) : Prop :=
  ∀ i f, w.files.get? i = some f → f.closed = false → w.chunkFile = some i

/-- Every chunk file is closed. -/
def State.AllClosed (w : State) : Prop :=
  ∀ i f, w.files.get? i = some f → f.closed = true

/-- The state after `doChunk` has processed the example file `aa` twice with
capacity 3 from program start: the second copy is split over two chunks. -/
def exampleSplitState : State :=
  { chunkIndex := 2, chunkSizeRemaining := 2, chunkFile := some 1,
    files := [⟨"out/chunk0.txt",
        [Segment.beginFile "aa", Segment.payload [97, 97], Segment.endFile "aa",
          Segment.beginFile "aa", Segment.payload [97], Segment.endPartOfFile "aa"], true⟩,
      ⟨"out/chunk1.txt",
        [Segment.continuedFile "aa", Segment.payload [97], Segment.endFile "aa"], false⟩],
    stdout := [], lostWrites := 0 }

/-- The payload lengths of the chunk files, in the order of creation. -/
def State.lens (w : State) : List Nat := w.files.map (fun f => f.payload.length)

/-- Tight packing for capacity `cap`: every chunk but the last holds `cap`
payload bytes, and the last holds at least one byte and `cap` minus the room
left. -/
def State.Tight (cap : Int) (w : State) : Prop :=
  ∀ (pre : List Nat) (x : Nat), w.lens = pre ++ [x] →
    (∀ y ∈ pre, (y : Int) = cap) ∧ 1 ≤ x ∧ w.chunkSizeRemaining = cap - (x : Int)

/-- The number of rounds the loop `for len(chunk) > 0` runs (a round that ends
the call counts); `none` when `fuel` is reached, exactly as for `placeLoop`. -/
def placeRounds (env : Env) (opts : options) (relPath : String) :
    Nat → List Byte → Bool → State → Option Nat
  | 0, _, _, _ => none
  | fuel + 1, chunk, needToContinue, w =>
    if chunk.length > 0 then
      match placeStep env opts relPath chunk needToContinue w with
      | Except.error _ => some 1
      | Except.ok (chunk1, needToContinue1, w1) =>
        (placeRounds env opts relPath fuel chunk1 needToContinue1 w1).map (fun k => k + 1)
    else some 0

/-- The ceiling of `n / c`. -/
def ceilDiv (n c : Nat) : Nat := (n + c - 1) / c

/-- The call `strings.Contains(s, substr)`: whether `substr` occurs in `s`. -/
def strings.Contains (s substr : String) : Bool := occursIn substr.data s.data

/-- The guard at the top of the walk callback (line 72):
`strings.Contains(filePath, filepath.Join(opts.reportPath, "chunk"))`. -/
def skipsChunkFile (env : Env) (opts : options) (filePath : String) : Bool :=
  strings.Contains filePath (env.join opts.reportPath "chunk")

/-- The callback that `main` passes to `filepath.Walk` (lines 65-82), for a
walked path, whether it is a directory, and the error the walk hands in. -/
def walkFn (env : Env) (opts : options) (fuel : Nat) (filePath : String) (isDir : Bool)
    (err : Option GoError) (w : State) : Option (Exit × State) :=
  match err with
  | some e => some (Exit.returned (some e), w)
  | none =>
    if skipsChunkFile env opts filePath then some (Exit.returned none, w)
    else if !isDir && shouldProcess env opts filePath then doChunk env opts fuel filePath w
    else some (Exit.returned none, w)

/-- The example environment with a source file `src/layout/chunk.go` of two
bytes `a`. -/
def layoutEnv : Env :=
  { exampleEnv with
    openFile := fun p => if p = "src/layout/chunk.go" then some [97, 97] else none }

/-- A header, a payload and a trailer written for one relative path: what one
round of the placement loop writes. -/
structure Piece where
  /-- The header is `CONTINUED FILE` (otherwise `BEGIN FILE`). -/
  continued : Bool
  /-- The relative path named in the header and in the trailer. -/
  path : String
  /-- The payload bytes. -/
  bytes : List Byte
  /-- The trailer is `END PART OF FILE` (otherwise `END FILE`). -/
  part : Bool
  deriving DecidableEq, Repr

/-- The three segments of a piece. -/
def Piece.segments (p : Piece) : List Segment :=
  [header p.continued p.path, Segment.payload p.bytes, trailer p.part p.path]

/-- The pieces of a chunk, each marked with whether it is the first of the
chunk. -/
def markFirst : List Piece → List (Bool × Piece)
  | [] => []
  | p :: ps => (true, p) :: ps.map (fun q => (false, q))

/-- The pieces of all chunks in the order written, with the marks of
`markFirst`. -/
def written (pieces : List (List Piece)) : List (Bool × Piece) :=
  (pieces.map markFirst).flatten

/-- Two pieces written one right after the other fit: the first ends with
`END PART OF FILE` exactly when the second starts with `CONTINUED FILE`, and
then the second is the first piece of its chunk and names the same path. -/
def linked (a b : Bool × Piece) : Bool :=
  (a.2.part == b.2.continued) &&
    (!b.2.continued || (b.1 && decide (b.2.path = a.2.path)))

/-- The delimiters of the chunks `segs` (the segments of each chunk, in the
order of creation) are paired up to a rest still to be placed: every chunk is
a non-empty sequence of pieces, pieces that follow one another are `linked`,
the first piece does not start with `CONTINUED FILE`, and the last piece ends
with `END PART OF FILE` exactly when `ntc` holds, for the path `r` then. -/
def PairedUpTo (ntc : Bool) (r : String) (segs : List (List Segment)) : Prop :=
  ∃ pieces : List (List Piece),
    segs = pieces.map (fun ps => (ps.map Piece.segments).flatten) ∧
    (∀ ps ∈ pieces, ps ≠ []) ∧
    List.Chain' (fun a b => linked a b = true) (written pieces) ∧
    (∀ a, (written pieces).head? = some a → a.2.continued = false) ∧
    (∀ a, (written pieces).getLast? = some a → a.2.part = ntc ∧ (ntc = true → a.2.path = r)) ∧
    (ntc = true → written pieces ≠ [])

/-- The delimiters of the chunks `segs` (the segments of each chunk, in the
order of creation) are paired: every chunk is a non-empty sequence of pieces
header, payload, trailer; for two pieces written one right after the other, the
first ends with `END PART OF FILE` exactly when the second starts with
`CONTINUED FILE`, and then the second is the first piece of its chunk and names
the same path; the first piece of all does not start with `CONTINUED FILE` and
the last one does not end with `END PART OF FILE`. -/
def Paired (segs : List (List Segment)) : Prop :=
  ∃ pieces : List (List Piece),
    segs = pieces.map (fun ps => (ps.map Piece.segments).flatten) ∧
    (∀ ps ∈ pieces, ps ≠ []) ∧
    List.Chain' (fun a b => linked a b = true) (written pieces) ∧
    (∀ a, (written pieces).head? = some a → a.2.continued = false) ∧
    (∀ a, (written pieces).getLast? = some a → a.2.part = false)

/-- The creations and writes of the chunks `segs` in order: `none` stands for
the creation of a chunk by `os.Create`, `some seg` for a segment written. -/
def trace (segs : List (List Segment)) : List (Option Segment) :=
  (segs.map (fun s => none :: s.map some)).flatten

/-- Every `END PART OF FILE` is followed at once by the creation of a chunk and
the header `CONTINUED FILE` for the same path. -/
def EndPartsContinue (l : List (Option Segment)) : Prop :=
  ∀ (pre post : List (Option Segment)) (p : String),
    l = pre ++ some (Segment.endPartOfFile p) :: post →
    ∃ post2, post = none :: some (Segment.continuedFile p) :: post2

/-- Every `CONTINUED FILE` comes right after an `END PART OF FILE` for the same
path and the creation of a chunk. -/
def ContinuedAfterEndPart (l : List (Option Segment)) : Prop :=
  ∀ (pre post : List (Option Segment)) (p : String),
    l = pre ++ some (Segment.continuedFile p) :: post →
    ∃ pre2, pre = pre2 ++ [some (Segment.endPartOfFile p), none]

/-- The two properties above up to a rest still to be placed: an
`END PART OF FILE` may be the last entry when `ntc` holds, for the path `r`, and
it is then. -/
def TraceUpTo (ntc : Bool) (r : String) (l : List (Option Segment)) : Prop :=
  (∀ (pre post : List (Option Segment)) (p : String),
    l = pre ++ some (Segment.endPartOfFile p) :: post →
    (∃ post2, post = none :: some (Segment.continuedFile p) :: post2) ∨
      (post = [] ∧ ntc = true ∧ p = r)) ∧
  ContinuedAfterEndPart l ∧
  (ntc = true → ∃ pre, l = pre ++ [some (Segment.endPartOfFile r)])

/-- The states of the writer between the calls of `doChunk` in a run that has
not failed: every call so far returned nil (the walk stops at the first call
that returns an error, and `main` exits). -/
inductive Completed (env : Env) (opts : options) : State → Prop
  | init : Completed env opts State.init
  | call {w w1 : State} (fuel : Nat) (filePath : String) :
      Completed env opts w → doChunk env opts fuel filePath w = some (Exit.returned none, w1) →
      Completed env opts w1

/-- The example environment where `os.Create` succeeds for `out/chunk0.txt`
only. -/
def createOnceEnv : Env :=
  { exampleEnv with createOk := fun p => decide (p = "out/chunk0.txt") }

/-! # Theorems

## Path filter and option parsing: lemmas -/

theorem anyMatch_iff (env : Env) (patterns : List String) (filePath : String) :
    anyMatch env patterns filePath = true ↔
      ∃ p ∈ patterns, (env.pathMatch p filePath).1 = true := by
  induction patterns with
  | nil => simp [anyMatch]
  | cons p ps ih =>
    simp only [anyMatch, List.mem_cons, exists_eq_or_imp]
    by_cases h : (env.pathMatch p filePath).1 = true
    · simp [h]
    · simp [h, ih]

theorem shouldProcess_of_excluded (env : Env) (opts : options) (filePath : String)
    (h : anyMatch env opts.excludePatterns filePath = true) :
    shouldProcess env opts filePath = false := by
  simp [shouldProcess, h]

theorem anyMatch_append (env : Env) (ps qs : List String) (filePath : String) :
    anyMatch env (ps ++ qs) filePath = (anyMatch env ps filePath || anyMatch env qs filePath) := by
  induction ps with
  | nil => simp [anyMatch]
  | cons p ps ih =>
    simp only [List.cons_append, anyMatch]
    by_cases h : (env.pathMatch p filePath).1 = true
    · simp [h]
    · simp [h, ih]

theorem splitOnSep_ne_nil (sep : Char) (cs : List Char) : splitOnSep sep cs ≠ [] := by
  cases cs with
  | nil => simp [splitOnSep]
  | cons c cs =>
    simp only [splitOnSep]
    split
    · simp
    · split <;> simp

/-- Joining the fields with the separator gives the split string back. -/
theorem splitOnSep_intercalate (sep : Char) (cs : List Char) :
    [sep].intercalate (splitOnSep sep cs) = cs := by
  induction cs with
  | nil => simp [splitOnSep, List.intercalate]
  | cons c cs ih =>
    simp only [splitOnSep]
    by_cases h : c = sep
    · subst h
      simp only [if_true]
      have hne := splitOnSep_ne_nil c cs
      cases hs : splitOnSep c cs with
      | nil => exact absurd hs hne
      | cons f fs =>
        rw [hs] at ih
        simp only [List.intercalate, List.intersperse, List.flatten] at ih ⊢
        simp [ih]
    · simp only [h, if_false]
      have hne := splitOnSep_ne_nil sep cs
      cases hs : splitOnSep sep cs with
      | nil => exact absurd hs hne
      | cons f fs =>
        rw [hs] at ih
        cases fs with
        | nil =>
          simp only [List.intercalate, List.intersperse, List.flatten] at ih ⊢
          simp at ih ⊢
          exact ih
        | cons g gs =>
          simp only [List.intercalate, List.intersperse, List.flatten] at ih ⊢
          simp at ih ⊢
          exact ih

/-- No field contains the separator. -/
theorem splitOnSep_not_mem (sep : Char) (cs : List Char) :
    ∀ f ∈ splitOnSep sep cs, sep ∉ f := by
  induction cs with
  | nil => simp [splitOnSep]
  | cons c cs ih =>
    simp only [splitOnSep]
    by_cases h : c = sep
    · subst h
      simp only [if_true, List.mem_cons]
      rintro f (rfl | hf)
      · simp
      · exact ih f hf
    · simp only [h, if_false]
      have hne := splitOnSep_ne_nil sep cs
      cases hs : splitOnSep sep cs with
      | nil => exact absurd hs hne
      | cons f fs =>
        rw [hs] at ih
        simp only [List.mem_cons]
        rintro g (rfl | hg)
        · have := ih f (by simp)
          simp only [List.mem_cons, not_or]
          exact ⟨fun e => h e.symm, this⟩
        · exact ih g (by simp [hg])

theorem Scanner.good_new (content : List Byte) : (NewScanner content).Good := by
  simp [Scanner.Good, NewScanner]

theorem Scanner.shift_spec (s : Scanner) (h1 : s.start ≤ s.buf.length) (h2 : s.buf.length ≤ s.bufLen) :
    s.shift.rest = s.rest ∧ s.shift.err = s.err ∧ s.shift.tok = s.tok ∧
    s.shift.bufLen = s.bufLen ∧ s.shift.buf.drop s.shift.start = s.buf.drop s.start ∧
    s.shift.start ≤ s.shift.buf.length ∧ s.shift.buf.length ≤ s.bufLen ∧
    s.shift.buf.length - s.shift.start = s.buf.length - s.start ∧
    (s.shift.buf.length = s.bufLen → s.shift.start = 0) ∧
    (s.start = 0 → s.shift = s) := by
  unfold Scanner.shift
  split_ifs with h
  · simp only [List.length_drop, List.drop_zero]
    refine ⟨trivial, trivial, trivial, trivial, trivial, ?_, ?_, ?_, ?_, ?_⟩ <;> omega
  · simp only [not_and, not_or] at h
    refine ⟨rfl, rfl, rfl, rfl, rfl, h1, h2, rfl, ?_, fun _ => rfl⟩
    intro hb
    by_contra h0
    exact (h (Nat.pos_of_ne_zero h0)).1 hb

theorem Scanner.grow_spec (s : Scanner) (h1 : s.start ≤ s.buf.length) (h2 : s.buf.length ≤ s.bufLen)
    (h3 : s.bufLen ≤ maxScanTokenSize) (h0 : s.buf.length = s.bufLen → s.start = 0) :
    (s.grow = none ∧ s.buf.length = s.bufLen ∧ s.bufLen = maxScanTokenSize ∧ s.start = 0) ∨
    ∃ s2, s.grow = some s2 ∧ s2.rest = s.rest ∧ s2.err = s.err ∧ s2.tok = s.tok ∧
      s2.buf.drop s2.start = s.buf.drop s.start ∧ s2.start ≤ s2.buf.length ∧
      s2.buf.length < s2.bufLen ∧ s2.bufLen ≤ maxScanTokenSize ∧
      s2.buf.length - s2.start = s.buf.length - s.start ∧
      (s.start = 0 → s2.start = 0 ∧ s2.buf = s.buf) := by
  unfold Scanner.grow
  simp only [maxScanTokenSize, maxInt, startBufSize] at *
  split_ifs with ha hb hc
  · left
    refine ⟨rfl, ha, ?_, h0 ha⟩
    omega
  · right
    have hs := h0 ha
    refine ⟨_, rfl, ?_⟩
    simp only [List.length_drop, List.drop_zero, hs]
    refine ⟨trivial, trivial, trivial, trivial, ?_, ?_, ?_, ?_, ?_⟩ <;> first | omega | simp
  · right
    have hs := h0 ha
    refine ⟨_, rfl, ?_⟩
    simp only [List.length_drop, List.drop_zero, hs]
    refine ⟨trivial, trivial, trivial, trivial, ?_, ?_, ?_, ?_, ?_⟩ <;> first | omega | simp
  · right
    refine ⟨_, rfl, rfl, rfl, rfl, rfl, h1, ?_, h3, rfl, fun h => ⟨h, rfl⟩⟩
    omega

theorem Scanner.read_spec (s : Scanner) (h1 : s.start ≤ s.buf.length) (h2 : s.buf.length < s.bufLen)
    (herr : s.err = none) :
    s.read.tok = s.tok ∧ s.read.start = s.start ∧ s.read.bufLen = s.bufLen ∧
    s.read.buf.drop s.read.start ++ s.read.rest = s.buf.drop s.start ++ s.rest ∧
    s.read.buf.length ≤ s.bufLen ∧ s.buf.length ≤ s.read.buf.length ∧
    s.read.buf ++ s.read.rest = s.buf ++ s.rest ∧
    ((s.read.err = some ScanErr.eof ∧ s.rest = [] ∧ s.read.rest = [] ∧ s.read.buf = s.buf) ∨
      (s.read.err = none ∧ s.read.rest.length < s.rest.length ∧
        s.buf.length < s.read.buf.length)) := by
  unfold Scanner.read
  have hsp : ¬ (s.bufLen - s.buf.length = 0) := by omega
  simp only [hsp, if_false]
  split_ifs with hr
  · simp [Scanner.setErr, herr, hr]
    omega
  · have hpos : 0 < s.rest.length := List.length_pos.mpr hr
    simp only [List.length_append, List.length_take, List.length_drop, herr,
      List.append_assoc, List.take_append_drop, true_and]
    refine ⟨?_, ?_, ?_, ?_⟩
    · rw [List.drop_append_of_le_length h1, List.append_assoc, List.take_append_drop]
    · omega
    · omega
    · right
      refine ⟨?_, ?_⟩ <;> omega

theorem Scanner.fill_good (s : Scanner) (hg : s.Good) (herr : s.err = none)
    (hd : s.buf.length - s.start < maxScanTokenSize) :
    ∃ s2, s.fill = Sum.inr s2 ∧ s2.Good ∧ s2.pending = s.pending ∧ s2.tok = s.tok ∧
      ((s2.err = some ScanErr.eof ∧ s.rest = []) ∨
        (s2.err = none ∧ s2.rest.length < s.rest.length)) := by
  obtain ⟨h1, h2, h3, _⟩ := hg
  obtain ⟨a1, a2, a3, a4, a5, a6, a7, a8, a9, _⟩ := s.shift_spec h1 h2
  rw [← a4] at a7 a9
  rcases s.shift.grow_spec a6 a7 (a4 ▸ h3) a9 with ⟨_, hb, hc, hz⟩ | ⟨s2, hgr, b1, b2, b3, b4, b5, b6, b7, b8, _⟩
  · exfalso
    rw [hz] at a8
    omega
  · have herr2 : s2.err = none := by rw [b2, a2, herr]
    obtain ⟨c1, c2, c3, c4, c5, c6, c7, c8⟩ := s2.read_spec b5 b6 herr2
    refine ⟨s2.read, ?_, ?_, ?_, ?_, ?_⟩
    · unfold Scanner.fill
      simp [herr, hgr]
    · refine ⟨?_, ?_, ?_, ?_⟩
      · rw [c2]; omega
      · rw [c3]; omega
      · rw [c3]; exact b7
      · rcases c8 with ⟨e1, _, e3, _⟩ | ⟨e1, _, _⟩
        · exact Or.inr ⟨e1, e3⟩
        · exact Or.inl e1
    · unfold Scanner.pending
      rw [c4, b4, b1, a5, a1]
    · rw [c1, b3, a3]
    · rw [b1, a1] at c8
      rcases c8 with ⟨e1, e2, _, _⟩ | ⟨e1, e2, _⟩
      · exact Or.inl ⟨e1, e2⟩
      · exact Or.inr ⟨e1, e2⟩

theorem Scanner.Err_of_good (s : Scanner) (hg : s.Good) : s.Err = none := by
  rcases hg.2.2.2 with h | ⟨h, _⟩ <;> simp [Scanner.Err, h]

theorem split_full (opts : options) (data : List Byte) (atEOF : Bool)
    (hc : 0 < opts.chunkSize) (hge : (data.length : Int) ≥ opts.chunkSize) :
    split opts data atEOF = some (opts.chunkSize, some (data.take opts.chunkSize.toNat)) := by
  have hne : ¬ (data.length = 0) := by omega
  have hnn : ¬ opts.chunkSize < 0 := by omega
  simp [split, hne, hge, hnn]

theorem split_eof_empty (opts : options) : split opts [] true = some (0, none) := by
  simp [split]

theorem split_eof_short (opts : options) (data : List Byte)
    (hlt : ¬ (data.length : Int) ≥ opts.chunkSize) (hne : data ≠ []) :
    split opts data true = some ((data.length : Int), some data) := by
  simp [split, hne, hlt]

theorem split_more (opts : options) (data : List Byte)
    (hlt : ¬ (data.length : Int) ≥ opts.chunkSize) :
    split opts data false = some (0, none) := by
  simp [split, hlt]

/-- One round of `Scan` on a well-formed scanner, for a positive chunk size,
when the buffer cannot fill up before a token is found. -/
theorem Scanner.round_good (opts : options) (hc : 0 < opts.chunkSize) (s : Scanner)
    (hg : s.Good)
    (hfit : opts.chunkSize ≤ maxScanTokenSize ∨ s.pending.length < maxScanTokenSize) :
    (s.pending = [] ∧ s.err ≠ none ∧
      ∃ s1, s.round opts = Sum.inl (ScanResult.stop s1) ∧ s1.Err = none) ∨
    (s.pending ≠ [] ∧
      ∃ s1, s.round opts = Sum.inl (ScanResult.token s1) ∧
        s1.Bytes = s.pending.take opts.chunkSize.toNat ∧
        s1.pending = s.pending.drop opts.chunkSize.toNat ∧ s1.Good) ∨
    (s.err = none ∧
      ∃ s2, s.round opts = Sum.inr s2 ∧ s2.Good ∧
        s2.pending = s.pending ∧
        ((s2.err = some ScanErr.eof ∧ s.rest = []) ∨
          (s2.err = none ∧ s2.rest.length < s.rest.length))) := by
  obtain ⟨h1, h2, h3, h4⟩ := hg
  have hlen : s.pending.length = (s.buf.length - s.start) + s.rest.length := by
    simp [Scanner.pending]
  have hdlt : s.err = none → ¬ ((s.buf.length - s.start : Nat) : Int) ≥ opts.chunkSize →
      s.buf.length - s.start < maxScanTokenSize := by
    intro _ hlt
    rcases hfit with h | h
    · have : ((s.buf.length - s.start : Nat) : Int) < (maxScanTokenSize : Nat) := by omega
      exact_mod_cast this
    · omega
  -- the common tail: no token from the buffer, read more
  have htail : ∀ s1 : Scanner, s1.Good → s1.err = none → s1.pending = s.pending →
      s1.rest = s.rest → s1.buf.length - s1.start < maxScanTokenSize →
      ∃ s2, s1.fill = Sum.inr s2 ∧ s2.Good ∧ s2.pending = s.pending ∧
        ((s2.err = some ScanErr.eof ∧ s.rest = []) ∨
          (s2.err = none ∧ s2.rest.length < s.rest.length)) := by
    intro s1 hg1 he1 hp1 hr1 hd1
    obtain ⟨s2, e1, e2, e3, _, e5⟩ := s1.fill_good hg1 he1 hd1
    exact ⟨s2, e1, e2, e3.trans hp1, hr1 ▸ e5⟩
  by_cases hA : s.start < s.buf.length ∨ s.err ≠ none
  · by_cases hge : ((s.buf.length - s.start : Nat) : Int) ≥ opts.chunkSize
    · -- a full block is in the buffer
      right; left
      have hcn : opts.chunkSize.toNat ≤ s.buf.length - s.start := by omega
      have hpos : 0 < s.buf.length - s.start := by omega
      refine ⟨?_, ?_⟩
      · intro hp; rw [hp] at hlen; simp at hlen; omega
      · refine ⟨{ s with start := s.start + opts.chunkSize.toNat,
                         tok := some ((s.buf.drop s.start).take opts.chunkSize.toNat),
                         empties := 0 }, ?_, ?_, ?_, ?_⟩
        · unfold Scanner.round
          have hnn : ¬ opts.chunkSize < 0 := by omega
          have hna : ¬ opts.chunkSize > ((s.buf.length - s.start : Nat) : Int) := by omega
          rw [if_pos hA, split_full opts _ _ hc (by simpa using hge)]
          simp only [hnn, hna, if_false, hc, gt_iff_lt, or_true, if_true]
        · simp only [Scanner.Bytes, Scanner.pending, Option.getD_some]
          rw [List.take_append_of_le_length (by simpa using hcn)]
        · simp only [Scanner.pending]
          rw [← List.drop_drop, List.drop_append_of_le_length (by simpa using hcn)]
        · refine ⟨?_, h2, h3, h4⟩
          show s.start + opts.chunkSize.toNat ≤ s.buf.length
          omega
    · by_cases he : s.err = none
      · -- too little in the buffer, and the file has not ended: read more
        right; right
        have hlt : s.start < s.buf.length := by
          rcases hA with h | h
          · exact h
          · exact absurd he h
        obtain ⟨s2, e1, e2, e3, e4⟩ := htail { s with tok := none }
          ⟨h1, h2, h3, Or.inl he⟩ he rfl rfl (hdlt he hge)
        refine ⟨he, s2, ?_, e2, e3, e4⟩
        unfold Scanner.round
        rw [if_pos hA]
        have hd : decide (s.err ≠ none) = false := by simp [he]
        rw [hd, split_more opts _ (by simpa using hge)]
        simp only [lt_self_iff_false, if_false, gt_iff_lt, Int.toNat_zero, add_zero]
        have hna : ¬ ((s.buf.length - s.start : Nat) : Int) < 0 := by omega
        simp only [hna, if_false, e1]
      · -- the file has ended
        have heof : s.err = some ScanErr.eof ∧ s.rest = [] := by
          rcases h4 with h | h
          · exact absurd h he
          · exact h
        have hd : decide (s.err ≠ none) = true := by simp [he]
        by_cases h0 : s.buf.drop s.start = []
        · left
          refine ⟨by simp [Scanner.pending, h0, heof.2], he, ?_⟩
          refine ⟨{ s with start := 0, buf := [], tok := none }, ?_, ?_⟩
          · unfold Scanner.round
            rw [if_pos hA, hd, h0, split_eof_empty]
            simp only [lt_self_iff_false, if_false, gt_iff_lt, Int.toNat_zero, add_zero]
            have hna : ¬ ((s.buf.length - s.start : Nat) : Int) < 0 := by omega
            simp only [hna, if_false, Scanner.fill, ne_eq, he, not_false_eq_true, if_true]
          · simp [Scanner.Err, heof.1]
        · right; left
          have hdl : (s.buf.drop s.start).length = s.buf.length - s.start := by simp
          have hpos : 0 < s.buf.length - s.start := by
            rw [← hdl]; exact List.length_pos.mpr h0
          have hshort : s.buf.length - s.start ≤ opts.chunkSize.toNat := by omega
          refine ⟨by simp [Scanner.pending, h0], ?_⟩
          refine ⟨{ s with start := s.start + (s.buf.length - s.start),
                           tok := some (s.buf.drop s.start), empties := 0 }, ?_, ?_, ?_, ?_⟩
          · unfold Scanner.round
            rw [if_pos hA, hd, split_eof_short opts _ (by simpa using hge) h0, hdl]
            have hn1 : ¬ ((s.buf.length - s.start : Nat) : Int) < 0 := by omega
            have hp : ((s.buf.length - s.start : Nat) : Int) > 0 := by omega
            simp only [hn1, if_false, gt_iff_lt, lt_self_iff_false, hp, or_true, if_true,
              Int.toNat_ofNat]
          · simp only [Scanner.Bytes, Scanner.pending, Option.getD_some, heof.2,
              List.append_nil]
            rw [List.take_of_length_le (by rw [hdl]; exact hshort)]
          · simp only [Scanner.pending, heof.2, List.append_nil]
            rw [@List.drop_of_length_le _ _ (s.buf.drop s.start) (by rw [hdl]; exact hshort),
              List.drop_of_length_le (by omega)]
          · refine ⟨?_, h2, h3, h4⟩
            show s.start + (s.buf.length - s.start) ≤ s.buf.length
            omega
  · -- nothing in the buffer, and the file has not ended: read
    right; right
    have he : s.err = none := by
      by_contra h
      exact hA (Or.inr h)
    have hd0 : s.buf.length - s.start = 0 := by
      have : ¬ s.start < s.buf.length := fun h => hA (Or.inl h)
      omega
    obtain ⟨s2, e1, e2, e3, e4⟩ := htail s ⟨h1, h2, h3, h4⟩ he rfl rfl
      (by rw [hd0]; simp [maxScanTokenSize])
    refine ⟨he, s2, ?_, e2, e3, e4⟩
    unfold Scanner.round
    rw [if_neg hA]
    exact e1

theorem Scanner.Scan_succ (opts : options) (fuel : Nat) (s : Scanner) :
    Scanner.Scan opts (fuel + 1) s =
      match s.round opts with
      | Sum.inl r => some r
      | Sum.inr s1 => Scanner.Scan opts fuel s1 := rfl

/-- A call of `Scan` on a well-formed scanner, for a positive chunk size, when
the buffer cannot fill up before a token is found: it stops without error when
nothing is pending and returns the next block otherwise. -/
theorem Scanner.Scan_good (opts : options) (hc : 0 < opts.chunkSize) :
    ∀ (m : Nat) (s : Scanner) (fuel : Nat), s.Good →
      (opts.chunkSize ≤ maxScanTokenSize ∨ s.pending.length < maxScanTokenSize) →
      s.todo ≤ m → m < fuel →
      (s.pending = [] ∧
        ∃ s1, Scanner.Scan opts fuel s = some (ScanResult.stop s1) ∧ s1.Err = none) ∨
      (s.pending ≠ [] ∧
        ∃ s1, Scanner.Scan opts fuel s = some (ScanResult.token s1) ∧
          s1.Bytes = s.pending.take opts.chunkSize.toNat ∧
          s1.pending = s.pending.drop opts.chunkSize.toNat ∧ s1.Good) := by
  intro m
  induction m with
  | zero =>
    intro s fuel hg hfit hm hf
    obtain ⟨f, rfl⟩ : ∃ f, fuel = f + 1 := ⟨fuel - 1, by omega⟩
    rw [Scanner.Scan_succ]
    rcases Scanner.round_good opts hc s hg hfit with
      ⟨h1, _, s1, h2, h3⟩ | ⟨h1, s1, h2, h3⟩ | ⟨he, _⟩
    · exact Or.inl ⟨h1, s1, by rw [h2], h3⟩
    · exact Or.inr ⟨h1, s1, by rw [h2], h3⟩
    · simp [Scanner.todo, he] at hm
  | succ m ih =>
    intro s fuel hg hfit hm hf
    obtain ⟨f, rfl⟩ : ∃ f, fuel = f + 1 := ⟨fuel - 1, by omega⟩
    rw [Scanner.Scan_succ]
    rcases Scanner.round_good opts hc s hg hfit with
      ⟨h1, _, s1, h2, h3⟩ | ⟨h1, s1, h2, h3⟩ | ⟨he, s2, e1, e2, e3, e4⟩
    · exact Or.inl ⟨h1, s1, by rw [h2], h3⟩
    · exact Or.inr ⟨h1, s1, by rw [h2], h3⟩
    · have hm2 : s2.todo ≤ m := by
        simp only [Scanner.todo, he, if_true] at hm
        rcases e4 with ⟨a, _⟩ | ⟨a, b⟩
        · rcases e2.2.2.2 with c | ⟨_, c⟩
          · rw [a] at c; cases c
          · simp [Scanner.todo, a, c]
        · simp only [Scanner.todo, a, if_true]; omega
      rw [e1, ← e3]
      exact ih s2 f e2 (e3 ▸ hfit) hm2 (by omega)

theorem Scanner.todo_le_pending (s : Scanner) : s.todo ≤ s.pending.length + 1 := by
  simp only [Scanner.todo, Scanner.pending, List.length_append]
  split_ifs <;> omega

/-- More fuel does not change the result of `Scan`. -/
theorem Scanner.Scan_mono (opts : options) :
    ∀ (f : Nat) (s : Scanner) (r : ScanResult) (k : Nat),
      Scanner.Scan opts f s = some r → Scanner.Scan opts (f + k) s = some r := by
  intro f
  induction f with
  | zero => intro s r k h; simp [Scanner.Scan] at h
  | succ f ih =>
    intro s r k h
    have hk : f + 1 + k = (f + k) + 1 := by omega
    rw [hk, Scanner.Scan_succ]
    rw [Scanner.Scan_succ] at h
    cases hr : s.round opts with
    | inl r1 => rw [hr] at h; exact h
    | inr s1 => rw [hr] at h; exact ih _ _ _ h

/-- The second half of a round when the chunk size exceeds the largest buffer
and the file is at least as long as that buffer: the buffer grows, or the
scanner gives up with `ErrTooLong` once it is full at its largest size. -/
theorem Scanner.fill_tooLong (s : Scanner) (hg : s.Good) (h0 : s.start = 0) (he : s.err = none)
    (hlong : maxScanTokenSize ≤ s.buf.length + s.rest.length) :
    (∃ s1, s.fill = Sum.inl (ScanResult.stop s1) ∧ s1.Err = some GoError.tooLong) ∨
    (∃ s2, s.fill = Sum.inr s2 ∧ s2.Good ∧ s2.start = 0 ∧ s2.err = none ∧
      s2.buf.length + s2.rest.length = s.buf.length + s.rest.length ∧
      s.buf.length < s2.buf.length) := by
  obtain ⟨h1, h2, h3, _⟩ := hg
  obtain ⟨_, _, _, _, _, _, _, _, _, a10⟩ := s.shift_spec h1 h2
  have hsh : s.shift = s := a10 h0
  rcases s.grow_spec h1 h2 h3 (fun _ => h0) with ⟨hb, _, _, _⟩ |
    ⟨s2, hgr, b1, b2, b3, b4, b5, b6, b7, b8, b9⟩
  · left
    refine ⟨s.setErr ScanErr.tooLong, ?_, ?_⟩
    · unfold Scanner.fill
      simp [he, hsh, hb]
    · simp [Scanner.setErr, Scanner.Err, he]
  · right
    obtain ⟨z1, z2⟩ := b9 h0
    have herr2 : s2.err = none := by rw [b2, he]
    obtain ⟨c1, c2, c3, c4, c5, c6, c7, c8⟩ := s2.read_spec b5 b6 herr2
    have hsum : s2.read.buf.length + s2.read.rest.length = s.buf.length + s.rest.length := by
      have := congrArg List.length c7
      simp only [List.length_append] at this
      rw [this, z2, b1]
    refine ⟨s2.read, ?_, ?_, ?_, ?_, hsum, ?_⟩
    · unfold Scanner.fill
      simp [he, hsh, hgr]
    · rcases c8 with ⟨_, e2, _, _⟩ | ⟨e1, _, _⟩
      · exfalso
        rw [b1] at e2
        rw [e2, ← z2] at hlong
        simp at hlong
        omega
      · refine ⟨?_, ?_, ?_, Or.inl e1⟩
        · rw [c2, z1]; omega
        · rw [c3]; omega
        · rw [c3]; exact b7
    · rw [c2, z1]
    · rcases c8 with ⟨_, e2, _, _⟩ | ⟨e1, _, _⟩
      · exfalso
        rw [b1] at e2
        rw [e2, ← z2] at hlong
        simp at hlong
        omega
      · exact e1
    · rcases c8 with ⟨_, e2, _, _⟩ | ⟨_, _, e3⟩
      · exfalso
        rw [b1] at e2
        rw [e2, ← z2] at hlong
        simp at hlong
        omega
      · rw [← z2]; exact e3

theorem Scanner.round_tooLong (opts : options) (hc : (maxScanTokenSize : Int) < opts.chunkSize)
    (s : Scanner) (hg : s.Good) (h0 : s.start = 0) (he : s.err = none)
    (hlong : maxScanTokenSize ≤ s.buf.length + s.rest.length) :
    (∃ s1, s.round opts = Sum.inl (ScanResult.stop s1) ∧ s1.Err = some GoError.tooLong) ∨
    (∃ s2, s.round opts = Sum.inr s2 ∧ s2.Good ∧ s2.start = 0 ∧ s2.err = none ∧
      s2.buf.length + s2.rest.length = s.buf.length + s.rest.length ∧
      s.buf.length < s2.buf.length) := by
  by_cases hA : s.start < s.buf.length ∨ s.err ≠ none
  · have hlt : ¬ (((s.buf.drop s.start).length : Nat) : Int) ≥ opts.chunkSize := by
      have := hg.2.1
      have := hg.2.2.1
      simp only [List.length_drop]
      omega
    have hd : decide (s.err ≠ none) = false := by simp [he]
    have hround : s.round opts = ({ s with tok := none } : Scanner).fill := by
      unfold Scanner.round
      rw [if_pos hA, hd, split_more opts _ hlt]
      simp only [lt_self_iff_false, if_false, gt_iff_lt, Int.toNat_zero, add_zero]
      have hna : ¬ ((s.buf.length - s.start : Nat) : Int) < 0 := by omega
      simp only [hna, if_false]
    rw [hround]
    exact Scanner.fill_tooLong { s with tok := none } hg h0 he hlong
  · have hround : s.round opts = s.fill := by
      unfold Scanner.round
      rw [if_neg hA]
    rw [hround]
    exact Scanner.fill_tooLong s hg h0 he hlong

/-- With a chunk size above `bufio.MaxScanTokenSize` and a file of at least
that many bytes, the first call of `Scan` returns false with `ErrTooLong`. -/
theorem Scanner.Scan_tooLong (opts : options) (hc : (maxScanTokenSize : Int) < opts.chunkSize) :
    ∀ (m : Nat) (s : Scanner) (fuel : Nat), s.Good → s.start = 0 → s.err = none →
      maxScanTokenSize ≤ s.buf.length + s.rest.length →
      maxScanTokenSize - s.buf.length ≤ m → m < fuel →
      ∃ s1, Scanner.Scan opts fuel s = some (ScanResult.stop s1) ∧
        s1.Err = some GoError.tooLong := by
  intro m
  induction m with
  | zero =>
    intro s fuel hg h0 he hlong hm hf
    obtain ⟨f, rfl⟩ : ∃ f, fuel = f + 1 := ⟨fuel - 1, by omega⟩
    rw [Scanner.Scan_succ]
    rcases Scanner.round_tooLong opts hc s hg h0 he hlong with
      ⟨s1, h1, h2⟩ | ⟨s2, h1, h2, _, _, _, h6⟩
    · exact ⟨s1, by rw [h1], h2⟩
    · exfalso
      have := h2.2.1
      have := h2.2.2.1
      omega
  | succ m ih =>
    intro s fuel hg h0 he hlong hm hf
    obtain ⟨f, rfl⟩ : ∃ f, fuel = f + 1 := ⟨fuel - 1, by omega⟩
    rw [Scanner.Scan_succ]
    rcases Scanner.round_tooLong opts hc s hg h0 he hlong with
      ⟨s1, h1, h2⟩ | ⟨s2, h1, h2, h3, h4, h5, h6⟩
    · exact ⟨s1, by rw [h1], h2⟩
    · rw [h1]
      exact ih s2 f h2 h3 h4 (h5 ▸ hlong) (by omega) (by omega)

theorem State.close_files_length (w : State) : w.close.files.length = w.files.length := by
  unfold State.close
  split <;> simp

theorem State.close_chunkIndex (w : State) : w.close.chunkIndex = w.chunkIndex := by
  unfold State.close
  split <;> rfl

theorem modify_append_last (g : ChunkFile → ChunkFile) (pre : List ChunkFile) (f : ChunkFile) :
    List.modify g pre.length (pre ++ [f]) = pre ++ [g f] := by
  induction pre with
  | nil => simp
  | cons a pre ih => simp [ih]

theorem State.write_last (w : State) (pre : List ChunkFile) (f : ChunkFile) (seg : Segment)
    (hf : w.files = pre ++ [f]) (hh : w.chunkFile = some pre.length) (ho : f.closed = false) :
    w.write seg = { w with files := pre ++ [{ f with segments := f.segments ++ [seg] }] } := by
  unfold State.write
  simp only [hh, hf]
  have hget : (pre ++ [f]).get? pre.length = some f := by simp
  simp only [hget, ho, Bool.false_eq_true, if_false, modify_append_last]

theorem State.close_last (w : State) (pre : List ChunkFile) (f : ChunkFile)
    (hf : w.files = pre ++ [f]) (hh : w.chunkFile = some pre.length) :
    w.close = { w with files := pre ++ [{ f with closed := true }] } := by
  unfold State.close
  simp only [hh, hf, modify_append_last]

theorem openChunk_room (env : Env) (opts : options) (w : State)
    (hrem : 0 < w.chunkSizeRemaining) : openChunk env opts w = Except.ok w := by
  unfold openChunk
  rw [if_neg (by omega)]

theorem openChunk_rotate (env : Env) (opts : options) (w : State)
    (hrem : w.chunkSizeRemaining ≤ 0)
    (hok : env.createOk (chunkPath env opts w.chunkIndex) = true) :
    openChunk env opts w = Except.ok (w.rotated env opts) := by
  unfold openChunk State.rotated
  by_cases hh : w.chunkFile = none
  · simp [hh, hok, hrem]
  · simp [hh, hok, hrem, State.close_files_length, State.close_chunkIndex]

theorem openChunk_createFailed (env : Env) (opts : options) (w : State)
    (hrem : w.chunkSizeRemaining ≤ 0)
    (hok : env.createOk (chunkPath env opts w.chunkIndex) = false) :
    openChunk env opts w = Except.error (Exit.returned (some GoError.createFailed),
        { (if w.chunkFile ≠ none then w.close else w) with chunkFile := none }) := by
  unfold openChunk
  by_cases hh : w.chunkFile = none
  · simp [hh, hok, hrem]
  · simp [hh, hok, hrem, State.close_chunkIndex]

theorem State.write_mk (ci rem : Int) (pre : List ChunkFile) (p : String) (segs : List Segment)
    (out : List String) (lw : Nat) (seg : Segment) :
    State.write ⟨ci, rem, some pre.length, pre ++ [⟨p, segs, false⟩], out, lw⟩ seg =
      ⟨ci, rem, some pre.length, pre ++ [⟨p, segs ++ [seg], false⟩], out, lw⟩ :=
  State.write_last _ pre _ seg rfl rfl rfl

theorem State.close_mk (ci rem : Int) (pre : List ChunkFile) (p : String) (segs : List Segment)
    (c : Bool) (out : List String) (lw : Nat) :
    State.close ⟨ci, rem, some pre.length, pre ++ [⟨p, segs, c⟩], out, lw⟩ =
      ⟨ci, rem, some pre.length, pre ++ [⟨p, segs, true⟩], out, lw⟩ :=
  State.close_last _ pre _ rfl rfl

/-- Writing a segment when the current chunk is open and has room: the number of
bytes written is the smaller of the block length and the room left. -/
theorem writeSegment_open (relPath : String) (chunk : List Byte)
    (needToContinue : Bool) (w : State) (pre : List ChunkFile) (f : ChunkFile)
    (hf : w.files = pre ++ [f]) (hh : w.chunkFile = some pre.length) (ho : f.closed = false)
    (hrem : 0 ≤ w.chunkSizeRemaining) :
    writeSegment relPath chunk needToContinue w =
      Except.ok (chunk.drop (min chunk.length w.chunkSizeRemaining.toNat),
        decide ((chunk.length : Int) > w.chunkSizeRemaining),
        { w with
          files := pre ++ [{ f with
            segments := f.segments ++ [header needToContinue relPath,
              Segment.payload (chunk.take (min chunk.length w.chunkSizeRemaining.toNat)),
              trailer (decide ((chunk.length : Int) > w.chunkSizeRemaining)) relPath]
            closed := decide (w.chunkSizeRemaining ≤ chunk.length) }]
          chunkSizeRemaining :=
            w.chunkSizeRemaining - (min chunk.length w.chunkSizeRemaining.toNat : Nat) }) := by
  obtain ⟨ci, rem, h, files, out, lw⟩ := w
  obtain ⟨p, segs, cl⟩ := f
  simp only at hf hh ho hrem
  subst hf hh ho
  have hw1 : (if needToContinue then
        State.write ⟨ci, rem, some pre.length, pre ++ [⟨p, segs, false⟩], out, lw⟩
          (Segment.continuedFile relPath)
      else State.write ⟨ci, rem, some pre.length, pre ++ [⟨p, segs, false⟩], out, lw⟩
          (Segment.beginFile relPath)) =
      ⟨ci, rem, some pre.length, pre ++ [⟨p, segs ++ [header needToContinue relPath], false⟩],
        out, lw⟩ := by
    cases needToContinue <;> simp [header, State.write_mk]
  unfold writeSegment
  simp only [hw1]
  by_cases ht : (chunk.length : Int) > rem
  · have hmin : min chunk.length rem.toNat = rem.toNat := by omega
    have hcast : ((rem.toNat : Nat) : Int) = rem := by omega
    have hle : rem ≤ chunk.length := by omega
    have hnn : ¬ rem < 0 := by omega
    simp only [ht, decide_True, if_true, hmin, hcast, sub_self, hle, trailer, hnn, if_false,
      State.write_mk, State.close_mk, List.append_assoc, List.singleton_append, List.cons_append,
      List.nil_append]
  · have hmin : min chunk.length rem.toNat = chunk.length := by omega
    have hnn : ¬ ((chunk.length : Nat) : Int) < 0 := by omega
    simp only [ht, decide_False, if_false, hmin, trailer, hnn, Bool.false_eq_true,
      State.write_mk, Int.toNat_ofNat, List.append_assoc, List.singleton_append,
      List.cons_append, List.nil_append]
    by_cases hz : rem - (chunk.length : Int) = 0
    · have hle : rem ≤ chunk.length := by omega
      simp only [hz, if_true, State.close_mk, hle, decide_True]
    · have hle : ¬ rem ≤ chunk.length := by omega
      simp only [hz, if_false, hle, decide_False]

theorem State.inv_init (cap : Int) (hcap : 0 < cap) : State.init.Inv cap := by
  refine ⟨le_refl _, ?_, rfl, ?_, ?_, ?_⟩
  · simp only [State.init]; omega
  · simp [State.init]
  · simp [State.init]
  · simp [State.init]

theorem ChunkFile.payload_append (p : String) (segs more : List Segment) (c : Bool) :
    ChunkFile.payload ⟨p, segs ++ more, c⟩ =
      ChunkFile.payload ⟨p, segs, c⟩ ++ ChunkFile.payload ⟨p, more, c⟩ := by
  simp [ChunkFile.payload]

theorem ChunkFile.payload_segment (p : String) (segs : List Segment) (c c1 : Bool)
    (ntc tr : Bool) (relPath : String) (bytes : List Byte) :
    ChunkFile.payload ⟨p, segs ++ [header ntc relPath, Segment.payload bytes,
      trailer tr relPath], c⟩ = ChunkFile.payload ⟨p, segs, c1⟩ ++ bytes := by
  cases ntc <;> cases tr <;> simp [ChunkFile.payload, header, trailer]

theorem ChunkFile.payload_closed (f : ChunkFile) (c : Bool) :
    ChunkFile.payload { f with closed := c } = f.payload := rfl

theorem State.payload_last (w : State) (pre : List ChunkFile) (f : ChunkFile)
    (hf : w.files = pre ++ [f]) :
    w.payload = (pre.map ChunkFile.payload).flatten ++ f.payload := by
  simp [State.payload, hf]

theorem map_payload_modify_closed (l : List ChunkFile) (h : Nat) :
    (List.modify (fun f => { f with closed := true }) h l).map ChunkFile.payload =
      l.map ChunkFile.payload := by
  induction l generalizing h with
  | nil => cases h <;> simp
  | cons a l ih =>
    cases h with
    | zero => simp [ChunkFile.payload]
    | succ h => simp [ih]

theorem State.close_payloads (w : State) :
    w.close.files.map ChunkFile.payload = w.files.map ChunkFile.payload := by
  unfold State.close
  split
  · rfl
  · exact map_payload_modify_closed _ _

theorem State.close_mem_payload (w : State) (cap : Int)
    (h : ∀ f ∈ w.files, (f.payload.length : Int) ≤ cap) :
    ∀ f ∈ w.close.files, (f.payload.length : Int) ≤ cap := by
  intro f hf
  have h1 : f.payload ∈ w.close.files.map ChunkFile.payload := List.mem_map_of_mem _ hf
  rw [State.close_payloads] at h1
  obtain ⟨g, hg, hgf⟩ := List.mem_map.mp h1
  rw [← hgf]
  exact h g hg

/-- A round of the placement loop in a state that has a current, open chunk
with room: the invariant is kept and the payload grows by what was written. -/
theorem writeSegment_inv (relPath : String) (chunk : List Byte) (needToContinue : Bool)
    (cap : Int) (w : State) (pre : List ChunkFile) (f : ChunkFile)
    (hf : w.files = pre ++ [f]) (hh : w.chunkFile = some pre.length) (ho : f.closed = false)
    (hrem : 0 < w.chunkSizeRemaining) (hroom : w.chunkSizeRemaining = cap - f.payload.length)
    (hlw : w.lostWrites = 0) (hpre : ∀ g ∈ pre, (g.payload.length : Int) ≤ cap) :
    ∃ n w1, writeSegment relPath chunk needToContinue w =
        Except.ok (chunk.drop n, decide (n < chunk.length), w1) ∧
      w1.Inv cap ∧ w1.payload = w.payload ++ chunk.take n ∧ w1.stdout = w.stdout ∧
      w1.chunkIndex = w.chunkIndex ∧ w1.files.length = w.files.length ∧
      n ≤ chunk.length ∧ (chunk ≠ [] → 0 < n) := by
  have hpos : chunk ≠ [] → 0 < chunk.length := fun h => List.length_pos.mpr h
  have hd : decide ((chunk.length : Int) > w.chunkSizeRemaining) =
      decide (min chunk.length w.chunkSizeRemaining.toNat < chunk.length) := by
    simp only [gt_iff_lt, decide_eq_decide]
    omega
  have key := writeSegment_open relPath chunk needToContinue w pre f hf hh ho (le_of_lt hrem)
  rw [hd] at key
  refine ⟨min chunk.length w.chunkSizeRemaining.toNat, _, key, ?_, ?_, rfl, rfl, ?_, ?_, ?_⟩
  · have hlen : (chunk.take (min chunk.length w.chunkSizeRemaining.toNat)).length =
        min chunk.length w.chunkSizeRemaining.toNat := by simp
    refine ⟨?_, ?_, hlw, ?_, ?_, ?_⟩
    · show 0 ≤ w.chunkSizeRemaining - _
      omega
    · show w.chunkSizeRemaining - _ ≤ cap
      omega
    · intro g hg
      simp only [List.mem_append, List.mem_singleton] at hg
      rcases hg with hg | hg
      · exact hpre g hg
      · rw [hg, ChunkFile.payload_segment _ _ _ f.closed, List.length_append, hlen]
        show ((ChunkFile.payload f).length + _ : Nat) ≤ cap
        omega
    · intro _
      simp [hh]
    · intro h hh2
      refine ⟨pre, _, rfl, ?_, ?_, ?_⟩
      · simp only [hh, Option.some.injEq] at hh2
        exact hh2.symm
      · rw [ChunkFile.payload_segment _ _ _ f.closed, List.length_append, hlen]
        show w.chunkSizeRemaining - _ = cap - ((ChunkFile.payload f).length + _ : Nat)
        omega
      · intro hr
        have hr2 : 0 < w.chunkSizeRemaining -
            ((min chunk.length w.chunkSizeRemaining.toNat : Nat) : Int) := hr
        simp only [decide_eq_false_iff_not]
        omega
  · rw [State.payload_last w pre f hf]
    simp only [State.payload, List.map_append, List.map_cons, List.map_nil,
      List.flatten_append, List.flatten_cons, List.flatten_nil, List.append_nil]
    rw [ChunkFile.payload_segment _ _ _ f.closed, List.append_assoc]
  · simp [hf]
  · omega
  · intro h
    have := hpos h
    omega

theorem State.closeIf_eq (w : State) : (if w.chunkFile ≠ none then w.close else w) = w.close := by
  by_cases h : w.chunkFile = none
  · simp [h, State.close]
  · simp [h]

theorem State.close_frame (w : State) :
    w.close.lostWrites = w.lostWrites ∧ w.close.stdout = w.stdout ∧
    w.close.chunkSizeRemaining = w.chunkSizeRemaining ∧ w.close.chunkFile = w.chunkFile := by
  unfold State.close
  split <;> simp

theorem State.rotated_eq (env : Env) (opts : options) (w : State) :
    w.rotated env opts =
      { chunkIndex := w.chunkIndex + 1, chunkSizeRemaining := opts.chunkSize,
        chunkFile := some w.close.files.length,
        files := w.close.files ++
          [{ path := chunkPath env opts w.chunkIndex, segments := [], closed := false }],
        stdout := w.stdout, lostWrites := w.lostWrites } := by
  unfold State.rotated
  rw [State.closeIf_eq, State.close_files_length]
  simp [State.close_frame]

theorem State.rotated_payload (env : Env) (opts : options) (w : State) :
    (w.rotated env opts).payload = w.payload := by
  rw [State.rotated_eq]
  simp [State.payload, State.close_payloads, ChunkFile.payload]

/-- A round of the placement loop keeps the writer invariant, and either ends
the call because `os.Create` failed, with nothing written, or writes a
non-empty prefix of the block. -/
theorem placeStep_inv (env : Env) (opts : options) (relPath : String) (chunk : List Byte)
    (needToContinue : Bool) (w : State) (hcap : 0 < opts.chunkSize)
    (hinv : w.Inv opts.chunkSize) :
    (env.createOk (chunkPath env opts w.chunkIndex) = false ∧ w.chunkSizeRemaining = 0 ∧
      ∃ w1, placeStep env opts relPath chunk needToContinue w =
          Except.error (Exit.returned (some GoError.createFailed), w1) ∧
        w1.Inv opts.chunkSize ∧ w1.payload = w.payload ∧ w1.stdout = w.stdout) ∨
    (∃ n w1, placeStep env opts relPath chunk needToContinue w =
        Except.ok (chunk.drop n, decide (n < chunk.length), w1) ∧
      w1.Inv opts.chunkSize ∧ w1.payload = w.payload ++ chunk.take n ∧ w1.stdout = w.stdout ∧
      n ≤ chunk.length ∧ (chunk ≠ [] → 0 < n)) := by
  obtain ⟨i1, i2, i3, i4, i5, i6⟩ := hinv
  by_cases hrem : 0 < w.chunkSizeRemaining
  · right
    obtain ⟨h, hh⟩ := Option.ne_none_iff_exists'.mp (i5 hrem)
    obtain ⟨pre, f, hf, hp, hroom, ho⟩ := i6 h hh
    subst hp
    obtain ⟨n, w1, e1, e2, e3, e4, _, _, e7, e8⟩ :=
      writeSegment_inv relPath chunk needToContinue opts.chunkSize w pre f hf hh (ho hrem)
        hrem hroom i3 (fun g hg => i4 g (by simp [hf, hg]))
    refine ⟨n, w1, ?_, e2, e3, e4, e7, e8⟩
    unfold placeStep
    rw [openChunk_room env opts w hrem]
    exact e1
  · have hz : w.chunkSizeRemaining = 0 := by omega
    by_cases hok : env.createOk (chunkPath env opts w.chunkIndex) = true
    · right
      have hrot := State.rotated_eq env opts w
      obtain ⟨n, w1, e1, e2, e3, e4, _, _, e7, e8⟩ :=
        writeSegment_inv relPath chunk needToContinue opts.chunkSize (w.rotated env opts)
          w.close.files { path := chunkPath env opts w.chunkIndex, segments := [], closed := false }
          (by rw [hrot]) (by rw [hrot]) rfl (by rw [hrot]; exact hcap)
          (by rw [hrot]; simp [ChunkFile.payload]) (by rw [hrot]; exact i3)
          (State.close_mem_payload w _ i4)
      refine ⟨n, w1, ?_, e2, ?_, ?_, e7, e8⟩
      · unfold placeStep
        rw [openChunk_rotate env opts w (by omega) hok]
        exact e1
      · rw [e3, State.rotated_payload]
      · rw [e4, hrot]
    · left
      have hok2 : env.createOk (chunkPath env opts w.chunkIndex) = false := by
        simpa using hok
      refine ⟨hok2, hz, { (if w.chunkFile ≠ none then w.close else w) with chunkFile := none },
        ?_, ?_, ?_, ?_⟩
      · unfold placeStep
        rw [openChunk_createFailed env opts w (by omega) hok2]
      · rw [State.closeIf_eq]
        obtain ⟨c1, c2, c3, c4⟩ := w.close_frame
        refine ⟨?_, ?_, ?_, ?_, ?_, ?_⟩
        · show 0 ≤ w.close.chunkSizeRemaining
          rw [c3]; exact i1
        · show w.close.chunkSizeRemaining ≤ _
          rw [c3]; exact i2
        · show w.close.lostWrites = 0
          rw [c1]; exact i3
        · exact State.close_mem_payload w _ i4
        · intro h
          have h2 : 0 < w.close.chunkSizeRemaining := h
          rw [c3] at h2
          omega
        · intro h hh
          simp at hh
      · rw [State.closeIf_eq]
        simp [State.payload, State.close_payloads]
      · rw [State.closeIf_eq]
        exact w.close_frame.2.1

/-- A property of the state kept by every round of the placement loop is kept
by the loop. -/
theorem placeLoop_preserves (env : Env) (opts : options) (P : State → Prop)
    (hstep : ∀ relPath chunk ntc w, P w →
      match placeStep env opts relPath chunk ntc w with
      | Except.error (_, w1) => P w1
      | Except.ok (_, _, w1) => P w1) (relPath : String) :
    ∀ (fuel : Nat) (chunk : List Byte) (ntc : Bool) (w : State), P w →
      match placeLoop env opts relPath fuel chunk ntc w with
      | none => True
      | some (Except.error (_, w1)) => P w1
      | some (Except.ok (_, w1)) => P w1 := by
  intro fuel
  induction fuel with
  | zero => intro chunk ntc w _; simp [placeLoop]
  | succ fuel ih =>
    intro chunk ntc w hw
    unfold placeLoop
    split_ifs with hl
    · have h1 := hstep relPath chunk ntc w hw
      cases hr : placeStep env opts relPath chunk ntc w with
      | error r => rw [hr] at h1; exact h1
      | ok r =>
        obtain ⟨c1, n1, w1⟩ := r
        rw [hr] at h1
        exact ih c1 n1 w1 h1
    · exact hw

/-- A property of the state kept by every round of the placement loop and by
printing is kept by `doChunk`. -/
theorem scanLoop_preserves (env : Env) (opts : options) (P : State → Prop)
    (hstep : ∀ relPath chunk ntc w, P w →
      match placeStep env opts relPath chunk ntc w with
      | Except.error (_, w1) => P w1
      | Except.ok (_, _, w1) => P w1)
    (hout : ∀ (w : State) (l : List String), P w → P { w with stdout := l })
    (filePath : String) (fuel : Nat) :
    ∀ (n : Nat) (sc : Scanner) (ntc : Bool) (w : State) (e : Exit) (w1 : State), P w →
      scanLoop env opts filePath fuel n sc ntc w = some (e, w1) → P w1 := by
  intro n
  induction n with
  | zero => intro sc ntc w e w1 _ h; simp [scanLoop] at h
  | succ n ih =>
    intro sc ntc w e w1 hw h
    unfold scanLoop at h
    cases hs : Scanner.Scan opts fuel sc with
    | none => rw [hs] at h; simp at h
    | some r =>
      rw [hs] at h
      cases r with
      | panic =>
        simp only [Option.some.injEq, Prod.mk.injEq] at h
        rw [← h.2]; exact hw
      | stop s1 =>
        simp only [Option.some.injEq, Prod.mk.injEq] at h
        rw [← h.2]; exact hw
      | token s1 =>
        simp only at h
        split_ifs at h with ht
        · simp only [Option.some.injEq, Prod.mk.injEq] at h
          rw [← h.2]; exact hout w _ hw
        · have hp := placeLoop_preserves env opts P hstep (env.rel opts.source filePath)
            fuel s1.Bytes ntc w hw
          cases hr : placeLoop env opts (env.rel opts.source filePath) fuel s1.Bytes ntc w with
          | none => rw [hr] at h; simp at h
          | some r =>
            rw [hr] at h hp
            cases r with
            | error r =>
              simp only [Option.some.injEq] at h
              rw [h] at hp
              exact hp
            | ok r =>
              obtain ⟨n1, w2⟩ := r
              exact ih s1 n1 w2 e w1 hp h

theorem doChunk_preserves (env : Env) (opts : options) (P : State → Prop)
    (hstep : ∀ relPath chunk ntc w, P w →
      match placeStep env opts relPath chunk ntc w with
      | Except.error (_, w1) => P w1
      | Except.ok (_, _, w1) => P w1)
    (hout : ∀ (w : State) (l : List String), P w → P { w with stdout := l })
    (fuel : Nat) (filePath : String) (w : State) (e : Exit) (w1 : State) (hw : P w)
    (h : doChunk env opts fuel filePath w = some (e, w1)) : P w1 := by
  unfold doChunk at h
  cases ho : env.openFile filePath with
  | none =>
    rw [ho] at h
    simp only [Option.some.injEq, Prod.mk.injEq] at h
    rw [← h.2]; exact hw
  | some content =>
    rw [ho] at h
    exact scanLoop_preserves env opts P hstep hout filePath fuel fuel _ _ w e w1 hw h

/-- Induction over the calls of `doChunk` since program start. -/
theorem Reachable.preserves (env : Env) (opts : options) (P : State → Prop)
    (hinit : P State.init)
    (hstep : ∀ relPath chunk ntc w, P w →
      match placeStep env opts relPath chunk ntc w with
      | Except.error (_, w1) => P w1
      | Except.ok (_, _, w1) => P w1)
    (hout : ∀ (w : State) (l : List String), P w → P { w with stdout := l })
    (w : State) (hr : Reachable env opts w) : P w := by
  induction hr with
  | init => exact hinit
  | call fuel filePath e _ hd ih => exact doChunk_preserves env opts P hstep hout fuel filePath _ e _ ih hd

theorem State.inv_reachable (env : Env) (opts : options) (hcap : 0 < opts.chunkSize)
    (w : State) (hr : Reachable env opts w) : w.Inv opts.chunkSize := by
  refine Reachable.preserves env opts (fun w => w.Inv opts.chunkSize)
    (State.inv_init _ hcap) ?_ ?_ w hr
  · intro relPath chunk ntc w hw
    rcases placeStep_inv env opts relPath chunk ntc w hcap hw with
      ⟨_, _, w1, h1, h2, _⟩ | ⟨n, w1, h1, h2, _⟩
    · rw [h1]; exact h2
    · rw [h1]; exact h2
  · intro w l hw
    exact hw

theorem blocks_nil (c : Nat) : blocks c [] = [] := by
  rw [blocks]; simp

theorem blocks_cons (c : Nat) (u : List Byte) (hc : 0 < c) (hu : u ≠ []) :
    blocks c u = u.take c :: blocks c (u.drop c) := by
  rw [blocks]; simp [hc, hu]

theorem blocks_flatten (c : Nat) (hc : 0 < c) :
    ∀ (m : Nat) (u : List Byte), u.length ≤ m → (blocks c u).flatten = u := by
  intro m
  induction m with
  | zero =>
    intro u hu
    have : u = [] := List.length_eq_zero.mp (by omega)
    subst this
    simp [blocks_nil]
  | succ m ih =>
    intro u hu
    by_cases h : u = []
    · subst h; simp [blocks_nil]
    · have hp := List.length_pos.mpr h
      rw [blocks_cons c u hc h, List.flatten_cons, ih (u.drop c) (by simp; omega),
        List.take_append_drop]

/-- The blocks the scanner yields are the pieces of the pending content. -/
theorem readBlocks_eq (opts : options) (hc : 0 < opts.chunkSize) :
    ∀ (m : Nat) (s : Scanner) (fuel n : Nat), s.Good →
      (opts.chunkSize ≤ maxScanTokenSize ∨ s.pending.length < maxScanTokenSize) →
      s.pending.length ≤ m → m < n → s.pending.length + 1 < fuel →
      readBlocks opts fuel n s = some (blocks opts.chunkSize.toNat s.pending, none) := by
  have hcn : 0 < opts.chunkSize.toNat := by omega
  intro m
  induction m with
  | zero =>
    intro s fuel n hg hfit hm hn hf
    obtain ⟨k, rfl⟩ : ∃ k, n = k + 1 := ⟨n - 1, by omega⟩
    have hp : s.pending = [] := List.length_eq_zero.mp (by omega)
    rcases Scanner.Scan_good opts hc _ s fuel hg hfit s.todo_le_pending hf with
      ⟨_, s1, h1, h2⟩ | ⟨h0, _⟩
    · unfold readBlocks
      rw [h1, hp, blocks_nil]
      simp only [h2]
    · exact absurd hp h0
  | succ m ih =>
    intro s fuel n hg hfit hm hn hf
    obtain ⟨k, rfl⟩ : ∃ k, n = k + 1 := ⟨n - 1, by omega⟩
    rcases Scanner.Scan_good opts hc _ s fuel hg hfit s.todo_le_pending hf with
      ⟨hp, s1, h1, h2⟩ | ⟨h0, s1, h1, h2, h3, h4⟩
    · unfold readBlocks
      rw [h1, hp, blocks_nil]
      simp only [h2]
    · have hpos := List.length_pos.mpr h0
      have hlen : s1.pending.length < s.pending.length := by
        rw [h3, List.length_drop]; omega
      have hfit1 : opts.chunkSize ≤ maxScanTokenSize ∨ s1.pending.length < maxScanTokenSize := by
        rcases hfit with h | h
        · exact Or.inl h
        · exact Or.inr (by omega)
      unfold readBlocks
      rw [h1]
      simp only
      rw [ih s1 fuel k h4 hfit1 (by omega) (by omega) (by omega), h2, h3,
        blocks_cons _ _ hcn h0]

/-- Unfolding of a round of the scan loop that places a text block. -/
theorem scanLoop_token (env : Env) (opts : options) (filePath : String) (fuel n : Nat)
    (sc s1 : Scanner) (ntc ntc1 : Bool) (w w1 : State)
    (hs : Scanner.Scan opts fuel sc = some (ScanResult.token s1))
    (ht : env.isText s1.Bytes = true)
    (hp : placeLoop env opts (env.rel opts.source filePath) fuel s1.Bytes ntc w =
      some (Except.ok (ntc1, w1))) :
    scanLoop env opts filePath fuel (n + 1) sc ntc w =
      scanLoop env opts filePath fuel n s1 ntc1 w1 := by
  conv_lhs => unfold scanLoop
  simp only [hs, ht, Bool.not_true, Bool.false_eq_true, if_false, hp]

/-- Unfolding of the round of the scan loop in which `Scan` returns false. -/
theorem scanLoop_stop (env : Env) (opts : options) (filePath : String) (fuel n : Nat)
    (sc s1 : Scanner) (ntc : Bool) (w : State)
    (hs : Scanner.Scan opts fuel sc = some (ScanResult.stop s1)) :
    scanLoop env opts filePath fuel (n + 1) sc ntc w = some (Exit.returned s1.Err, w) := by
  unfold scanLoop
  simp only [hs]

/-- Unfolding of a round of the scan loop that meets a block that is not text. -/
theorem scanLoop_skip (env : Env) (opts : options) (filePath : String) (fuel n : Nat)
    (sc s1 : Scanner) (ntc : Bool) (w : State)
    (hs : Scanner.Scan opts fuel sc = some (ScanResult.token s1))
    (ht : env.isText s1.Bytes = false) :
    scanLoop env opts filePath fuel (n + 1) sc ntc w =
      some (Exit.returned none,
        { w with stdout := w.stdout ++ ["Skipping non-text file: " ++ filePath] }) := by
  unfold scanLoop
  simp only [hs, ht, Bool.not_false, if_true]

/-- The placement loop ends after a round that leaves nothing of the block. -/
theorem placeLoop_one (env : Env) (opts : options) (relPath : String) (fuel : Nat)
    (chunk : List Byte) (ntc ntc1 : Bool) (w w1 : State) (hne : chunk ≠ [])
    (hstep : placeStep env opts relPath chunk ntc w = Except.ok ([], ntc1, w1)) :
    placeLoop env opts relPath (fuel + 2) chunk ntc w = some (Except.ok (ntc1, w1)) := by
  have hpos := List.length_pos.mpr hne
  unfold placeLoop
  simp only [hpos, gt_iff_lt, if_true, hstep]
  unfold placeLoop
  simp

/-- With `os.Create` succeeding, the placement loop writes the whole block and
keeps the writer invariant. -/
theorem placeLoop_total (env : Env) (opts : options) (relPath : String)
    (hcap : 0 < opts.chunkSize) (hcreate : ∀ p, env.createOk p = true) :
    ∀ (m : Nat) (chunk : List Byte) (ntc : Bool) (w : State) (fuel : Nat),
      chunk.length ≤ m → m < fuel → w.Inv opts.chunkSize →
      ∃ ntc1 w1, placeLoop env opts relPath fuel chunk ntc w = some (Except.ok (ntc1, w1)) ∧
        w1.Inv opts.chunkSize ∧ w1.payload = w.payload ++ chunk ∧ w1.stdout = w.stdout := by
  intro m
  induction m with
  | zero =>
    intro chunk ntc w fuel hm hf hinv
    obtain ⟨f, rfl⟩ : ∃ f, fuel = f + 1 := ⟨fuel - 1, by omega⟩
    have hnil : chunk = [] := List.length_eq_zero.mp (by omega)
    subst hnil
    exact ⟨ntc, w, by simp [placeLoop], hinv, by simp, rfl⟩
  | succ m ih =>
    intro chunk ntc w fuel hm hf hinv
    obtain ⟨f, rfl⟩ : ∃ f, fuel = f + 1 := ⟨fuel - 1, by omega⟩
    by_cases hnil : chunk = []
    · subst hnil
      exact ⟨ntc, w, by simp [placeLoop], hinv, by simp, rfl⟩
    · have hpos := List.length_pos.mpr hnil
      rcases placeStep_inv env opts relPath chunk ntc w hcap hinv with
        ⟨hno, _⟩ | ⟨n, w1, h1, h2, h3, h4, h5, h6⟩
      · rw [hcreate] at hno; cases hno
      · have hn := h6 hnil
        obtain ⟨ntc2, w2, e1, e2, e3, e4⟩ :=
          ih (chunk.drop n) (decide (n < chunk.length)) w1 f
            (by simp only [List.length_drop]; omega) (by omega) h2
        refine ⟨ntc2, w2, ?_, e2, ?_, ?_⟩
        · conv_lhs => unfold placeLoop
          simp only [hpos, gt_iff_lt, if_true, h1, e1]
        · rw [e3, h3, List.append_assoc, List.take_append_drop]
        · rw [e4, h4]

theorem NewScanner_pending (content : List Byte) : (NewScanner content).pending = content := by
  simp [Scanner.pending, NewScanner]

theorem TextBlocks.blocks (env : Env) (opts : options) (content : List Byte)
    (hc : 0 < opts.chunkSize) (hfit : Fits opts content) (ht : TextBlocks env opts content) :
    ∀ b ∈ blocks opts.chunkSize.toNat content, env.isText b = true := by
  have h := readBlocks_eq opts hc content.length (NewScanner content) (content.length + 2)
    (content.length + 1) (Scanner.good_new content)
    (by rw [NewScanner_pending]; exact hfit) (by rw [NewScanner_pending])
    (by omega) (by rw [NewScanner_pending]; omega)
  rw [NewScanner_pending] at h
  exact ht _ _ _ _ h

/-- With `os.Create` succeeding and a scanner that cannot overflow, the scan
loop writes all the pending content when its blocks are text. -/
theorem scanLoop_total (env : Env) (opts : options) (filePath : String)
    (hcap : 0 < opts.chunkSize) (hcreate : ∀ p, env.createOk p = true) :
    ∀ (m : Nat) (sc : Scanner) (ntc : Bool) (w : State) (fuel n : Nat), sc.Good →
      (opts.chunkSize ≤ maxScanTokenSize ∨ sc.pending.length < maxScanTokenSize) →
      sc.pending.length ≤ m → m < n → sc.pending.length + 1 < fuel →
      w.Inv opts.chunkSize →
      (∀ b ∈ blocks opts.chunkSize.toNat sc.pending, env.isText b = true) →
      ∃ w1, scanLoop env opts filePath fuel n sc ntc w = some (Exit.returned none, w1) ∧
        w1.Inv opts.chunkSize ∧ w1.payload = w.payload ++ sc.pending ∧
        w1.stdout = w.stdout := by
  have hcn : 0 < opts.chunkSize.toNat := by omega
  intro m
  induction m with
  | zero =>
    intro sc ntc w fuel n hg hfit hm hn hf hinv ht
    obtain ⟨k, rfl⟩ : ∃ k, n = k + 1 := ⟨n - 1, by omega⟩
    have hp : sc.pending = [] := List.length_eq_zero.mp (by omega)
    rcases Scanner.Scan_good opts hcap _ sc fuel hg hfit sc.todo_le_pending hf with
      ⟨_, s1, h1, h2⟩ | ⟨h0, _⟩
    · refine ⟨w, ?_, hinv, by simp [hp], rfl⟩
      rw [scanLoop_stop env opts filePath fuel k sc s1 ntc w h1, h2]
    · exact absurd hp h0
  | succ m ih =>
    intro sc ntc w fuel n hg hfit hm hn hf hinv ht
    obtain ⟨k, rfl⟩ : ∃ k, n = k + 1 := ⟨n - 1, by omega⟩
    rcases Scanner.Scan_good opts hcap _ sc fuel hg hfit sc.todo_le_pending hf with
      ⟨hp, s1, h1, h2⟩ | ⟨h0, s1, h1, h2, h3, h4⟩
    · refine ⟨w, ?_, hinv, by simp [hp], rfl⟩
      rw [scanLoop_stop env opts filePath fuel k sc s1 ntc w h1, h2]
    · have hpos := List.length_pos.mpr h0
      have hb := blocks_cons _ _ hcn h0
      have hlen : s1.pending.length < sc.pending.length := by
        rw [h3, List.length_drop]; omega
      have hfit1 : opts.chunkSize ≤ maxScanTokenSize ∨ s1.pending.length < maxScanTokenSize := by
        rcases hfit with h | h
        · exact Or.inl h
        · exact Or.inr (by omega)
      have htext : env.isText s1.Bytes = true := by
        apply ht
        rw [hb, h2]
        exact List.mem_cons_self _ _
      obtain ⟨ntc1, w1, e1, e2, e3, e4⟩ :=
        placeLoop_total env opts (env.rel opts.source filePath) hcap hcreate
          s1.Bytes.length s1.Bytes ntc w fuel (le_refl _)
          (by rw [h2, List.length_take]; omega) hinv
      obtain ⟨w2, g1, g2, g3, g4⟩ := ih s1 ntc1 w1 fuel k h4 hfit1 (by omega) (by omega)
        (by omega) e2 (by
          intro b hb2
          apply ht
          rw [hb, ← h3]
          exact List.mem_cons_of_mem _ hb2)
      refine ⟨w2, ?_, g2, ?_, ?_⟩
      · rw [scanLoop_token env opts filePath fuel k sc s1 ntc ntc1 w w1 h1 htext e1]
        exact g1
      · rw [g3, e3, h2, h3, List.append_assoc, List.take_append_drop]
      · rw [g4, e4]

/-- A call of `doChunk` on a file whose blocks are text, when `os.Create`
succeeds and the scanner cannot overflow: the call returns nil and the payload
of the chunks grows by exactly the content of the file. -/
theorem doChunk_total (env : Env) (opts : options) (filePath : String) (content : List Byte)
    (w : State) (hcap : 0 < opts.chunkSize) (hcreate : ∀ p, env.createOk p = true)
    (hopen : env.openFile filePath = some content) (hfit : Fits opts content)
    (ht : TextBlocks env opts content) (hinv : w.Inv opts.chunkSize)
    (fuel : Nat) (hf : content.length + 2 ≤ fuel) :
    ∃ w1, doChunk env opts fuel filePath w = some (Exit.returned none, w1) ∧
      w1.Inv opts.chunkSize ∧ w1.payload = w.payload ++ content ∧ w1.stdout = w.stdout := by
  have hb := TextBlocks.blocks env opts content hcap hfit ht
  obtain ⟨w1, h1, h2, h3, h4⟩ := scanLoop_total env opts filePath hcap hcreate content.length
    (NewScanner content) false w fuel fuel (Scanner.good_new content)
    (by rw [NewScanner_pending]; exact hfit) (by rw [NewScanner_pending])
    (by omega) (by rw [NewScanner_pending]; omega) hinv
    (by rw [NewScanner_pending]; exact hb)
  rw [NewScanner_pending] at h3
  refine ⟨w1, ?_, h2, h3, h4⟩
  unfold doChunk
  rw [hopen]
  exact h1

theorem map_path_modify (g : ChunkFile → ChunkFile) (hg : ∀ f, (g f).path = f.path) (h : Nat)
    (l : List ChunkFile) : (List.modify g h l).map ChunkFile.path = l.map ChunkFile.path := by
  induction l generalizing h with
  | nil => cases h <;> simp
  | cons a l ih =>
    cases h with
    | zero => simp [hg]
    | succ h => simp [ih]

theorem State.write_names (w : State) (seg : Segment) :
    (w.write seg).chunkIndex = w.chunkIndex ∧
    (w.write seg).files.map ChunkFile.path = w.files.map ChunkFile.path := by
  unfold State.write
  split
  · exact ⟨rfl, rfl⟩
  · split
    · exact ⟨rfl, rfl⟩
    · split
      · exact ⟨rfl, rfl⟩
      · exact ⟨rfl, map_path_modify (fun f => { f with segments := f.segments ++ [seg] })
          (fun _ => rfl) _ _⟩

theorem State.close_names (w : State) :
    w.close.chunkIndex = w.chunkIndex ∧
    w.close.files.map ChunkFile.path = w.files.map ChunkFile.path := by
  unfold State.close
  split
  · exact ⟨rfl, rfl⟩
  · exact ⟨rfl, map_path_modify (fun f => { f with closed := true }) (fun _ => rfl) _ _⟩

theorem State.numbered_of_names (env : Env) (opts : options) (w w1 : State)
    (h : w.Numbered env opts) (h1 : w1.chunkIndex = w.chunkIndex)
    (h2 : w1.files.map ChunkFile.path = w.files.map ChunkFile.path) : w1.Numbered env opts := by
  have hl : w1.files.length = w.files.length := by
    have := congrArg List.length h2
    simpa using this
  exact ⟨by rw [h1, hl]; exact h.1, by rw [h2, hl]; exact h.2⟩

theorem writeSegment_names (relPath : String) (chunk : List Byte) (ntc : Bool) (w : State) :
    match writeSegment relPath chunk ntc w with
    | Except.error (_, w1) => w1.chunkIndex = w.chunkIndex ∧
        w1.files.map ChunkFile.path = w.files.map ChunkFile.path
    | Except.ok (_, _, w1) => w1.chunkIndex = w.chunkIndex ∧
        w1.files.map ChunkFile.path = w.files.map ChunkFile.path := by
  unfold writeSegment
  simp only
  split_ifs <;>
    simp only [State.write_names, State.close_names, and_self]

theorem State.numbered_init (env : Env) (opts : options) : State.init.Numbered env opts := by
  simp [State.Numbered, State.init]

theorem openChunk_numbered (env : Env) (opts : options) (w : State)
    (h : w.Numbered env opts) :
    match openChunk env opts w with
    | Except.error (_, w1) => w1.Numbered env opts
    | Except.ok w1 => w1.Numbered env opts := by
  unfold openChunk
  rw [State.closeIf_eq]
  obtain ⟨c1, c2⟩ := w.close_names
  have hl := w.close_files_length
  by_cases hrem : w.chunkSizeRemaining ≤ 0
  · rw [if_pos hrem]
    by_cases hok : env.createOk (chunkPath env opts w.close.chunkIndex) = true
    · simp only [hok, if_true]
      refine ⟨?_, ?_⟩
      · simp only [List.length_append, List.length_singleton, c1, hl, h.1]
        push_cast
        rfl
      · simp only [List.map_append, List.map_cons, List.map_nil, List.length_append,
          List.length_singleton, c1, c2, hl, List.range_succ, h.2, h.1]
    · simp only [hok, if_false]
      exact State.numbered_of_names env opts w _ h c1 c2
  · rw [if_neg hrem]
    exact h

/-- A round of the placement loop keeps the numbering of the files. -/
theorem placeStep_numbered (env : Env) (opts : options) (relPath : String) (chunk : List Byte)
    (ntc : Bool) (w : State) (h : w.Numbered env opts) :
    match placeStep env opts relPath chunk ntc w with
    | Except.error (_, w1) => w1.Numbered env opts
    | Except.ok (_, _, w1) => w1.Numbered env opts := by
  unfold placeStep
  have h1 := openChunk_numbered env opts w h
  cases ho : openChunk env opts w with
  | error r => rw [ho] at h1; exact h1
  | ok w1 =>
    rw [ho] at h1
    simp only
    have h2 := writeSegment_names relPath chunk ntc w1
    cases hw : writeSegment relPath chunk ntc w1 with
    | error r =>
      rw [hw] at h2
      exact State.numbered_of_names env opts w1 _ h1 h2.1 h2.2
    | ok r =>
      rw [hw] at h2
      exact State.numbered_of_names env opts w1 _ h1 h2.1 h2.2

theorem State.numbered_reachable (env : Env) (opts : options) (w : State)
    (hr : Reachable env opts w) : w.Numbered env opts :=
  Reachable.preserves env opts (fun w => w.Numbered env opts) (State.numbered_init env opts)
    (fun relPath chunk ntc w hw => placeStep_numbered env opts relPath chunk ntc w hw)
    (fun _ _ hw => hw) w hr

theorem chunkPath_nat (env : Env) (opts : options) (n : Nat) :
    chunkPath env opts (n : Int) = env.join opts.reportPath ("chunk" ++ toString n ++ ".txt") :=
  rfl

/-- C1 (exclude wins). For every path, include list and exclude list: when the
path matches at least one exclude pattern, `shouldProcess` returns false,
whatever the include patterns say about the path. -/
theorem shouldProcess_exclude_wins (env : Env) (opts : options) (filePath : String)
    (h : ∃ p ∈ opts.excludePatterns, (env.pathMatch p filePath).1 = true) :
    shouldProcess env opts filePath = false :=
  shouldProcess_of_excluded env opts filePath ((anyMatch_iff env _ filePath).mpr h)

theorem shouldProcess_exclude_wins_witness :
    (∃ p ∈ (exampleOpts 2).excludePatterns,
        (exampleEnv.pathMatch p "src/vendor/x.go").1 = true) ∧
      (∃ p ∈ (exampleOpts 2).includePatterns,
        (exampleEnv.pathMatch p "src/vendor/x.go").1 = true) ∧
      shouldProcess exampleEnv (exampleOpts 2) "src/vendor/x.go" = false :=
  ⟨⟨"src/vendor", by simp [exampleOpts], by decide⟩,
   ⟨"src", by simp [exampleOpts], by decide⟩,
   shouldProcess_exclude_wins exampleEnv (exampleOpts 2) "src/vendor/x.go"
     ⟨"src/vendor", by simp [exampleOpts], by decide⟩⟩

/-- C2 (include rule). For every path that matches no exclude pattern: with a
non-empty include list `shouldProcess` returns true exactly when the path
matches at least one include pattern, and with an empty include list it returns
true. -/
theorem shouldProcess_include_rule (env : Env) (opts : options) (filePath : String)
    (hex : ∀ p ∈ opts.excludePatterns, (env.pathMatch p filePath).1 = false) :
    (opts.includePatterns ≠ [] →
      (shouldProcess env opts filePath = true ↔
        ∃ p ∈ opts.includePatterns, (env.pathMatch p filePath).1 = true)) ∧
    (opts.includePatterns = [] → shouldProcess env opts filePath = true) := by
  have hno : anyMatch env opts.excludePatterns filePath = false := by
    cases h : anyMatch env opts.excludePatterns filePath with
    | false => rfl
    | true =>
      obtain ⟨p, hp, hm⟩ := (anyMatch_iff env _ filePath).mp h
      rw [hex p hp] at hm
      cases hm
  constructor
  · intro hne
    have hlen : opts.includePatterns.length > 0 := List.length_pos.mpr hne
    rw [← anyMatch_iff]
    simp [shouldProcess, hno, hlen]
  · intro hnil
    simp [shouldProcess, hno, hnil]

theorem shouldProcess_include_rule_witness :
    (∀ p ∈ (exampleOpts 2).excludePatterns, (exampleEnv.pathMatch p "src/a.go").1 = false) ∧
      (exampleOpts 2).includePatterns ≠ [] ∧
      (shouldProcess exampleEnv (exampleOpts 2) "src/a.go" = true ↔
        ∃ p ∈ (exampleOpts 2).includePatterns, (exampleEnv.pathMatch p "src/a.go").1 = true) :=
  ⟨by simp [exampleOpts]; decide, by simp [exampleOpts],
   (shouldProcess_include_rule exampleEnv (exampleOpts 2) "src/a.go"
     (by simp [exampleOpts]; decide)).1 (by simp [exampleOpts])⟩

/-- C3 (implicit exclude of `.git`). For every value of the `-exclude` flag the
exclude list built by `main` is the list of the comma-separated fields of the
flag (none for the empty flag) followed by `**/.git/**`; the fields joined by
commas give the flag back and hold no comma. Hence `shouldProcess` rejects
every path that matches `**/.git/**`, whatever `-include` and `-exclude` are. -/
theorem main_always_excludes_git (env : Env) (chunkSizeFlag : Int)
    (excludeFlag includeFlag source reportPath : String) :
    (mainOptions chunkSizeFlag excludeFlag includeFlag source reportPath).excludePatterns =
      (if excludeFlag = "" then [] else strings.Split excludeFlag ',') ++ ["**/.git/**"] ∧
    [','].intercalate ((strings.Split excludeFlag ',').map String.data) = excludeFlag.data ∧
    (∀ f ∈ strings.Split excludeFlag ',', ',' ∉ f.data) ∧
    (∀ filePath, (env.pathMatch "**/.git/**" filePath).1 = true →
      shouldProcess env (mainOptions chunkSizeFlag excludeFlag includeFlag source reportPath)
        filePath = false) := by
  have hex : (mainOptions chunkSizeFlag excludeFlag includeFlag source reportPath).excludePatterns =
      (if excludeFlag = "" then [] else strings.Split excludeFlag ',') ++ ["**/.git/**"] := by
    by_cases h : excludeFlag = ""
    · simp [mainOptions, h, gitPattern]
    · simp [mainOptions, h, gitPattern]
  refine ⟨hex, ?_, ?_, ?_⟩
  · simp only [strings.Split, List.map_map]
    have : (String.data ∘ String.mk) = id := by
      funext l; rfl
    rw [this, List.map_id]
    exact splitOnSep_intercalate ',' excludeFlag.data
  · intro f hf
    simp only [strings.Split, List.mem_map] at hf
    obtain ⟨l, hl, rfl⟩ := hf
    exact splitOnSep_not_mem ',' excludeFlag.data l hl
  · intro filePath hm
    apply shouldProcess_of_excluded
    rw [hex, anyMatch_append]
    simp [anyMatch, hm]

theorem main_always_excludes_git_witness :
    (exampleEnv.pathMatch "**/.git/**" "src/.git/config").1 = true ∧
      (mainOptions 13 "src/vendor,docs" "src" "src" "out").excludePatterns =
        ["src/vendor", "docs", "**/.git/**"] ∧
      shouldProcess exampleEnv (mainOptions 13 "src/vendor,docs" "src" "src" "out")
        "src/.git/config" = false :=
  ⟨by decide, by decide,
   (main_always_excludes_git exampleEnv 13 "src/vendor,docs" "src" "src" "out").2.2.2
     "src/.git/config" (by decide)⟩

theorem exampleState_reachable : Reachable exampleEnv (exampleOpts 2) exampleState :=
  Reachable.call 10 "aa" (Exit.returned none) Reachable.init (by rfl)

/-- C5 (capacity bound). For every capacity > 0 and every state reached by
calls of `doChunk` from program start: each chunk file holds at most the
capacity in payload bytes, the room left lies between 0 and the capacity, and
it is the capacity minus the payload of the current chunk. -/
theorem capacity_bound (env : Env) (opts : options) (w : State) (hcap : 0 < opts.chunkSize)
    (hr : Reachable env opts w) :
    (∀ f ∈ w.files, (f.payload.length : Int) ≤ opts.chunkSize) ∧
    0 ≤ w.chunkSizeRemaining ∧ w.chunkSizeRemaining ≤ opts.chunkSize ∧
    (∀ h, w.chunkFile = some h → ∃ f, w.files.get? h = some f ∧
      w.chunkSizeRemaining = opts.chunkSize - (f.payload.length : Int)) := by
  obtain ⟨i1, i2, _, i4, _, i6⟩ := State.inv_reachable env opts hcap w hr
  refine ⟨i4, i1, i2, ?_⟩
  intro h hh
  obtain ⟨pre, f, hf, hp, hroom, _⟩ := i6 h hh
  exact ⟨f, by simp [hf, hp], hroom⟩

theorem capacity_bound_witness :
    (0 : Int) < (exampleOpts 2).chunkSize ∧ Reachable exampleEnv (exampleOpts 2) exampleState ∧
      (∀ f ∈ exampleState.files, (f.payload.length : Int) ≤ (exampleOpts 2).chunkSize) :=
  ⟨by decide, exampleState_reachable,
   (capacity_bound exampleEnv (exampleOpts 2) exampleState (by decide)
     exampleState_reachable).1⟩

/-- C6 (chunk numbering). In every state reached by calls of `doChunk` from
program start, `chunkIndex` is the number of chunk files created so far, and
the file created as number `n` (from 0) is `chunk<n>.txt` in the output
directory: the names are `chunk0.txt`, `chunk1.txt`, ... in creation order. -/
theorem chunk_numbering (env : Env) (opts : options) (w : State) (hr : Reachable env opts w) :
    w.chunkIndex = (w.files.length : Int) ∧
    w.files.map ChunkFile.path = (List.range w.files.length).map
      (fun n : Nat => env.join opts.reportPath ("chunk" ++ toString n ++ ".txt")) := by
  obtain ⟨h1, h2⟩ := State.numbered_reachable env opts w hr
  exact ⟨h1, h2⟩

theorem chunk_numbering_witness :
    Reachable exampleEnv (exampleOpts 2) exampleState ∧
      exampleState.chunkIndex = (exampleState.files.length : Int) ∧
      exampleState.files.map ChunkFile.path = ["out/chunk0.txt"] :=
  ⟨exampleState_reachable,
   (chunk_numbering exampleEnv (exampleOpts 2) exampleState exampleState_reachable).1,
   by decide⟩

/-- C7 (binary skip). For every writer state and every file whose first block
is classified as not text, `doChunk` returns nil and changes nothing but the
standard output, where it prints the notice: no chunk is created, nothing is
written, and `chunkIndex`, `chunkSizeRemaining` and the chunk handle are as
before the call. -/
theorem binary_skip (env : Env) (opts : options) (filePath : String) (content : List Byte)
    (w : State) (fuel0 : Nat) (sc : Scanner)
    (hopen : env.openFile filePath = some content)
    (hfirst : Scanner.Scan opts fuel0 (NewScanner content) = some (ScanResult.token sc))
    (hbin : env.isText sc.Bytes = false) (fuel : Nat) (hfuel : fuel0 ≤ fuel) :
    doChunk env opts fuel filePath w =
      some (Exit.returned none,
        { w with stdout := w.stdout ++ ["Skipping non-text file: " ++ filePath] }) := by
  have h1 : Scanner.Scan opts fuel (NewScanner content) = some (ScanResult.token sc) := by
    have := Scanner.Scan_mono opts fuel0 _ _ (fuel - fuel0) hfirst
    rwa [Nat.add_sub_cancel' hfuel] at this
  obtain ⟨k, rfl⟩ : ∃ k, fuel = k + 1 := by
    cases fuel with
    | zero => simp [Scanner.Scan] at h1
    | succ k => exact ⟨k, rfl⟩
  unfold doChunk
  rw [hopen]
  exact scanLoop_skip env opts filePath (k + 1) k _ sc false w h1 hbin

theorem binary_skip_witness :
    doChunk exampleEnv (exampleOpts 2) 5 "00" exampleState =
      some (Exit.returned none,
        { exampleState with stdout := exampleState.stdout ++ ["Skipping non-text file: 00"] }) :=
  binary_skip exampleEnv (exampleOpts 2) "00" [0, 0] exampleState 5
    { rest := [], buf := [0, 0], bufLen := 4096, start := 2, tok := some [0, 0], err := none,
      empties := 0 }
    (by rfl) (by rfl) (by rfl) 5 (le_refl _)

/-- The placement loop on a block that fits into the room of the current, open
chunk: one segment with an `END FILE` trailer. -/
theorem placeLoop_room (env : Env) (opts : options) (relPath : String) (fuel : Nat)
    (chunk : List Byte) (ntc : Bool) (w : State) (pre : List ChunkFile) (f : ChunkFile)
    (hne : chunk ≠ [])
    (hf : w.files = pre ++ [f]) (hh : w.chunkFile = some pre.length) (ho : f.closed = false)
    (hroom : (chunk.length : Int) ≤ w.chunkSizeRemaining) :
    placeLoop env opts relPath (fuel + 2) chunk ntc w =
      some (Except.ok (false,
        { w with
          files := pre ++ [{ f with
            segments := f.segments ++ [header ntc relPath, Segment.payload chunk,
              Segment.endFile relPath]
            closed := decide (w.chunkSizeRemaining ≤ chunk.length) }]
          chunkSizeRemaining := w.chunkSizeRemaining - chunk.length })) := by
  have hpos : 0 < chunk.length := List.length_pos.mpr hne
  have hrem : 0 < w.chunkSizeRemaining := by omega
  apply placeLoop_one env opts relPath fuel chunk ntc false w _ hne
  unfold placeStep
  rw [openChunk_room env opts w hrem]
  simp only
  rw [writeSegment_open relPath chunk ntc w pre f hf hh ho (le_of_lt hrem)]
  have hmin : min chunk.length w.chunkSizeRemaining.toNat = chunk.length := by omega
  have hd : decide ((chunk.length : Int) > w.chunkSizeRemaining) = false := by
    simp only [gt_iff_lt, decide_eq_false_iff_not]; omega
  rw [hmin, hd]
  simp [trailer]

/-- The placement loop on a block of at most the capacity when the current
chunk has no room left and `os.Create` succeeds: a new chunk is created and
receives one segment with an `END FILE` trailer. -/
theorem placeLoop_fresh (env : Env) (opts : options) (relPath : String) (fuel : Nat)
    (chunk : List Byte) (ntc : Bool) (w : State) (hne : chunk ≠ [])
    (hrem : w.chunkSizeRemaining ≤ 0)
    (hok : env.createOk (chunkPath env opts w.chunkIndex) = true)
    (hroom : (chunk.length : Int) ≤ opts.chunkSize) :
    placeLoop env opts relPath (fuel + 2) chunk ntc w =
      some (Except.ok (false,
        { chunkIndex := w.chunkIndex + 1
          chunkSizeRemaining := opts.chunkSize - chunk.length
          chunkFile := some w.close.files.length
          files := w.close.files ++ [⟨chunkPath env opts w.chunkIndex,
            [header ntc relPath, Segment.payload chunk, Segment.endFile relPath],
            decide (opts.chunkSize ≤ chunk.length)⟩]
          stdout := w.stdout
          lostWrites := w.lostWrites })) := by
  have hpos : 0 < chunk.length := List.length_pos.mpr hne
  have hcap : 0 < opts.chunkSize := by omega
  apply placeLoop_one env opts relPath fuel chunk ntc false w _ hne
  unfold placeStep
  rw [openChunk_rotate env opts w hrem hok]
  simp only
  have hrot := State.rotated_eq env opts w
  rw [writeSegment_open relPath chunk ntc (w.rotated env opts) w.close.files
    { path := chunkPath env opts w.chunkIndex, segments := [], closed := false }
    (by rw [hrot]) (by rw [hrot]) rfl (by rw [hrot]; exact le_of_lt hcap)]
  rw [hrot]
  simp only
  have hmin : min chunk.length opts.chunkSize.toNat = chunk.length := by omega
  have hd : decide ((chunk.length : Int) > opts.chunkSize) = false := by
    simp only [gt_iff_lt, decide_eq_false_iff_not]; omega
  rw [hmin, hd]
  simp [trailer]

/-- A round of the scan loop: the next block of the pending content is text and
the placement loop places it. -/
theorem scanLoop_step_text (env : Env) (opts : options) (filePath : String) (fuel n : Nat)
    (sc : Scanner) (ntc ntc1 : Bool) (w w1 : State) (hcap : 0 < opts.chunkSize)
    (hg : sc.Good)
    (hfit : opts.chunkSize ≤ maxScanTokenSize ∨ sc.pending.length < maxScanTokenSize)
    (hne : sc.pending ≠ []) (hf : sc.pending.length + 1 < fuel)
    (ht : env.isText (sc.pending.take opts.chunkSize.toNat) = true)
    (hp : placeLoop env opts (env.rel opts.source filePath) fuel
      (sc.pending.take opts.chunkSize.toNat) ntc w = some (Except.ok (ntc1, w1))) :
    ∃ s1 : Scanner, s1.Good ∧ s1.pending = sc.pending.drop opts.chunkSize.toNat ∧
      scanLoop env opts filePath fuel (n + 1) sc ntc w =
        scanLoop env opts filePath fuel n s1 ntc1 w1 := by
  rcases Scanner.Scan_good opts hcap _ sc fuel hg hfit sc.todo_le_pending hf with
    ⟨hp0, _⟩ | ⟨_, s1, h1, h2, h3, h4⟩
  · exact absurd hp0 hne
  · exact ⟨s1, h4, h3, scanLoop_token env opts filePath fuel n sc s1 ntc ntc1 w w1 h1
      (by rw [h2]; exact ht) (by rw [h2]; exact hp)⟩

/-- The round of the scan loop that ends the file. -/
theorem scanLoop_end (env : Env) (opts : options) (filePath : String) (fuel n : Nat)
    (sc : Scanner) (ntc : Bool) (w : State) (hcap : 0 < opts.chunkSize) (hg : sc.Good)
    (hnil : sc.pending = []) (hf : 1 < fuel) :
    scanLoop env opts filePath fuel (n + 1) sc ntc w = some (Exit.returned none, w) := by
  rcases Scanner.Scan_good opts hcap _ sc fuel hg (Or.inr (by simp [hnil, maxScanTokenSize]))
      sc.todo_le_pending (by rw [hnil]; exact hf) with
    ⟨_, s1, h1, h2⟩ | ⟨hp0, _⟩
  · rw [scanLoop_stop env opts filePath fuel n sc s1 ntc w h1, h2]
  · exact absurd hnil hp0

/-- A round of the scan loop: the next block of the pending content is not
text. -/
theorem scanLoop_step_skip (env : Env) (opts : options) (filePath : String) (fuel n : Nat)
    (sc : Scanner) (ntc : Bool) (w : State) (hcap : 0 < opts.chunkSize) (hg : sc.Good)
    (hfit : opts.chunkSize ≤ maxScanTokenSize ∨ sc.pending.length < maxScanTokenSize)
    (hne : sc.pending ≠ []) (hf : sc.pending.length + 1 < fuel)
    (ht : env.isText (sc.pending.take opts.chunkSize.toNat) = false) :
    scanLoop env opts filePath fuel (n + 1) sc ntc w =
      some (Exit.returned none,
        { w with stdout := w.stdout ++ ["Skipping non-text file: " ++ filePath] }) := by
  rcases Scanner.Scan_good opts hcap _ sc fuel hg hfit sc.todo_le_pending hf with
    ⟨hp0, _⟩ | ⟨_, s1, h1, h2, _, _⟩
  · exact absurd hp0 hne
  · exact scanLoop_skip env opts filePath fuel n sc s1 ntc w h1 (by rw [h2]; exact ht)

/-- A call of `doChunk` on a non-empty text file that fits into the room of the
current, open chunk: the chunk receives `BEGIN FILE`, the content and `END FILE`. -/
theorem doChunk_room (env : Env) (opts : options) (filePath : String) (content : List Byte)
    (w : State) (pre : List ChunkFile) (f : ChunkFile) (fuel : Nat)
    (hcap : 0 < opts.chunkSize) (hopen : env.openFile filePath = some content)
    (hne : content ≠ []) (ht : env.isText content = true) (hfit : Fits opts content)
    (hf : w.files = pre ++ [f]) (hh : w.chunkFile = some pre.length) (ho : f.closed = false)
    (hroom : (content.length : Int) ≤ w.chunkSizeRemaining)
    (hle : w.chunkSizeRemaining ≤ opts.chunkSize)
    (hfuel : content.length + 2 ≤ fuel) :
    doChunk env opts fuel filePath w =
      some (Exit.returned none,
        { w with
          files := pre ++ [{ f with
            segments := f.segments ++ [Segment.beginFile (env.rel opts.source filePath),
              Segment.payload content, Segment.endFile (env.rel opts.source filePath)]
            closed := decide (w.chunkSizeRemaining ≤ content.length) }]
          chunkSizeRemaining := w.chunkSizeRemaining - content.length }) := by
  have htake : content.take opts.chunkSize.toNat = content :=
    List.take_of_length_le (by omega)
  have hdrop : content.drop opts.chunkSize.toNat = [] :=
    List.drop_of_length_le (by omega)
  obtain ⟨k, rfl⟩ : ∃ k, fuel = k + 2 := ⟨fuel - 2, by omega⟩
  have hp := placeLoop_room env opts (env.rel opts.source filePath) k content false w pre f
    hne hf hh ho hroom
  obtain ⟨s1, g1, g2, g3⟩ := scanLoop_step_text env opts filePath (k + 2) (k + 1)
    (NewScanner content) false false w _ hcap (Scanner.good_new content)
    (by rw [NewScanner_pending]; exact hfit) (by rw [NewScanner_pending]; exact hne)
    (by rw [NewScanner_pending]; omega) (by rw [NewScanner_pending, htake]; exact ht)
    (by rw [NewScanner_pending, htake]; exact hp)
  rw [NewScanner_pending, hdrop] at g2
  unfold doChunk
  rw [hopen]
  simp only
  rw [g3, scanLoop_end env opts filePath (k + 2) k s1 false _ hcap g1 g2 (by omega)]
  simp [header]

/-- A call of `doChunk` on a non-empty text file of at most the capacity when
the current chunk has no room left: a new chunk is created and receives
`BEGIN FILE`, the content and `END FILE`. -/
theorem doChunk_fresh (env : Env) (opts : options) (filePath : String) (content : List Byte)
    (w : State) (fuel : Nat)
    (hopen : env.openFile filePath = some content)
    (hne : content ≠ []) (ht : env.isText content = true) (hfit : Fits opts content)
    (hrem : w.chunkSizeRemaining ≤ 0)
    (hok : env.createOk (chunkPath env opts w.chunkIndex) = true)
    (hroom : (content.length : Int) ≤ opts.chunkSize)
    (hfuel : content.length + 2 ≤ fuel) :
    doChunk env opts fuel filePath w =
      some (Exit.returned none,
        { chunkIndex := w.chunkIndex + 1
          chunkSizeRemaining := opts.chunkSize - content.length
          chunkFile := some w.close.files.length
          files := w.close.files ++ [⟨chunkPath env opts w.chunkIndex,
            [Segment.beginFile (env.rel opts.source filePath), Segment.payload content,
              Segment.endFile (env.rel opts.source filePath)],
            decide (opts.chunkSize ≤ content.length)⟩]
          stdout := w.stdout
          lostWrites := w.lostWrites }) := by
  have hpos : 0 < content.length := List.length_pos.mpr hne
  have hcap : 0 < opts.chunkSize := by omega
  have htake : content.take opts.chunkSize.toNat = content :=
    List.take_of_length_le (by omega)
  have hdrop : content.drop opts.chunkSize.toNat = [] :=
    List.drop_of_length_le (by omega)
  obtain ⟨k, rfl⟩ : ∃ k, fuel = k + 2 := ⟨fuel - 2, by omega⟩
  have hp := placeLoop_fresh env opts (env.rel opts.source filePath) k content false w
    hne hrem hok hroom
  obtain ⟨s1, g1, g2, g3⟩ := scanLoop_step_text env opts filePath (k + 2) (k + 1)
    (NewScanner content) false false w _ hcap (Scanner.good_new content)
    (by rw [NewScanner_pending]; exact hfit) (by rw [NewScanner_pending]; exact hne)
    (by rw [NewScanner_pending]; omega) (by rw [NewScanner_pending, htake]; exact ht)
    (by rw [NewScanner_pending, htake]; exact hp)
  rw [NewScanner_pending, hdrop] at g2
  unfold doChunk
  rw [hopen]
  simp only
  rw [g3, scanLoop_end env opts filePath (k + 2) k s1 false _ hcap g1 g2 (by omega)]
  simp [header]

/-- The first round of the scan loop from program start, for a file longer than
the capacity: the first block fills `chunk0.txt`. -/
theorem scanLoop_first_block (env : Env) (opts : options) (filePath : String)
    (content : List Byte) (fuel n : Nat)
    (hcap : 0 < opts.chunkSize) (hfit : Fits opts content)
    (hlong : opts.chunkSize < content.length)
    (ht : env.isText (content.take opts.chunkSize.toNat) = true)
    (hok : env.createOk (chunkPath env opts 0) = true)
    (hfuel : content.length + 2 ≤ fuel) :
    ∃ s1 : Scanner, s1.Good ∧ s1.pending = content.drop opts.chunkSize.toNat ∧
      scanLoop env opts filePath fuel (n + 1) (NewScanner content) false State.init =
        scanLoop env opts filePath fuel n s1 false
          (afterFirstBlock env opts filePath content) := by
  have hne : content ≠ [] := by
    intro h; rw [h] at hlong; simp at hlong; omega
  have hlen : (content.take opts.chunkSize.toNat).length = opts.chunkSize.toNat := by
    rw [List.length_take]; omega
  have hne1 : content.take opts.chunkSize.toNat ≠ [] := by
    intro h; rw [h] at hlen; simp at hlen; omega
  obtain ⟨k, rfl⟩ : ∃ k, fuel = k + 2 := ⟨fuel - 2, by omega⟩
  have hp := placeLoop_fresh env opts (env.rel opts.source filePath) k
    (content.take opts.chunkSize.toNat) false State.init hne1 (le_refl _) hok
    (by rw [hlen]; omega)
  have hw : ({ chunkIndex := State.init.chunkIndex + 1
               chunkSizeRemaining := opts.chunkSize -
                 ((content.take opts.chunkSize.toNat).length : Int)
               chunkFile := some State.init.close.files.length
               files := State.init.close.files ++ [⟨chunkPath env opts State.init.chunkIndex,
                 [header false (env.rel opts.source filePath),
                   Segment.payload (content.take opts.chunkSize.toNat),
                   Segment.endFile (env.rel opts.source filePath)],
                 decide (opts.chunkSize ≤ ((content.take opts.chunkSize.toNat).length : Int))⟩]
               stdout := State.init.stdout
               lostWrites := State.init.lostWrites } : State) =
      afterFirstBlock env opts filePath content := by
    have hcast : ((opts.chunkSize.toNat : Nat) : Int) = opts.chunkSize := by omega
    rw [hlen, hcast]
    simp [State.init, State.close, afterFirstBlock, header]
  rw [hw] at hp
  exact scanLoop_step_text env opts filePath (k + 2) n (NewScanner content) false false
    State.init _ hcap (Scanner.good_new content) (by rw [NewScanner_pending]; exact hfit)
    (by rw [NewScanner_pending]; exact hne) (by rw [NewScanner_pending]; omega)
    (by rw [NewScanner_pending]; exact ht) (by rw [NewScanner_pending]; exact hp)
    |>.imp fun s1 h => ⟨h.1, by rw [h.2.1, NewScanner_pending], h.2.2⟩

/-- A text file of more than the capacity and at most twice the capacity,
processed from program start: the first block fills `chunk0.txt` and the rest
goes to `chunk1.txt`, each between `BEGIN FILE` and `END FILE`. -/
theorem doChunk_two_blocks (env : Env) (opts : options) (filePath : String)
    (content : List Byte) (fuel : Nat)
    (hcap : 0 < opts.chunkSize) (hopen : env.openFile filePath = some content)
    (hfit : Fits opts content)
    (hlong : opts.chunkSize < content.length) (hshort : (content.length : Int) ≤ 2 * opts.chunkSize)
    (ht1 : env.isText (content.take opts.chunkSize.toNat) = true)
    (ht2 : env.isText (content.drop opts.chunkSize.toNat) = true)
    (hok0 : env.createOk (chunkPath env opts 0) = true)
    (hok1 : env.createOk (chunkPath env opts 1) = true)
    (hfuel : content.length + 2 ≤ fuel) :
    doChunk env opts fuel filePath State.init =
      some (Exit.returned none,
        { chunkIndex := 2
          chunkSizeRemaining := 2 * opts.chunkSize - content.length
          chunkFile := some 1
          files := [⟨chunkPath env opts 0,
              [Segment.beginFile (env.rel opts.source filePath),
                Segment.payload (content.take opts.chunkSize.toNat),
                Segment.endFile (env.rel opts.source filePath)], true⟩,
            ⟨chunkPath env opts 1,
              [Segment.beginFile (env.rel opts.source filePath),
                Segment.payload (content.drop opts.chunkSize.toNat),
                Segment.endFile (env.rel opts.source filePath)],
              decide ((content.length : Int) = 2 * opts.chunkSize)⟩]
          stdout := []
          lostWrites := 0 }) := by
  have hlen2 : 2 ≤ content.length := by omega
  obtain ⟨k, rfl⟩ : ∃ k, fuel = k + 3 := ⟨fuel - 3, by omega⟩
  obtain ⟨s1, g1, g2, g3⟩ := scanLoop_first_block env opts filePath content (k + 3) (k + 2)
    hcap hfit hlong ht1 hok0 hfuel
  have hdl : (content.drop opts.chunkSize.toNat).length =
      content.length - opts.chunkSize.toNat := by simp
  have hne2 : content.drop opts.chunkSize.toNat ≠ [] := by
    intro h; rw [h] at hdl; simp at hdl; omega
  have htake : (content.drop opts.chunkSize.toNat).take opts.chunkSize.toNat =
      content.drop opts.chunkSize.toNat := List.take_of_length_le (by omega)
  have hdrop : (content.drop opts.chunkSize.toNat).drop opts.chunkSize.toNat = [] :=
    List.drop_of_length_le (by omega)
  have hp := placeLoop_fresh env opts (env.rel opts.source filePath) (k + 1)
    (content.drop opts.chunkSize.toNat) false (afterFirstBlock env opts filePath content)
    hne2 (le_refl _) hok1 (by rw [hdl]; omega)
  obtain ⟨s2, e1, e2, e3⟩ := scanLoop_step_text env opts filePath (k + 3) (k + 1) s1 false false
    (afterFirstBlock env opts filePath content) _ hcap g1
    (by
      rcases hfit with h | h
      · exact Or.inl h
      · right; rw [g2, hdl]; omega)
    (by rw [g2]; exact hne2) (by rw [g2, hdl]; omega) (by rw [g2, htake]; exact ht2)
    (by rw [g2, htake]; exact hp)
  rw [g2, hdrop] at e2
  unfold doChunk
  rw [hopen]
  simp only
  rw [g3, e3, scanLoop_end env opts filePath (k + 3) k s2 false _ hcap e1 e2 (by omega)]
  have hclose : (afterFirstBlock env opts filePath content).close =
      afterFirstBlock env opts filePath content := by
    simp [afterFirstBlock, State.close]
  rw [hclose, hdl]
  have h1 : opts.chunkSize - ((content.length - opts.chunkSize.toNat : Nat) : Int) =
      2 * opts.chunkSize - content.length := by omega
  have h2 : (opts.chunkSize ≤ ((content.length - opts.chunkSize.toNat : Nat) : Int)) ↔
      ((content.length : Int) = 2 * opts.chunkSize) := by omega
  simp [afterFirstBlock, header, h1, h2]

/-- A file of more than the capacity whose first block is text and whose second
block is not, processed from program start: the first block is written to
`chunk0.txt` between `BEGIN FILE` and `END FILE`, and then the file is skipped. -/
theorem doChunk_write_then_skip (env : Env) (opts : options) (filePath : String)
    (content : List Byte) (fuel : Nat)
    (hcap : 0 < opts.chunkSize) (hopen : env.openFile filePath = some content)
    (hfit : Fits opts content)
    (hlong : opts.chunkSize < content.length)
    (ht1 : env.isText (content.take opts.chunkSize.toNat) = true)
    (ht2 : env.isText ((content.drop opts.chunkSize.toNat).take opts.chunkSize.toNat) = false)
    (hok0 : env.createOk (chunkPath env opts 0) = true)
    (hfuel : content.length + 2 ≤ fuel) :
    doChunk env opts fuel filePath State.init =
      some (Exit.returned none,
        { afterFirstBlock env opts filePath content with
          stdout := ["Skipping non-text file: " ++ filePath] }) := by
  obtain ⟨k, rfl⟩ : ∃ k, fuel = k + 2 := ⟨fuel - 2, by omega⟩
  obtain ⟨s1, g1, g2, g3⟩ := scanLoop_first_block env opts filePath content (k + 2) (k + 1)
    hcap hfit hlong ht1 hok0 hfuel
  have hdl : (content.drop opts.chunkSize.toNat).length =
      content.length - opts.chunkSize.toNat := by simp
  have hne2 : content.drop opts.chunkSize.toNat ≠ [] := by
    intro h; rw [h] at hdl; simp at hdl; omega
  unfold doChunk
  rw [hopen]
  simp only
  rw [g3, scanLoop_step_skip env opts filePath (k + 2) k s1 false _ hcap g1
    (by
      rcases hfit with h | h
      · exact Or.inl h
      · right; rw [g2, hdl]; omega)
    (by rw [g2]; exact hne2) (by rw [g2, hdl]; omega) (by rw [g2]; exact ht2)]
  simp [afterFirstBlock]

/-- The calls of `doChunk` for a list of openable files whose blocks are text,
when `os.Create` succeeds and the scanner cannot overflow: every call returns
nil and the payload of the chunks grows by the contents, in order. -/
theorem processFiles_total (env : Env) (opts : options) (hcap : 0 < opts.chunkSize)
    (hcreate : ∀ p, env.createOk p = true) (fuel : Nat) :
    ∀ (files : List (String × List Byte)) (w : State), w.Inv opts.chunkSize →
      (∀ pc ∈ files, env.openFile pc.1 = some pc.2 ∧ Fits opts pc.2 ∧
        TextBlocks env opts pc.2 ∧ pc.2.length + 2 ≤ fuel) →
      ∃ w1, processFiles env opts fuel (files.map Prod.fst) w = some (Exit.returned none, w1) ∧
        w1.Inv opts.chunkSize ∧ w1.payload = w.payload ++ (files.map Prod.snd).flatten := by
  intro files
  induction files with
  | nil =>
    intro w hinv _
    exact ⟨w, rfl, hinv, by simp⟩
  | cons pc rest ih =>
    intro w hinv hfiles
    obtain ⟨h1, h2, h3, h4⟩ := hfiles pc (List.mem_cons_self _ _)
    obtain ⟨w1, e1, e2, e3, _⟩ := doChunk_total env opts pc.1 pc.2 w hcap hcreate h1 h2 h3
      hinv fuel h4
    obtain ⟨w2, g1, g2, g3⟩ := ih w1 e2 (fun q hq => hfiles q (List.mem_cons_of_mem _ hq))
    refine ⟨w2, ?_, g2, ?_⟩
    · simp only [List.map_cons, processFiles, e1]
      exact g1
    · rw [g3, e3]
      simp

/-- With a chunk size above `bufio.MaxScanTokenSize`, `doChunk` on a file of at
least that many bytes returns `ErrTooLong` and leaves the state as it was. -/
theorem doChunk_tooLong (env : Env) (opts : options) (filePath : String) (content : List Byte)
    (w : State) (fuel : Nat) (hc : (maxScanTokenSize : Int) < opts.chunkSize)
    (hopen : env.openFile filePath = some content)
    (hlong : maxScanTokenSize ≤ content.length) (hfuel : maxScanTokenSize + 2 ≤ fuel) :
    doChunk env opts fuel filePath w = some (Exit.returned (some GoError.tooLong), w) := by
  obtain ⟨s1, h1, h2⟩ := Scanner.Scan_tooLong opts hc maxScanTokenSize (NewScanner content) fuel
    (Scanner.good_new content) rfl rfl (by simpa [NewScanner] using hlong)
    (by simp [NewScanner]) (by omega)
  obtain ⟨k, rfl⟩ : ∃ k, fuel = k + 1 := ⟨fuel - 1, by omega⟩
  unfold doChunk
  rw [hopen]
  simp only
  rw [scanLoop_stop env opts filePath (k + 1) k _ s1 false w h1, h2]

/-- Round trip within the token limit of the scanner. For every capacity > 0,
when `os.Create` succeeds and the scanner can hold a block (the capacity is at
most `bufio.MaxScanTokenSize` = 65536, or the file is shorter than that): for
every state reached by calls of `doChunk` from program start and every openable
file whose blocks are all classified as text, `doChunk` returns nil and the
payload of the chunks, in the order written, grows by exactly the content of
the file; hence after the files of a list have been processed from program
start, the payload of all chunks is the concatenation of their contents, and
its length the sum of their lengths. Beyond that limit (a capacity above 65536
and a file of 65536 bytes or more) the call does not write the file: it returns
`bufio.ErrTooLong` and leaves the state as it was. -/
theorem round_trip (env : Env) (opts : options) (hcap : 0 < opts.chunkSize)
    (hcreate : ∀ p, env.createOk p = true) :
    (∀ (w : State) (filePath : String) (content : List Byte) (fuel : Nat),
      Reachable env opts w → env.openFile filePath = some content → Fits opts content →
      TextBlocks env opts content → content.length + 2 ≤ fuel →
      ∃ w1, doChunk env opts fuel filePath w = some (Exit.returned none, w1) ∧
        w1.payload = w.payload ++ content) ∧
    (∀ (files : List (String × List Byte)) (fuel : Nat),
      (∀ pc ∈ files, env.openFile pc.1 = some pc.2 ∧ Fits opts pc.2 ∧
        TextBlocks env opts pc.2 ∧ pc.2.length + 2 ≤ fuel) →
      ∃ w1, processFiles env opts fuel (files.map Prod.fst) State.init =
          some (Exit.returned none, w1) ∧
        w1.payload = (files.map Prod.snd).flatten ∧
        w1.payload.length = (files.map (fun pc => pc.2.length)).sum) ∧
    (∀ (w : State) (filePath : String) (content : List Byte) (fuel : Nat),
      (65536 : Int) < opts.chunkSize → env.openFile filePath = some content →
      65536 ≤ content.length → 65538 ≤ fuel →
      doChunk env opts fuel filePath w = some (Exit.returned (some GoError.tooLong), w)) := by
  refine ⟨?_, ?_, ?_⟩
  · intro w filePath content fuel hr hopen hfit ht hfuel
    obtain ⟨w1, e1, _, e3, _⟩ := doChunk_total env opts filePath content w hcap hcreate hopen
      hfit ht (State.inv_reachable env opts hcap w hr) fuel hfuel
    exact ⟨w1, e1, e3⟩
  · intro files fuel hfiles
    obtain ⟨w1, e1, _, e3⟩ := processFiles_total env opts hcap hcreate fuel files State.init
      (State.inv_init _ hcap) hfiles
    have hp : w1.payload = (files.map Prod.snd).flatten := by
      rw [e3]; simp [State.payload, State.init]
    refine ⟨w1, e1, hp, ?_⟩
    rw [hp, List.length_flatten, List.map_map]
    rfl
  · intro w filePath content fuel hbig hopen hlong hfuel
    exact doChunk_tooLong env opts filePath content w fuel hbig hopen hlong hfuel

theorem textBlocks_of_all_text (env : Env) (opts : options) (content : List Byte)
    (h : ∀ b, env.isText b = true) : TextBlocks env opts content :=
  fun _ _ _ _ _ b _ => h b

theorem exampleState_reachable_text : Reachable textEnv (exampleOpts 2) exampleState :=
  Reachable.call 10 "aa" (Exit.returned none) Reachable.init (by rfl)

theorem round_trip_witness :
    (0 : Int) < (exampleOpts 2).chunkSize ∧ Reachable textEnv (exampleOpts 2) exampleState ∧
      ∃ w1, doChunk textEnv (exampleOpts 2) 4 "aa" exampleState =
          some (Exit.returned none, w1) ∧
        w1.payload = exampleState.payload ++ [97, 97] :=
  ⟨by decide, exampleState_reachable_text,
   (round_trip textEnv (exampleOpts 2) (by decide) (fun _ => rfl)).1 exampleState "aa"
     [97, 97] 4 exampleState_reachable_text rfl (Or.inl (by decide))
     (textBlocks_of_all_text _ _ _ (fun _ => rfl)) (by decide)⟩

/-- C4, the round trip breaks at the default token limit of `bufio.Scanner`.
With capacity 66560 (`-chunksize 65`) and a text file of 65536 bytes, processed
from program start with `os.Create` succeeding, `doChunk` returns the error
`bufio.ErrTooLong` and writes nothing, so the payload written for the file is
not its content. The same file with capacity 65536 (`-chunksize 64`), and a
file of 65535 bytes with capacity 66560, are written whole. -/
theorem round_trip_fails_above_max_token :
    (0 : Int) < (exampleOpts 66560).chunkSize ∧
    Reachable (constEnv (fun _ => true) (List.replicate 65536 97)) (exampleOpts 66560) State.init ∧
    (constEnv (fun _ => true) (List.replicate 65536 97)).openFile "big.txt" = some (List.replicate 65536 97) ∧
    TextBlocks (constEnv (fun _ => true) (List.replicate 65536 97)) (exampleOpts 66560)
      (List.replicate 65536 97) ∧
    (∀ fuel, 65538 ≤ fuel →
      doChunk (constEnv (fun _ => true) (List.replicate 65536 97)) (exampleOpts 66560) fuel "big.txt"
        State.init = some (Exit.returned (some GoError.tooLong), State.init)) ∧
    State.init.payload ++ List.replicate 65536 (97 : Byte) ≠ State.init.payload ∧
    (∀ fuel, 65538 ≤ fuel →
      ∃ w1, doChunk (constEnv (fun _ => true) (List.replicate 65536 97)) (exampleOpts 65536) fuel
          "big.txt" State.init = some (Exit.returned none, w1) ∧
        w1.payload = State.init.payload ++ List.replicate 65536 97) ∧
    (∀ fuel, 65537 ≤ fuel →
      ∃ w1, doChunk (constEnv (fun _ => true) (List.replicate 65535 97)) (exampleOpts 66560) fuel
          "big.txt" State.init = some (Exit.returned none, w1) ∧
        w1.payload = State.init.payload ++ List.replicate 65535 97) := by
  refine ⟨by decide, Reachable.init, rfl, textBlocks_of_all_text _ _ _ (fun _ => rfl), ?_, ?_,
    ?_, ?_⟩
  · intro fuel hfuel
    exact doChunk_tooLong _ _ _ (List.replicate 65536 97) _ fuel (by decide) rfl
      (by rw [List.length_replicate]; decide) hfuel
  · intro h
    have hl : (State.init.payload ++ List.replicate 65536 (97 : Byte)).length = 0 + 65536 := by
      rw [List.length_append, List.length_replicate]; rfl
    rw [h] at hl
    exact absurd hl (by decide)
  · intro fuel hfuel
    obtain ⟨w1, e1, _, e3, _⟩ := doChunk_total
      (constEnv (fun _ => true) (List.replicate 65536 97)) (exampleOpts 65536) "big.txt"
      (List.replicate 65536 97) State.init (by decide) (fun _ => rfl) rfl
      (Or.inl (by decide)) (textBlocks_of_all_text _ _ _ (fun _ => rfl))
      (State.inv_init _ (by decide)) fuel (by rw [List.length_replicate]; omega)
    exact ⟨w1, e1, e3⟩
  · intro fuel hfuel
    obtain ⟨w1, e1, _, e3, _⟩ := doChunk_total
      (constEnv (fun _ => true) (List.replicate 65535 97)) (exampleOpts 66560) "big.txt"
      (List.replicate 65535 97) State.init (by decide) (fun _ => rfl) rfl
      (Or.inr (by rw [List.length_replicate]; decide))
      (textBlocks_of_all_text _ _ _ (fun _ => rfl))
      (State.inv_init _ (by decide)) fuel (by rw [List.length_replicate]; omega)
    exact ⟨w1, e1, e3⟩

theorem constEnv_isText (isText : List Byte → Bool) (content b : List Byte) :
    (constEnv isText content).isText b = isText b := rfl

theorem take_replicate_append (n m : Nat) (a b : Byte) :
    (List.replicate n a ++ List.replicate m b).take n = List.replicate n a :=
  List.take_left' (List.length_replicate n a)

theorem drop_replicate_append (n m : Nat) (a b : Byte) :
    (List.replicate n a ++ List.replicate m b).drop n = List.replicate m b :=
  List.drop_left' (List.length_replicate n a)

theorem noZeroByte_replicate (n : Nat) (a : Byte) (ha : a ≠ 0) :
    noZeroByte (List.replicate n a) = true := by
  simp only [noZeroByte, Bool.not_eq_true', List.contains_eq_any_beq, List.any_eq_false,
    beq_iff_eq]
  intro x hx
  rw [List.eq_of_mem_replicate hx]
  exact fun h => ha h.symm

/-- C9, the code at the scenario of the specification: one text file of 20480
bytes, capacity 13312 (`-chunksize 13`), from program start. The first block
read fills `chunk0.txt` exactly, so `chunk0.txt` ends with `END FILE` (not
`END PART OF FILE`) and `chunk1.txt` starts with `BEGIN FILE` (not
`CONTINUED FILE`), although the file continues across the two chunks. -/
theorem split_at_block_boundary_has_no_continuation_marks :
    ∀ fuel, 20482 ≤ fuel →
      doChunk (constEnv (fun _ => true) (List.replicate 20480 97)) (exampleOpts 13312) fuel
          "f.txt" State.init =
        some (Exit.returned none,
          { chunkIndex := 2, chunkSizeRemaining := 6144, chunkFile := some 1,
            files := [⟨"out/chunk0.txt",
                [Segment.beginFile "f.txt", Segment.payload (List.replicate 13312 97),
                  Segment.endFile "f.txt"], true⟩,
              ⟨"out/chunk1.txt",
                [Segment.beginFile "f.txt", Segment.payload (List.replicate 7168 97),
                  Segment.endFile "f.txt"], false⟩],
            stdout := [], lostWrites := 0 }) := by
  intro fuel hfuel
  have hlen : (List.replicate 20480 (97 : Byte)).length = 20480 := List.length_replicate _ _
  have key := doChunk_two_blocks (constEnv (fun _ => true) (List.replicate 20480 97))
    (exampleOpts 13312) "f.txt" (List.replicate 20480 97) fuel (by decide) rfl
    (Or.inl (by decide)) (by rw [hlen]; decide) (by rw [hlen]; decide) rfl rfl rfl rfl
    (by rw [hlen]; exact hfuel)
  rw [key, hlen]
  have h1 : (exampleOpts 13312).chunkSize.toNat = 13312 := rfl
  rw [h1, List.take_replicate, List.drop_replicate]
  rfl

theorem split_at_block_boundary_has_no_continuation_marks_witness :
    doChunk (constEnv (fun _ => true) (List.replicate 20480 97)) (exampleOpts 13312) 20482
        "f.txt" State.init =
      some (Exit.returned none,
        { chunkIndex := 2, chunkSizeRemaining := 6144, chunkFile := some 1,
          files := [⟨"out/chunk0.txt",
              [Segment.beginFile "f.txt", Segment.payload (List.replicate 13312 97),
                Segment.endFile "f.txt"], true⟩,
            ⟨"out/chunk1.txt",
              [Segment.beginFile "f.txt", Segment.payload (List.replicate 7168 97),
                Segment.endFile "f.txt"], false⟩],
          stdout := [], lostWrites := 0 }) :=
  split_at_block_boundary_has_no_continuation_marks 20482 (le_refl _)

/-- C8, the code on a file whose first block is text and whose second block is
not: capacity 13312, a file of 13312 bytes `a` followed by 8 zero bytes, from
program start. With a classifier that takes every block as text the whole file
is written; with one that agrees on the first block and rejects the second,
the first block is written to `chunk0.txt` (closed with `END FILE`) and then
the file is skipped: a partial write followed by a skip. -/
theorem later_block_verdict_changes_output :
    noZeroByte (List.replicate 13312 97) = (fun _ : List Byte => true) (List.replicate 13312 97) ∧
    (∀ fuel, 13322 ≤ fuel →
      doChunk (constEnv noZeroByte (List.replicate 13312 97 ++ List.replicate 8 0))
          (exampleOpts 13312) fuel "f.bin" State.init =
        some (Exit.returned none,
          { chunkIndex := 1, chunkSizeRemaining := 0, chunkFile := some 0,
            files := [⟨"out/chunk0.txt",
                [Segment.beginFile "f.bin", Segment.payload (List.replicate 13312 97),
                  Segment.endFile "f.bin"], true⟩],
            stdout := ["Skipping non-text file: f.bin"], lostWrites := 0 })) ∧
    (∀ fuel, 13322 ≤ fuel →
      doChunk (constEnv (fun _ => true) (List.replicate 13312 97 ++ List.replicate 8 0))
          (exampleOpts 13312) fuel "f.bin" State.init =
        some (Exit.returned none,
          { chunkIndex := 2, chunkSizeRemaining := 13304, chunkFile := some 1,
            files := [⟨"out/chunk0.txt",
                [Segment.beginFile "f.bin", Segment.payload (List.replicate 13312 97),
                  Segment.endFile "f.bin"], true⟩,
              ⟨"out/chunk1.txt",
                [Segment.beginFile "f.bin", Segment.payload (List.replicate 8 0),
                  Segment.endFile "f.bin"], false⟩],
            stdout := [], lostWrites := 0 })) := by
  have hlen : (List.replicate 13312 (97 : Byte) ++ List.replicate 8 0).length = 13320 := by
    rw [List.length_append, List.length_replicate, List.length_replicate]
  have h1 : (exampleOpts 13312).chunkSize.toNat = 13312 := rfl
  have htext : noZeroByte (List.replicate 13312 97) = true :=
    noZeroByte_replicate _ _ (by decide)
  refine ⟨htext, ?_, ?_⟩
  · intro fuel hfuel
    have key := doChunk_write_then_skip
      (constEnv noZeroByte (List.replicate 13312 97 ++ List.replicate 8 0))
      (exampleOpts 13312) "f.bin" (List.replicate 13312 97 ++ List.replicate 8 0) fuel
      (by decide) rfl (Or.inl (by decide)) (by rw [hlen]; decide)
      (by rw [h1, take_replicate_append, constEnv_isText]; exact htext)
      (by
        rw [h1, drop_replicate_append,
          List.take_of_length_le (by rw [List.length_replicate]; decide), constEnv_isText]
        decide)
      rfl (by rw [hlen]; exact hfuel)
    rw [key]
    simp only [afterFirstBlock]
    rw [h1, take_replicate_append]
    rfl
  · intro fuel hfuel
    have key := doChunk_two_blocks
      (constEnv (fun _ => true) (List.replicate 13312 97 ++ List.replicate 8 0))
      (exampleOpts 13312) "f.bin" (List.replicate 13312 97 ++ List.replicate 8 0) fuel
      (by decide) rfl (Or.inl (by decide)) (by rw [hlen]; decide) (by rw [hlen]; decide)
      rfl rfl rfl rfl (by rw [hlen]; exact hfuel)
    rw [key, hlen, h1, take_replicate_append, drop_replicate_append]
    rfl

theorem later_block_verdict_changes_output_witness :
    doChunk (constEnv noZeroByte (List.replicate 13312 97 ++ List.replicate 8 0))
        (exampleOpts 13312) 13322 "f.bin" State.init =
      some (Exit.returned none,
        { chunkIndex := 1, chunkSizeRemaining := 0, chunkFile := some 0,
          files := [⟨"out/chunk0.txt",
              [Segment.beginFile "f.bin", Segment.payload (List.replicate 13312 97),
                Segment.endFile "f.bin"], true⟩],
          stdout := ["Skipping non-text file: f.bin"], lostWrites := 0 }) :=
  later_block_verdict_changes_output.2.1 13322 (le_refl _)

/-- The calls of `doChunk` for a list of non-empty text files that fit together
into the room of the current, open chunk: each file is appended to that chunk
as one segment between `BEGIN FILE` and `END FILE`. -/
theorem processFiles_room (env : Env) (opts : options) (fuel : Nat) (hcap : 0 < opts.chunkSize) :
    ∀ (files : List (String × List Byte)) (w : State) (pre : List ChunkFile) (f : ChunkFile),
      w.files = pre ++ [f] → w.chunkFile = some pre.length →
      (0 < w.chunkSizeRemaining → f.closed = false) →
      (((files.map (fun pc => pc.2.length)).sum : Nat) : Int) ≤ w.chunkSizeRemaining →
      w.chunkSizeRemaining ≤ opts.chunkSize →
      (∀ pc ∈ files, env.openFile pc.1 = some pc.2 ∧ pc.2 ≠ [] ∧ env.isText pc.2 = true ∧
        Fits opts pc.2 ∧ pc.2.length + 2 ≤ fuel) →
      ∃ c : Bool, processFiles env opts fuel (files.map Prod.fst) w =
        some (Exit.returned none,
          { w with
            files := pre ++ [⟨f.path, f.segments ++ (files.map (wholeFile env opts)).flatten, c⟩]
            chunkSizeRemaining :=
              w.chunkSizeRemaining - ((files.map (fun pc => pc.2.length)).sum : Nat) }) := by
  intro files
  induction files with
  | nil =>
    intro w pre f hf hh _ _ _ _
    refine ⟨f.closed, ?_⟩
    simp only [List.map_nil, processFiles, List.flatten_nil, List.append_nil, List.sum_nil,
      Nat.cast_zero, sub_zero]
    rw [← hf]
  | cons pc rest ih =>
    intro w pre f hf hh ho hsum hle hfiles
    obtain ⟨h1, h2, h3, h4, h5⟩ := hfiles pc (List.mem_cons_self _ _)
    have hpos : 0 < pc.2.length := List.length_pos.mpr h2
    simp only [List.map_cons, List.sum_cons, Nat.cast_add] at hsum
    have hnn : (0 : Int) ≤ ((rest.map (fun pc => pc.2.length)).sum : Nat) := Int.natCast_nonneg _
    have hrem : 0 < w.chunkSizeRemaining := by omega
    have hd := doChunk_room env opts pc.1 pc.2 w pre f fuel hcap h1 h2 h3 h4 hf hh (ho hrem)
      (by omega) hle h5
    obtain ⟨c, hc⟩ := ih
      { w with
        files := pre ++ [{ f with
          segments := f.segments ++ [Segment.beginFile (env.rel opts.source pc.1),
            Segment.payload pc.2, Segment.endFile (env.rel opts.source pc.1)]
          closed := decide (w.chunkSizeRemaining ≤ pc.2.length) }]
        chunkSizeRemaining := w.chunkSizeRemaining - pc.2.length }
      pre _ rfl hh
      (by
        intro h
        have h' : 0 < w.chunkSizeRemaining - (pc.2.length : Int) := h
        simp only [decide_eq_false_iff_not]
        omega)
      (by
        show (((rest.map (fun pc => pc.2.length)).sum : Nat) : Int) ≤
          w.chunkSizeRemaining - (pc.2.length : Int)
        omega)
      (by
        show w.chunkSizeRemaining - (pc.2.length : Int) ≤ opts.chunkSize
        omega)
      (fun q hq => hfiles q (List.mem_cons_of_mem _ hq))
    refine ⟨c, ?_⟩
    simp only [List.map_cons, processFiles, hd]
    rw [hc]
    simp only [List.flatten_cons, wholeFile, List.append_assoc, List.sum_cons, Nat.cast_add]
    congr 3
    omega

/-- C10 (small files share one chunk), amended. For every non-empty list of
non-empty, openable text files whose total size is at most the capacity, when
the scanner can hold each file (the capacity is at most
`bufio.MaxScanTokenSize` = 65536, or the file is shorter than that) and
`os.Create` succeeds for `chunk0.txt`: processing them in order from program
start returns nil and creates exactly one chunk, `chunk0.txt`, whose segments
are, for each file in order, one `BEGIN FILE` line, the bytes of the file and
one `END FILE` line; it holds no `CONTINUED FILE` and no `END PART OF FILE`
line. -/
theorem small_files_share_one_chunk (env : Env) (opts : options)
    (files : List (String × List Byte)) (fuel : Nat) (hne : files ≠ [])
    (hfiles : ∀ pc ∈ files, env.openFile pc.1 = some pc.2 ∧ pc.2 ≠ [] ∧
      env.isText pc.2 = true ∧ Fits opts pc.2 ∧ pc.2.length + 2 ≤ fuel)
    (htotal : (((files.map (fun pc => pc.2.length)).sum : Nat) : Int) ≤ opts.chunkSize)
    (hok : env.createOk (env.join opts.reportPath "chunk0.txt") = true) :
    ∃ (w1 : State) (c : Bool),
      processFiles env opts fuel (files.map Prod.fst) State.init =
        some (Exit.returned none, w1) ∧
      w1.files = [⟨env.join opts.reportPath "chunk0.txt",
        (files.map (fun pc => [Segment.beginFile (env.rel opts.source pc.1),
          Segment.payload pc.2, Segment.endFile (env.rel opts.source pc.1)])).flatten, c⟩] ∧
      w1.chunkIndex = 1 ∧
      ∀ f ∈ w1.files, ∀ seg ∈ f.segments, ∀ r,
        seg ≠ Segment.continuedFile r ∧ seg ≠ Segment.endPartOfFile r := by
  obtain ⟨pc, rest, rfl⟩ := List.exists_cons_of_ne_nil hne
  obtain ⟨h1, h2, h3, h4, h5⟩ := hfiles pc (List.mem_cons_self _ _)
  have hpos : 0 < pc.2.length := List.length_pos.mpr h2
  simp only [List.map_cons, List.sum_cons, Nat.cast_add] at htotal
  have hnn : (0 : Int) ≤ ((rest.map (fun pc => pc.2.length)).sum : Nat) := Int.natCast_nonneg _
  have hcap : 0 < opts.chunkSize := by omega
  have hd := doChunk_fresh env opts pc.1 pc.2 State.init fuel h1 h2 h3 h4 (le_refl _) hok
    (by omega) h5
  obtain ⟨c, hc⟩ := processFiles_room env opts fuel hcap rest
    { chunkIndex := State.init.chunkIndex + 1
      chunkSizeRemaining := opts.chunkSize - pc.2.length
      chunkFile := some State.init.close.files.length
      files := State.init.close.files ++ [⟨chunkPath env opts State.init.chunkIndex,
        [Segment.beginFile (env.rel opts.source pc.1), Segment.payload pc.2,
          Segment.endFile (env.rel opts.source pc.1)],
        decide (opts.chunkSize ≤ pc.2.length)⟩]
      stdout := State.init.stdout
      lostWrites := State.init.lostWrites }
    [] _ rfl rfl
    (by
      intro h
      have h' : 0 < opts.chunkSize - (pc.2.length : Int) := h
      simp only [decide_eq_false_iff_not]
      omega)
    (by
      show (((rest.map (fun pc => pc.2.length)).sum : Nat) : Int) ≤
        opts.chunkSize - (pc.2.length : Int)
      omega)
    (by
      show opts.chunkSize - (pc.2.length : Int) ≤ opts.chunkSize
      omega)
    (fun q hq => hfiles q (List.mem_cons_of_mem _ hq))
  have hsegs : ∀ seg ∈ ((pc :: rest).map (fun pc => [Segment.beginFile (env.rel opts.source pc.1),
      Segment.payload pc.2, Segment.endFile (env.rel opts.source pc.1)])).flatten, ∀ r,
      seg ≠ Segment.continuedFile r ∧ seg ≠ Segment.endPartOfFile r := by
    intro seg hseg r
    simp only [List.mem_flatten, List.mem_map] at hseg
    obtain ⟨l, ⟨q, _, rfl⟩, hl⟩ := hseg
    simp only [List.mem_cons, List.mem_singleton, List.not_mem_nil, or_false] at hl
    rcases hl with rfl | rfl | rfl <;> exact ⟨by simp, by simp⟩
  refine ⟨_, c, Eq.trans (by simp only [List.map_cons, processFiles, hd]) hc, ?_, ?_, ?_⟩
  · show State.init.close.files ++ _ = _
    simp only [State.init, State.close, List.nil_append, List.map_cons, List.flatten_cons,
      wholeFile, List.cons_append]
    rfl
  · rfl
  · intro f hf seg hseg r
    have hf2 : f ∈ [(⟨chunkPath env opts State.init.chunkIndex,
        [Segment.beginFile (env.rel opts.source pc.1), Segment.payload pc.2,
          Segment.endFile (env.rel opts.source pc.1)] ++
          (rest.map (wholeFile env opts)).flatten, c⟩ : ChunkFile)] := hf
    simp only [List.mem_singleton] at hf2
    subst hf2
    exact hsegs seg (by simpa [wholeFile] using hseg) r

theorem replicate_ne_nil (n : Nat) (a : Byte) (hn : 0 < n) : List.replicate n a ≠ [] := by
  intro h
  have := congrArg List.length h
  rw [List.length_replicate] at this
  simp at this
  omega

theorem small_files_share_one_chunk_witness :
    ∃ (w1 : State) (c : Bool),
      processFiles (constEnv (fun _ => true) (List.replicate 1024 97)) (exampleOpts 13312) 1026
          ["a.txt", "b.txt"] State.init = some (Exit.returned none, w1) ∧
        w1.files = [⟨"out/chunk0.txt",
          [Segment.beginFile "a.txt", Segment.payload (List.replicate 1024 97),
            Segment.endFile "a.txt", Segment.beginFile "b.txt",
            Segment.payload (List.replicate 1024 97), Segment.endFile "b.txt"], c⟩] :=
  have h := small_files_share_one_chunk (constEnv (fun _ => true) (List.replicate 1024 97))
    (exampleOpts 13312)
    [("a.txt", List.replicate 1024 97), ("b.txt", List.replicate 1024 97)] 1026
    (List.cons_ne_nil _ _)
    (by
      intro pc hpc
      have hlen : pc.2 = List.replicate 1024 97 := by
        simp only [List.mem_cons, List.mem_singleton, List.not_mem_nil, or_false] at hpc
        rcases hpc with rfl | rfl <;> rfl
      rw [hlen]
      exact ⟨rfl, replicate_ne_nil _ _ (by decide), rfl, Or.inl (by decide),
        by rw [List.length_replicate]⟩)
    (by
      simp only [List.map_cons, List.map_nil, List.sum_cons, List.sum_nil,
        List.length_replicate]
      decide)
    rfl
  h.imp fun _ h1 => h1.imp fun _ h2 => ⟨h2.1, h2.2.1⟩

/-- C10 fails as stated in two ways. For the empty list of files no chunk is
created. With capacity 1048576 (`-chunksize 1024`) and one text file of 65536
bytes, which is less than the capacity, `doChunk` returns `bufio.ErrTooLong`
and no chunk is created. -/
theorem small_files_need_a_file_and_a_fitting_scanner :
    (∀ fuel, ∃ w1, processFiles exampleEnv (exampleOpts 13312) fuel [] State.init =
        some (Exit.returned none, w1) ∧ w1.files = []) ∧
    ((((([("big.txt", List.replicate 65536 (97 : Byte))] : List (String × List Byte)).map
        (fun pc => pc.2.length)).sum : Nat) : Int) ≤ (exampleOpts 1048576).chunkSize ∧
      ∀ fuel, 65538 ≤ fuel →
        ∃ w1, processFiles (constEnv (fun _ => true) (List.replicate 65536 97))
            (exampleOpts 1048576) fuel ["big.txt"] State.init =
          some (Exit.returned (some GoError.tooLong), w1) ∧ w1.files = []) := by
  refine ⟨fun fuel => ⟨State.init, rfl, rfl⟩, ?_, ?_⟩
  · simp only [List.map_cons, List.map_nil, List.sum_cons, List.sum_nil, List.length_replicate]
    decide
  · intro fuel hfuel
    refine ⟨State.init, ?_, rfl⟩
    have h := doChunk_tooLong (constEnv (fun _ => true) (List.replicate 65536 97))
      (exampleOpts 1048576) "big.txt" (List.replicate 65536 97) State.init fuel (by decide) rfl
      (by rw [List.length_replicate]; decide) hfuel
    simp only [processFiles, h]

theorem anyMatch_eq_any (env : Env) (patterns : List String) (filePath : String) :
    anyMatch env patterns filePath = patterns.any (fun p => (env.pathMatch p filePath).1) := by
  induction patterns with
  | nil => rfl
  | cons p ps ih =>
    simp only [anyMatch, List.any_cons, ih]
    cases (env.pathMatch p filePath).1 <;> simp

theorem any_matched_noerr (env : Env) (patterns : List String) (filePath : String)
    (hcontract : ∀ p, (env.pathMatch p filePath).2 = true → (env.pathMatch p filePath).1 = false) :
    patterns.any (fun p => (env.pathMatch p filePath).1 && !(env.pathMatch p filePath).2) =
      patterns.any (fun p => (env.pathMatch p filePath).1) := by
  induction patterns with
  | nil => rfl
  | cons p ps ih =>
    simp only [List.any_cons, ih]
    congr 1
    have := hcontract p
    cases h1 : (env.pathMatch p filePath).1 <;> cases h2 : (env.pathMatch p filePath).2 <;>
      simp_all

/-- C19 (the second exclude loop is redundant). For every options value, path
and match function, `shouldProcess` returns what the function without the
trailing exclude loop returns, which is
`!anyExcludeMatches && (len(include) == 0 || anyIncludeMatches)` in terms of the
`matched` results. When `PathMatch` reports no match together with an error
(its contract), this is the same formula with a pattern counted as matching only
when it matches without error. -/
theorem second_exclude_loop_redundant (env : Env) (opts : options) (filePath : String) :
    shouldProcess env opts filePath = shouldProcessNoTail env opts filePath ∧
    shouldProcess env opts filePath =
      (!(opts.excludePatterns.any (fun p => (env.pathMatch p filePath).1)) &&
        (opts.includePatterns.length == 0 ||
          opts.includePatterns.any (fun p => (env.pathMatch p filePath).1))) ∧
    ((∀ p, (env.pathMatch p filePath).2 = true → (env.pathMatch p filePath).1 = false) →
      shouldProcess env opts filePath = shouldProcessFormula env opts filePath ∧
      shouldProcessNoTail env opts filePath = shouldProcessFormula env opts filePath) := by
  have h1 : shouldProcess env opts filePath = shouldProcessNoTail env opts filePath := by
    unfold shouldProcess shouldProcessNoTail
    cases anyMatch env opts.excludePatterns filePath <;> simp
  have h2 : shouldProcessNoTail env opts filePath =
      (!(opts.excludePatterns.any (fun p => (env.pathMatch p filePath).1)) &&
        (opts.includePatterns.length == 0 ||
          opts.includePatterns.any (fun p => (env.pathMatch p filePath).1))) := by
    unfold shouldProcessNoTail
    rw [anyMatch_eq_any, anyMatch_eq_any]
    cases opts.excludePatterns.any (fun p => (env.pathMatch p filePath).1)
    · cases hl : opts.includePatterns with
      | nil => simp
      | cons a l =>
        cases ((a :: l).any (fun p => (env.pathMatch p filePath).1)) <;> simp
    · simp
  refine ⟨h1, h1.trans h2, ?_⟩
  intro hcontract
  have h3 : shouldProcessNoTail env opts filePath = shouldProcessFormula env opts filePath := by
    rw [h2]
    unfold shouldProcessFormula
    rw [any_matched_noerr env _ filePath hcontract, any_matched_noerr env _ filePath hcontract]
  exact ⟨h1.trans h3, h3⟩

theorem second_exclude_loop_redundant_witness :
    (∀ p, (exampleEnv.pathMatch p "src/a.go").2 = true →
        (exampleEnv.pathMatch p "src/a.go").1 = false) ∧
      shouldProcess exampleEnv (exampleOpts 2) "src/a.go" =
        shouldProcessFormula exampleEnv (exampleOpts 2) "src/a.go" :=
  have hc : ∀ p, (exampleEnv.pathMatch p "src/a.go").2 = true →
      (exampleEnv.pathMatch p "src/a.go").1 = false := by
    intro p hp
    simp only [exampleEnv] at hp
    split at hp <;> simp at hp
  ⟨hc, ((second_exclude_loop_redundant exampleEnv (exampleOpts 2) "src/a.go").2.2 hc).1⟩

/-- C18 (empty files vanish). For every writer state and every capacity,
`doChunk` on an openable file of length 0 returns nil and leaves the state
exactly as it was: no block is yielded, so nothing is written, no chunk is
created, nothing is printed, and the classifier is not consulted (the result is
the same for every classifier). -/
theorem empty_file_vanishes (env : Env) (opts : options) (filePath : String) (w : State)
    (fuel : Nat) (hopen : env.openFile filePath = some []) (hfuel : 2 ≤ fuel) :
    doChunk env opts fuel filePath w = some (Exit.returned none, w) := by
  have h2 : Scanner.Scan opts 2 (NewScanner []) =
      some (ScanResult.stop ⟨[], [], 4096, 0, none, some ScanErr.eof, 0⟩) := by
    rfl
  have h := Scanner.Scan_mono opts 2 _ _ (fuel - 2) h2
  rw [Nat.add_sub_cancel' hfuel] at h
  obtain ⟨k, rfl⟩ : ∃ k, fuel = k + 1 := ⟨fuel - 1, by omega⟩
  unfold doChunk
  rw [hopen]
  simp only
  rw [scanLoop_stop env opts filePath (k + 1) k _ _ false w h]
  rfl

theorem empty_file_vanishes_witness :
    doChunk emptyFileEnv (exampleOpts 13312) 2 "empty" exampleState =
      some (Exit.returned none, exampleState) :=
  empty_file_vanishes emptyFileEnv (exampleOpts 13312) "empty" exampleState 2 rfl (le_refl _)

/-- C17 (writes only go to an open chunk). For every capacity > 0 and every
state reached by calls of `doChunk` from program start, no write was ever
attempted on a nil handle or on a closed file (every `Write` and `WriteString`
went to the current chunk while it was open), and while there is room left the
handle is present and refers to the last chunk created, which is open. -/
theorem writes_go_to_open_chunk (env : Env) (opts : options) (w : State)
    (hcap : 0 < opts.chunkSize) (hr : Reachable env opts w) :
    w.lostWrites = 0 ∧
    (0 < w.chunkSizeRemaining →
      ∃ h f, w.chunkFile = some h ∧ w.files.get? h = some f ∧ f.closed = false ∧
        h + 1 = w.files.length) := by
  obtain ⟨_, _, i3, _, i5, i6⟩ := State.inv_reachable env opts hcap w hr
  refine ⟨i3, ?_⟩
  intro hrem
  obtain ⟨h, hh⟩ := Option.ne_none_iff_exists'.mp (i5 hrem)
  obtain ⟨pre, f, hf, hp, _, ho⟩ := i6 h hh
  exact ⟨h, f, hh, by simp [hf, hp], ho hrem, by simp [hf, hp]⟩

theorem get?_modify_some (g : ChunkFile → ChunkFile) (h i : Nat) (l : List ChunkFile)
    (x : ChunkFile) (hx : (List.modify g h l).get? i = some x) :
    ∃ y, l.get? i = some y ∧ x = if h = i then g y else y := by
  simp only [List.get?_eq_getElem?, List.getElem?_modify] at hx ⊢
  cases hl : l[i]? with
  | none => simp [hl] at hx
  | some y =>
    simp only [hl, Option.map_eq_map, Option.map_some', Option.some.injEq] at hx
    exact ⟨y, rfl, hx.symm⟩

theorem State.openIsCurrent_write (w : State) (seg : Segment) (h : w.OpenIsCurrent) :
    (w.write seg).OpenIsCurrent := by
  unfold State.write
  split
  · exact h
  · split
    · exact h
    · split
      · exact h
      · intro i f hf ho
        obtain ⟨y, hy, hxy⟩ := get?_modify_some _ _ i _ f hf
        apply h i y hy
        rw [hxy] at ho
        split at ho <;> exact ho

theorem State.allClosed_close (w : State) (h : w.OpenIsCurrent) : w.close.AllClosed := by
  unfold State.close
  split
  · rename_i hnone
    intro i f hf
    by_contra hc
    have := h i f hf (by simpa using hc)
    rw [hnone] at this
    cases this
  · rename_i h0 hsome
    intro i f hf
    obtain ⟨y, hy, hxy⟩ := get?_modify_some _ _ i _ f hf
    by_cases hi : h0 = i
    · rw [hxy, if_pos hi]
    · rw [hxy, if_neg hi]
      by_contra hc
      have := h i y hy (by simpa using hc)
      rw [hsome] at this
      exact hi (Option.some.inj this)

theorem State.openIsCurrent_of_allClosed (w : State) (h : w.AllClosed) : w.OpenIsCurrent := by
  intro i f hf ho
  rw [h i f hf] at ho
  cases ho

theorem State.openIsCurrent_close (w : State) (h : w.OpenIsCurrent) : w.close.OpenIsCurrent :=
  State.openIsCurrent_of_allClosed _ (State.allClosed_close w h)

theorem openChunk_openIsCurrent (env : Env) (opts : options) (w : State)
    (h : w.OpenIsCurrent) :
    match openChunk env opts w with
    | Except.error (_, w1) => w1.OpenIsCurrent
    | Except.ok w1 => w1.OpenIsCurrent := by
  unfold openChunk
  rw [State.closeIf_eq]
  have hc := State.allClosed_close w h
  by_cases hrem : w.chunkSizeRemaining ≤ 0
  · rw [if_pos hrem]
    by_cases hok : env.createOk (chunkPath env opts w.close.chunkIndex) = true
    · simp only [hok, if_true]
      intro i f hf ho
      show some w.close.files.length = some i
      have hf2 : (w.close.files ++ [(⟨chunkPath env opts w.close.chunkIndex, [], false⟩ :
          ChunkFile)]).get? i = some f := hf
      by_cases hi : i < w.close.files.length
      · rw [List.get?_eq_getElem?, List.getElem?_append_left hi, ← List.get?_eq_getElem?] at hf2
        rw [hc i f hf2] at ho
        cases ho
      · by_cases hi2 : i = w.close.files.length
        · rw [hi2]
        · rw [List.get?_eq_getElem?, List.getElem?_eq_none (by simp; omega)] at hf2
          cases hf2
    · simp only [hok, if_false]
      exact State.openIsCurrent_of_allClosed _ hc
  · rw [if_neg hrem]
    exact h

theorem writeSegment_openIsCurrent (relPath : String) (chunk : List Byte) (ntc : Bool)
    (w : State) (h : w.OpenIsCurrent) :
    match writeSegment relPath chunk ntc w with
    | Except.error (_, w1) => w1.OpenIsCurrent
    | Except.ok (_, _, w1) => w1.OpenIsCurrent := by
  have hw : ∀ (w : State) (seg : Segment), w.OpenIsCurrent → (w.write seg).OpenIsCurrent :=
    State.openIsCurrent_write
  have hr : ∀ (w : State) (r : Int), w.OpenIsCurrent →
      State.OpenIsCurrent { w with chunkSizeRemaining := r } := fun _ _ h => h
  have hcl : ∀ (w : State), w.OpenIsCurrent → w.close.OpenIsCurrent :=
    State.openIsCurrent_close
  unfold writeSegment
  simp only
  split_ifs <;> first
    | exact hw _ _ h
    | exact hcl _ (hw _ _ (hr _ _ (hw _ _ (hw _ _ h))))
    | exact hw _ _ (hr _ _ (hw _ _ (hw _ _ h)))

theorem placeStep_openIsCurrent (env : Env) (opts : options) (relPath : String)
    (chunk : List Byte) (ntc : Bool) (w : State) (h : w.OpenIsCurrent) :
    match placeStep env opts relPath chunk ntc w with
    | Except.error (_, w1) => w1.OpenIsCurrent
    | Except.ok (_, _, w1) => w1.OpenIsCurrent := by
  unfold placeStep
  have h1 := openChunk_openIsCurrent env opts w h
  cases ho : openChunk env opts w with
  | error r => rw [ho] at h1; exact h1
  | ok w1 =>
    rw [ho] at h1
    exact writeSegment_openIsCurrent relPath chunk ntc w1 h1

/-- C11 (at most one chunk open). In every state reached by calls of `doChunk`
from program start, whatever the capacity: every chunk file that is not closed
is the one the handle `chunkFile` refers to, so at most one chunk file is open. -/
theorem at_most_one_chunk_open (env : Env) (opts : options) (w : State)
    (hr : Reachable env opts w) :
    (∀ i f, w.files.get? i = some f → f.closed = false → w.chunkFile = some i) ∧
    (∀ i j fi fj, w.files.get? i = some fi → w.files.get? j = some fj →
      fi.closed = false → fj.closed = false → i = j) := by
  have h : w.OpenIsCurrent :=
    Reachable.preserves env opts State.OpenIsCurrent
      (by intro i f hf; simp [State.init] at hf)
      (fun relPath chunk ntc w hw => placeStep_openIsCurrent env opts relPath chunk ntc w hw)
      (fun _ _ hw => hw) w hr
  refine ⟨h, ?_⟩
  intro i j fi fj hi hj hoi hoj
  have h1 := h i fi hi hoi
  have h2 := h j fj hj hoj
  rw [h1] at h2
  exact Option.some.inj h2

theorem exampleSplitState_reachable : Reachable exampleEnv (exampleOpts 3) exampleSplitState :=
  Reachable.call 10 "aa" (Exit.returned none)
    (Reachable.call 10 "aa" (Exit.returned none) Reachable.init rfl) (by rfl)

theorem at_most_one_chunk_open_witness :
    Reachable exampleEnv (exampleOpts 3) exampleSplitState ∧
      exampleSplitState.chunkFile = some 1 :=
  ⟨exampleSplitState_reachable,
   (at_most_one_chunk_open exampleEnv (exampleOpts 3) exampleSplitState
     exampleSplitState_reachable).1 1 _ rfl rfl⟩

theorem writes_go_to_open_chunk_witness :
    (0 : Int) < (exampleOpts 3).chunkSize ∧
      Reachable exampleEnv (exampleOpts 3) exampleSplitState ∧
      exampleSplitState.lostWrites = 0 :=
  ⟨by decide, exampleSplitState_reachable,
   (writes_go_to_open_chunk exampleEnv (exampleOpts 3) exampleSplitState (by decide)
     exampleSplitState_reachable).1⟩

/-- Loop invariants for `doChunk`: `P` holds between the rounds of the scan
loop, `Q` between the rounds of a placement loop, where it may depend on the
path, on the unwritten part of the block and on the flag `needToContinue`. The
placement loop is entered with the flag false, runs its body only on a
non-empty rest, and is left with an empty rest. -/
theorem placeLoop_inv_rounds (env : Env) (opts : options) (P : State → Prop)
    (Q : String → List Byte → Bool → State → Prop)
    (hstep : ∀ relPath chunk ntc w, chunk ≠ [] → Q relPath chunk ntc w →
      match placeStep env opts relPath chunk ntc w with
      | Except.error (_, w1) => P w1
      | Except.ok (chunk1, ntc1, w1) => Q relPath chunk1 ntc1 w1)
    (hexit : ∀ relPath ntc w, Q relPath [] ntc w → ntc = false ∧ P w)
    (relPath : String) :
    ∀ (fuel : Nat) (chunk : List Byte) (ntc : Bool) (w : State), Q relPath chunk ntc w →
      match placeLoop env opts relPath fuel chunk ntc w with
      | none => True
      | some (Except.error (_, w1)) => P w1
      | some (Except.ok (ntc1, w1)) => ntc1 = false ∧ P w1 := by
  intro fuel
  induction fuel with
  | zero => intro chunk ntc w _; simp [placeLoop]
  | succ fuel ih =>
    intro chunk ntc w hq
    unfold placeLoop
    by_cases hl : chunk.length > 0
    · rw [if_pos hl]
      have hne : chunk ≠ [] := List.length_pos.mp hl
      have h1 := hstep relPath chunk ntc w hne hq
      cases hr : placeStep env opts relPath chunk ntc w with
      | error r => rw [hr] at h1; exact h1
      | ok r =>
        obtain ⟨c1, n1, w1⟩ := r
        rw [hr] at h1
        exact ih c1 n1 w1 h1
    · rw [if_neg hl]
      have hnil : chunk = [] := List.length_eq_zero.mp (by omega)
      subst hnil
      exact hexit relPath ntc w hq

theorem scanLoop_inv_rounds (env : Env) (opts : options) (P : State → Prop)
    (Q : String → List Byte → Bool → State → Prop)
    (henter : ∀ relPath chunk w, P w → Q relPath chunk false w)
    (hstep : ∀ relPath chunk ntc w, chunk ≠ [] → Q relPath chunk ntc w →
      match placeStep env opts relPath chunk ntc w with
      | Except.error (_, w1) => P w1
      | Except.ok (chunk1, ntc1, w1) => Q relPath chunk1 ntc1 w1)
    (hexit : ∀ relPath ntc w, Q relPath [] ntc w → ntc = false ∧ P w)
    (hout : ∀ (w : State) (l : List String), P w → P { w with stdout := l })
    (filePath : String) (fuel : Nat) :
    ∀ (n : Nat) (sc : Scanner) (w : State) (e : Exit) (w1 : State), P w →
      scanLoop env opts filePath fuel n sc false w = some (e, w1) → P w1 := by
  intro n
  induction n with
  | zero => intro sc w e w1 _ h; simp [scanLoop] at h
  | succ n ih =>
    intro sc w e w1 hw h
    unfold scanLoop at h
    cases hs : Scanner.Scan opts fuel sc with
    | none => rw [hs] at h; simp at h
    | some r =>
      rw [hs] at h
      cases r with
      | panic =>
        simp only [Option.some.injEq, Prod.mk.injEq] at h
        rw [← h.2]; exact hw
      | stop s1 =>
        simp only [Option.some.injEq, Prod.mk.injEq] at h
        rw [← h.2]; exact hw
      | token s1 =>
        simp only at h
        split_ifs at h with ht
        · simp only [Option.some.injEq, Prod.mk.injEq] at h
          rw [← h.2]; exact hout w _ hw
        · have hp := placeLoop_inv_rounds env opts P Q hstep hexit
            (env.rel opts.source filePath) fuel s1.Bytes false w (henter _ _ w hw)
          cases hr : placeLoop env opts (env.rel opts.source filePath) fuel s1.Bytes false w with
          | none => rw [hr] at h; simp at h
          | some r =>
            rw [hr] at h hp
            cases r with
            | error r =>
              simp only [Option.some.injEq] at h
              rw [h] at hp
              exact hp
            | ok r =>
              obtain ⟨n1, w2⟩ := r
              simp only at hp h
              obtain ⟨hn, hp2⟩ := hp
              subst hn
              exact ih s1 w2 e w1 hp2 h

/-- Induction over the calls of `doChunk` since program start, with loop
invariants. -/
theorem Reachable.inv_rounds (env : Env) (opts : options) (P : State → Prop)
    (Q : String → List Byte → Bool → State → Prop)
    (hinit : P State.init)
    (henter : ∀ relPath chunk w, P w → Q relPath chunk false w)
    (hstep : ∀ relPath chunk ntc w, chunk ≠ [] → Q relPath chunk ntc w →
      match placeStep env opts relPath chunk ntc w with
      | Except.error (_, w1) => P w1
      | Except.ok (chunk1, ntc1, w1) => Q relPath chunk1 ntc1 w1)
    (hexit : ∀ relPath ntc w, Q relPath [] ntc w → ntc = false ∧ P w)
    (hout : ∀ (w : State) (l : List String), P w → P { w with stdout := l })
    (w : State) (hr : Reachable env opts w) : P w := by
  induction hr with
  | init => exact hinit
  | call fuel filePath e _ hd ih =>
    unfold doChunk at hd
    cases ho : env.openFile filePath with
    | none =>
      rw [ho] at hd
      simp only [Option.some.injEq, Prod.mk.injEq] at hd
      rw [← hd.2]; exact ih
    | some content =>
      rw [ho] at hd
      exact scanLoop_inv_rounds env opts P Q henter hstep hexit hout filePath fuel fuel _ _ e _
        ih hd

/-- The three ways a round of the placement loop can go from a state that
satisfies the writer invariant, for a capacity > 0: `os.Create` fails; the
current chunk has room and receives a segment; or the current chunk is full,
a new chunk is created and receives a segment. -/
theorem placeStep_shape (env : Env) (opts : options) (relPath : String) (chunk : List Byte)
    (ntc : Bool) (w : State) (hcap : 0 < opts.chunkSize) (hinv : w.Inv opts.chunkSize) :
    (env.createOk (chunkPath env opts w.chunkIndex) = false ∧ w.chunkSizeRemaining = 0 ∧
      placeStep env opts relPath chunk ntc w =
        Except.error (Exit.returned (some GoError.createFailed),
          { w.close with chunkFile := none })) ∨
    (0 < w.chunkSizeRemaining ∧ ∃ pre f, w.files = pre ++ [f] ∧
      w.chunkFile = some pre.length ∧ f.closed = false ∧
      w.chunkSizeRemaining = opts.chunkSize - (f.payload.length : Int) ∧
      placeStep env opts relPath chunk ntc w =
        Except.ok (chunk.drop (min chunk.length w.chunkSizeRemaining.toNat),
          decide ((chunk.length : Int) > w.chunkSizeRemaining),
          { w with
            files := pre ++ [{ f with
              segments := f.segments ++ [header ntc relPath,
                Segment.payload (chunk.take (min chunk.length w.chunkSizeRemaining.toNat)),
                trailer (decide ((chunk.length : Int) > w.chunkSizeRemaining)) relPath]
              closed := decide (w.chunkSizeRemaining ≤ chunk.length) }]
            chunkSizeRemaining :=
              w.chunkSizeRemaining - (min chunk.length w.chunkSizeRemaining.toNat : Nat) })) ∨
    (w.chunkSizeRemaining = 0 ∧ env.createOk (chunkPath env opts w.chunkIndex) = true ∧
      placeStep env opts relPath chunk ntc w =
        Except.ok (chunk.drop (min chunk.length opts.chunkSize.toNat),
          decide ((chunk.length : Int) > opts.chunkSize),
          { chunkIndex := w.chunkIndex + 1
            chunkSizeRemaining :=
              opts.chunkSize - (min chunk.length opts.chunkSize.toNat : Nat)
            chunkFile := some w.close.files.length
            files := w.close.files ++ [⟨chunkPath env opts w.chunkIndex,
              [header ntc relPath,
                Segment.payload (chunk.take (min chunk.length opts.chunkSize.toNat)),
                trailer (decide ((chunk.length : Int) > opts.chunkSize)) relPath],
              decide (opts.chunkSize ≤ chunk.length)⟩]
            stdout := w.stdout
            lostWrites := w.lostWrites })) := by
  obtain ⟨i1, i2, i3, i4, i5, i6⟩ := hinv
  by_cases hrem : 0 < w.chunkSizeRemaining
  · right; left
    obtain ⟨h, hh⟩ := Option.ne_none_iff_exists'.mp (i5 hrem)
    obtain ⟨pre, f, hf, hp, hroom, ho⟩ := i6 h hh
    subst hp
    refine ⟨hrem, pre, f, hf, hh, ho hrem, hroom, ?_⟩
    unfold placeStep
    rw [openChunk_room env opts w hrem]
    exact writeSegment_open relPath chunk ntc w pre f hf hh (ho hrem) i1
  · have hz : w.chunkSizeRemaining = 0 := by omega
    by_cases hok : env.createOk (chunkPath env opts w.chunkIndex) = true
    · right; right
      refine ⟨hz, hok, ?_⟩
      have hrot := State.rotated_eq env opts w
      unfold placeStep
      rw [openChunk_rotate env opts w (by omega) hok]
      simp only
      rw [writeSegment_open relPath chunk ntc (w.rotated env opts) w.close.files
        { path := chunkPath env opts w.chunkIndex, segments := [], closed := false }
        (by rw [hrot]) (by rw [hrot]) rfl (by rw [hrot]; exact le_of_lt hcap)]
      rw [hrot]
      simp
    · left
      have hok2 : env.createOk (chunkPath env opts w.chunkIndex) = false := by
        simpa using hok
      refine ⟨hok2, hz, ?_⟩
      unfold placeStep
      rw [openChunk_createFailed env opts w (by omega) hok2, State.closeIf_eq]

theorem State.lens_close (w : State) : w.close.lens = w.lens := by
  have h := State.close_payloads w
  unfold State.lens
  have h2 := congrArg (List.map List.length) h
  simpa [List.map_map] using h2

theorem State.tight_full (cap : Int) (w : State) (ht : w.Tight cap)
    (hz : w.chunkSizeRemaining = 0) : ∀ y ∈ w.lens, (y : Int) = cap := by
  intro y hy
  rcases List.eq_nil_or_concat w.lens with h | ⟨pre, x, h⟩
  · rw [h] at hy; cases hy
  · rw [List.concat_eq_append] at h
    obtain ⟨h1, _, h3⟩ := ht pre x h
    rw [h, List.mem_append, List.mem_singleton] at hy
    rcases hy with hy | hy
    · exact h1 y hy
    · rw [hy]; omega

/-- A round of the placement loop on a non-empty rest keeps tight packing. -/
theorem placeStep_tight (env : Env) (opts : options) (relPath : String) (chunk : List Byte)
    (ntc : Bool) (w : State) (hcap : 0 < opts.chunkSize) (hne : chunk ≠ [])
    (hinv : w.Inv opts.chunkSize) (ht : w.Tight opts.chunkSize) :
    match placeStep env opts relPath chunk ntc w with
    | Except.error (_, w1) => w1.Tight opts.chunkSize
    | Except.ok (chunk1, ntc1, w1) => w1.Tight opts.chunkSize ∧ (ntc1 = true → chunk1 ≠ []) := by
  have hpos : 0 < chunk.length := List.length_pos.mpr hne
  rcases placeStep_shape env opts relPath chunk ntc w hcap hinv with
    ⟨_, hz, h⟩ | ⟨hrem, pre, f, hf, hh, ho, hroom, h⟩ | ⟨hz, _, h⟩
  · rw [h]
    show State.Tight _ _
    intro pre x hl
    have hl2 : w.close.lens = pre ++ [x] := hl
    rw [State.lens_close] at hl2
    obtain ⟨a, b, c⟩ := ht pre x hl2
    exact ⟨a, b, by rw [← c]; exact (State.close_frame w).2.2.1⟩
  · rw [h]
    refine ⟨?_, ?_⟩
    · show State.Tight _ _
      intro pre1 x hl
      have hl0 : w.lens = pre.map (fun f => f.payload.length) ++ [f.payload.length] := by
        simp [State.lens, hf]
      obtain ⟨a, b, c⟩ := ht _ _ hl0
      have hl1 : pre.map (fun f => f.payload.length) ++
          [f.payload.length + min chunk.length w.chunkSizeRemaining.toNat] = pre1 ++ [x] := by
        rw [← hl]
        simp only [State.lens, List.map_append, List.map_cons, List.map_nil]
        rw [ChunkFile.payload_segment _ _ _ f.closed, List.length_append, List.length_take]
        simp
      obtain ⟨e1, e2⟩ := List.append_inj' hl1 rfl
      simp only [List.cons.injEq, and_true] at e2
      subst e1
      refine ⟨a, by omega, ?_⟩
      show w.chunkSizeRemaining - _ = _
      rw [← e2]
      push_cast
      omega
    · intro hd
      simp only [gt_iff_lt, decide_eq_true_eq] at hd
      intro hnil
      have := congrArg List.length hnil
      simp only [List.length_drop, List.length_nil] at this
      omega
  · rw [h]
    refine ⟨?_, ?_⟩
    · show State.Tight _ _
      intro pre1 x hl
      have hl1 : w.lens ++ [min chunk.length opts.chunkSize.toNat] = pre1 ++ [x] := by
        rw [← hl, ← State.lens_close w]
        simp only [State.lens, List.map_append, List.map_cons, List.map_nil]
        rw [show ChunkFile.payload ⟨chunkPath env opts w.chunkIndex,
            [header ntc relPath,
              Segment.payload (chunk.take (min chunk.length opts.chunkSize.toNat)),
              trailer (decide ((chunk.length : Int) > opts.chunkSize)) relPath],
            decide (opts.chunkSize ≤ chunk.length)⟩ =
            ChunkFile.payload ⟨chunkPath env opts w.chunkIndex, [], false⟩ ++
              chunk.take (min chunk.length opts.chunkSize.toNat) from
          ChunkFile.payload_segment _ [] _ false _ _ _ _]
        simp [ChunkFile.payload]
      obtain ⟨e1, e2⟩ := List.append_inj' hl1 rfl
      simp only [List.cons.injEq, and_true] at e2
      subst e1
      refine ⟨State.tight_full _ w ht hz, by omega, ?_⟩
      show opts.chunkSize - _ = _
      rw [← e2]
    · intro hd
      simp only [gt_iff_lt, decide_eq_true_eq] at hd
      intro hnil
      have := congrArg List.length hnil
      simp only [List.length_drop, List.length_nil] at this
      omega

theorem State.tight_reachable (env : Env) (opts : options) (hcap : 0 < opts.chunkSize)
    (w : State) (hr : Reachable env opts w) : w.Inv opts.chunkSize ∧ w.Tight opts.chunkSize := by
  refine Reachable.inv_rounds env opts
    (fun w => w.Inv opts.chunkSize ∧ w.Tight opts.chunkSize)
    (fun _ chunk ntc w => (w.Inv opts.chunkSize ∧ w.Tight opts.chunkSize) ∧
      (ntc = true → chunk ≠ []))
    ⟨State.inv_init _ hcap, ?_⟩ ?_ ?_ ?_ ?_ w hr
  · intro pre x hl
    simp [State.lens, State.init] at hl
  · intro relPath chunk w hw
    exact ⟨hw, fun h => by cases h⟩
  · intro relPath chunk ntc w hne hq
    obtain ⟨⟨hinv, ht⟩, _⟩ := hq
    have h2 := placeStep_tight env opts relPath chunk ntc w hcap hne hinv ht
    rcases placeStep_inv env opts relPath chunk ntc w hcap hinv with
      ⟨_, _, w1, h1, e2, _⟩ | ⟨n, w1, h1, e2, _⟩
    · rw [h1] at h2 ⊢
      exact ⟨e2, h2⟩
    · rw [h1] at h2 ⊢
      exact ⟨⟨e2, h2.1⟩, h2.2⟩
  · intro relPath ntc w hq
    refine ⟨?_, hq.1⟩
    cases ntc with
    | false => rfl
    | true => exact absurd rfl (hq.2 rfl)
  · intro w l hw
    exact hw

theorem State.payload_length (w : State) : w.payload.length = w.lens.sum := by
  simp [State.payload, State.lens, List.length_flatten, List.map_map, Function.comp_def]

theorem sum_of_all_eq (c : Nat) (l : List Nat) (h : ∀ y ∈ l, y = c) : l.sum = l.length * c := by
  induction l with
  | nil => simp
  | cons a l ih =>
    rw [List.sum_cons, List.length_cons, ih (fun y hy => h y (List.mem_cons_of_mem _ hy)),
      h a (List.mem_cons_self _ _)]
    ring

theorem ceil_div_tight (c k x : Nat) (hx1 : 1 ≤ x) (hx2 : x ≤ c) :
    (k * c + x + c - 1) / c = k + 1 := by
  have hc : 0 < c := by omega
  have h : k * c + x + c - 1 = (x - 1) + c * (k + 1) := by
    have : k * c + c = c * (k + 1) := by ring
    omega
  rw [h, Nat.add_mul_div_left _ _ hc, Nat.div_eq_of_lt (by omega)]
  omega

/-- C15 (tight packing). For every capacity > 0 and every state reached by
calls of `doChunk` from program start: a chunk is created only when
`chunkSizeRemaining` is 0; every chunk but the last one created holds exactly
the capacity in payload bytes; every chunk holds at least one payload byte; and
the number of chunks is the ceiling of the total payload divided by the
capacity. -/
theorem tight_packing (env : Env) (opts : options) (w : State) (hcap : 0 < opts.chunkSize)
    (hr : Reachable env opts w) :
    (∀ w1, openChunk env opts w = Except.ok w1 → w1.files.length ≠ w.files.length →
      w.chunkSizeRemaining = 0) ∧
    (∀ pre f, w.files = pre ++ [f] → ∀ g ∈ pre, (g.payload.length : Int) = opts.chunkSize) ∧
    (∀ f ∈ w.files, 1 ≤ f.payload.length) ∧
    w.files.length =
      (w.payload.length + opts.chunkSize.toNat - 1) / opts.chunkSize.toNat := by
  obtain ⟨hinv, ht⟩ := State.tight_reachable env opts hcap w hr
  obtain ⟨i1, i2, i3, i4, i5, i6⟩ := hinv
  have hc : 0 < opts.chunkSize.toNat := by omega
  have hparts : ∀ pre f, w.files = pre ++ [f] →
      (∀ g ∈ pre, (g.payload.length : Int) = opts.chunkSize) ∧ 1 ≤ f.payload.length := by
    intro pre f hf
    have hl : w.lens = pre.map (fun f => f.payload.length) ++ [f.payload.length] := by
      simp [State.lens, hf]
    obtain ⟨a, b, _⟩ := ht _ _ hl
    exact ⟨fun g hg => a _ (List.mem_map_of_mem _ hg), b⟩
  refine ⟨?_, fun pre f hf => (hparts pre f hf).1, ?_, ?_⟩
  · intro w1 ho hlen
    by_cases hrem : 0 < w.chunkSizeRemaining
    · rw [openChunk_room env opts w hrem] at ho
      simp only [Except.ok.injEq] at ho
      rw [ho] at hlen
      exact absurd rfl hlen
    · omega
  · intro f hf
    rcases List.eq_nil_or_concat w.files with h | ⟨pre, x, h⟩
    · rw [h] at hf; cases hf
    · rw [List.concat_eq_append] at h
      obtain ⟨a, b⟩ := hparts pre x h
      rw [h, List.mem_append, List.mem_singleton] at hf
      rcases hf with hf | hf
      · have := a f hf
        omega
      · rw [hf]; exact b
  · rcases List.eq_nil_or_concat w.files with h | ⟨pre, x, h⟩
    · simp only [h, State.payload, List.length_nil, List.map_nil, List.flatten_nil, zero_add]
      exact (Nat.div_eq_of_lt (by omega)).symm
    · rw [List.concat_eq_append] at h
      obtain ⟨a, b⟩ := hparts pre x h
      have hx : (x.payload.length : Int) ≤ opts.chunkSize := i4 x (by simp [h])
      have hsum : w.payload.length =
          pre.length * opts.chunkSize.toNat + x.payload.length := by
        rw [State.payload_length]
        simp only [State.lens, h, List.map_append, List.map_cons, List.map_nil, List.sum_append,
          List.sum_cons, List.sum_nil, add_zero]
        rw [sum_of_all_eq opts.chunkSize.toNat _ (by
          intro y hy
          obtain ⟨g, hg, rfl⟩ := List.mem_map.mp hy
          have := a g hg
          omega)]
        simp
      rw [hsum, ceil_div_tight _ _ _ b (by omega), h]
      simp

theorem tight_packing_witness :
    (0 : Int) < (exampleOpts 3).chunkSize ∧
      Reachable exampleEnv (exampleOpts 3) exampleSplitState ∧
      exampleSplitState.files.length =
        (exampleSplitState.payload.length + (exampleOpts 3).chunkSize.toNat - 1) /
          (exampleOpts 3).chunkSize.toNat :=
  ⟨by decide, exampleSplitState_reachable,
   (tight_packing exampleEnv (exampleOpts 3) exampleSplitState (by decide)
     exampleSplitState_reachable).2.2.2⟩

theorem placeRounds_some_iff (env : Env) (opts : options) (relPath : String) :
    ∀ (fuel : Nat) (chunk : List Byte) (ntc : Bool) (w : State),
      (placeRounds env opts relPath fuel chunk ntc w).isSome =
        (placeLoop env opts relPath fuel chunk ntc w).isSome := by
  intro fuel
  induction fuel with
  | zero => intro chunk ntc w; rfl
  | succ fuel ih =>
    intro chunk ntc w
    unfold placeRounds placeLoop
    split_ifs
    · cases hr : placeStep env opts relPath chunk ntc w with
      | error r => rfl
      | ok r =>
        obtain ⟨c1, n1, w1⟩ := r
        simp only [Option.isSome_map']
        exact ih c1 n1 w1
    · rfl

theorem State.write_rem (w : State) (seg : Segment) :
    (w.write seg).chunkSizeRemaining = w.chunkSizeRemaining := by
  unfold State.write
  split
  · rfl
  · split
    · rfl
    · split <;> rfl

/-- Writing a segment in any state with room left >= 0: the bytes written are
the smaller of the length of the rest and the room left. -/
theorem writeSegment_progress (relPath : String) (chunk : List Byte) (ntc : Bool) (w : State)
    (h0 : 0 ≤ w.chunkSizeRemaining) :
    ∃ w1, writeSegment relPath chunk ntc w =
        Except.ok (chunk.drop (min chunk.length w.chunkSizeRemaining.toNat),
          decide ((chunk.length : Int) > w.chunkSizeRemaining), w1) ∧
      w1.chunkSizeRemaining =
        w.chunkSizeRemaining - (min chunk.length w.chunkSizeRemaining.toNat : Nat) := by
  have hw1 : (if ntc then w.write (Segment.continuedFile relPath)
      else w.write (Segment.beginFile relPath)).chunkSizeRemaining = w.chunkSizeRemaining := by
    cases ntc <;> simp [State.write_rem]
  unfold writeSegment
  simp only [hw1]
  by_cases ht : (chunk.length : Int) > w.chunkSizeRemaining
  · have hmin : min chunk.length w.chunkSizeRemaining.toNat = w.chunkSizeRemaining.toNat := by
      omega
    have hnn : ¬ w.chunkSizeRemaining < 0 := by omega
    simp only [ht, decide_True, if_true, hnn, if_false, hmin]
    refine ⟨_, rfl, ?_⟩
    split_ifs <;>
      simp only [State.write_rem, (State.close_frame _).2.2.1, hw1] <;> omega
  · have hmin : min chunk.length w.chunkSizeRemaining.toNat = chunk.length := by omega
    have hnn : ¬ ((chunk.length : Nat) : Int) < 0 := by omega
    simp only [ht, decide_False, Bool.false_eq_true, if_false, hnn, hmin, Int.toNat_ofNat]
    refine ⟨_, rfl, ?_⟩
    split_ifs <;>
      simp only [State.write_rem, (State.close_frame _).2.2.1, hw1]

/-- One round of the placement loop from any state with
`0 <= chunkSizeRemaining <= capacity`: it ends the call, or writes
`min (len chunk) room` bytes with `room >= 1`. -/
theorem placeStep_progress (env : Env) (opts : options) (relPath : String) (chunk : List Byte)
    (ntc : Bool) (w : State) (hcap : 0 < opts.chunkSize)
    (h0 : 0 ≤ w.chunkSizeRemaining) (h1 : w.chunkSizeRemaining ≤ opts.chunkSize) :
    (∃ r, placeStep env opts relPath chunk ntc w = Except.error r) ∨
    ∃ (room : Nat) (w1 : State), 1 ≤ room ∧ (room : Int) ≤ opts.chunkSize ∧
      (0 < w.chunkSizeRemaining → (room : Int) = w.chunkSizeRemaining) ∧
      (w.chunkSizeRemaining = 0 → (room : Int) = opts.chunkSize) ∧
      placeStep env opts relPath chunk ntc w =
        Except.ok (chunk.drop (min chunk.length room),
          decide ((chunk.length : Int) > (room : Int)), w1) ∧
      w1.chunkSizeRemaining = (room : Int) - (min chunk.length room : Nat) := by
  by_cases hrem : 0 < w.chunkSizeRemaining
  · right
    obtain ⟨w1, hw, hr⟩ := writeSegment_progress relPath chunk ntc w h0
    refine ⟨w.chunkSizeRemaining.toNat, w1, by omega, by omega, by omega, by omega, ?_, ?_⟩
    · unfold placeStep
      rw [openChunk_room env opts w hrem]
      simp only [hw, Int.toNat_of_nonneg h0]
    · rw [hr, Int.toNat_of_nonneg h0]
  · have hle : w.chunkSizeRemaining ≤ 0 := by omega
    cases hok : env.createOk (chunkPath env opts w.chunkIndex) with
    | false =>
      left
      unfold placeStep
      rw [openChunk_createFailed env opts w hle hok]
      exact ⟨_, rfl⟩
    | true =>
      right
      have hrr : (w.rotated env opts).chunkSizeRemaining = opts.chunkSize := rfl
      obtain ⟨w1, hw, hr⟩ := writeSegment_progress relPath chunk ntc (w.rotated env opts)
        (by rw [hrr]; omega)
      refine ⟨opts.chunkSize.toNat, w1, by omega, by omega, by omega, by omega, ?_, ?_⟩
      · unfold placeStep
        rw [openChunk_rotate env opts w hle hok]
        simp only [hw, hrr, Int.toNat_of_nonneg (le_of_lt hcap)]
      · rw [hr, hrr, Int.toNat_of_nonneg (le_of_lt hcap)]

theorem ceilDiv_pos (n c : Nat) (hn : 1 ≤ n) (hc : 1 ≤ c) : 1 ≤ ceilDiv n c := by
  unfold ceilDiv
  exact (Nat.one_le_div_iff (by omega)).2 (by omega)

theorem ceilDiv_sub (n c : Nat) (hc : 1 ≤ c) (h : c < n) :
    ceilDiv n c = ceilDiv (n - c) c + 1 := by
  unfold ceilDiv
  rw [← Nat.add_div_right _ (by omega : 0 < c)]
  congr 1
  omega

theorem ceilDiv_mono (m n c : Nat) (h : m ≤ n) : ceilDiv m c ≤ ceilDiv n c := by
  unfold ceilDiv
  exact Nat.div_le_div_right (by omega)

/-- From a state whose chunk is full (`chunkSizeRemaining = 0`) a block of
length `n` is placed in at most `ceil (n / capacity)` rounds. -/
theorem placeRounds_full (env : Env) (opts : options) (relPath : String)
    (hcap : 0 < opts.chunkSize) :
    ∀ (n : Nat) (chunk : List Byte) (ntc : Bool) (w : State) (fuel : Nat),
      chunk.length = n → w.chunkSizeRemaining = 0 →
      ceilDiv n opts.chunkSize.toNat + 1 ≤ fuel →
      ∃ k, placeRounds env opts relPath fuel chunk ntc w = some k ∧
        k ≤ ceilDiv n opts.chunkSize.toNat := by
  intro n
  induction n using Nat.strong_induction_on with
  | _ n ih =>
    intro chunk ntc w fuel hlen hrem hfuel
    obtain ⟨fuel, rfl⟩ : ∃ f, fuel = f + 1 := ⟨fuel - 1, by omega⟩
    unfold placeRounds
    by_cases hpos : chunk.length > 0
    · rw [if_pos hpos]
      have hc1 : 1 ≤ ceilDiv n opts.chunkSize.toNat := ceilDiv_pos n _ (by omega) (by omega)
      rcases placeStep_progress env opts relPath chunk ntc w hcap (by omega) (by omega) with
        ⟨r, hr⟩ | ⟨room, w1, hroom1, hroom2, -, hroom, hstep, hw1⟩
      · rw [hr]
        exact ⟨1, rfl, hc1⟩
      · have hroom := hroom hrem
        rw [hstep]
        dsimp only
        by_cases hbig : room < chunk.length
        · have hmin : min chunk.length room = room := by omega
          rw [hmin] at hw1 ⊢
          have hsub := ceilDiv_sub n opts.chunkSize.toNat (by omega) (by omega)
          obtain ⟨k, hk, hkle⟩ := ih (n - opts.chunkSize.toNat) (by omega)
            (chunk.drop room) (decide ((chunk.length : Int) > (room : Int))) w1 fuel
            (by rw [List.length_drop]; omega) (by omega) (by omega)
          rw [hk]
          exact ⟨k + 1, rfl, by omega⟩
        · have hmin : min chunk.length room = chunk.length := by omega
          rw [hmin, List.drop_length]
          obtain ⟨fuel, rfl⟩ : ∃ f, fuel = f + 1 := ⟨fuel - 1, by omega⟩
          refine ⟨1, ?_, hc1⟩
          unfold placeRounds
          rfl
    · rw [if_neg hpos]
      exact ⟨0, rfl, Nat.zero_le _⟩

/-- From any state with `0 <= chunkSizeRemaining <= capacity` a block of length
`n` is placed in at most `1 + ceil (n / capacity)` rounds. -/
theorem placeRounds_bound (env : Env) (opts : options) (relPath : String)
    (hcap : 0 < opts.chunkSize) (chunk : List Byte) (ntc : Bool) (w : State) (fuel : Nat)
    (h0 : 0 ≤ w.chunkSizeRemaining) (h1 : w.chunkSizeRemaining ≤ opts.chunkSize)
    (hfuel : ceilDiv chunk.length opts.chunkSize.toNat + 2 ≤ fuel) :
    ∃ k, placeRounds env opts relPath fuel chunk ntc w = some k ∧
      k ≤ 1 + ceilDiv chunk.length opts.chunkSize.toNat := by
  obtain ⟨fuel, rfl⟩ : ∃ f, fuel = f + 1 := ⟨fuel - 1, by omega⟩
  unfold placeRounds
  by_cases hpos : chunk.length > 0
  · rw [if_pos hpos]
    rcases placeStep_progress env opts relPath chunk ntc w hcap h0 h1 with
      ⟨r, hr⟩ | ⟨room, w1, hroom1, hroom2, -, -, hstep, hw1⟩
    · rw [hr]
      exact ⟨1, rfl, by omega⟩
    · rw [hstep]
      dsimp only
      have hmono := ceilDiv_mono (chunk.drop (min chunk.length room)).length chunk.length
        opts.chunkSize.toNat (by rw [List.length_drop]; omega)
      by_cases hbig : room < chunk.length
      · have hmin : min chunk.length room = room := by omega
        rw [hmin] at hw1 hmono ⊢
        obtain ⟨k, hk, hkle⟩ := placeRounds_full env opts relPath hcap _
          (chunk.drop room) (decide ((chunk.length : Int) > (room : Int))) w1 fuel
          rfl (by omega) (by omega)
        rw [hk]
        exact ⟨k + 1, rfl, by omega⟩
      · have hmin : min chunk.length room = chunk.length := by omega
        rw [hmin, List.drop_length]
        obtain ⟨fuel, rfl⟩ : ∃ f, fuel = f + 1 := ⟨fuel - 1, by omega⟩
        refine ⟨1, ?_, by omega⟩
        unfold placeRounds
        rfl
  · rw [if_neg hpos]
    exact ⟨0, rfl, Nat.zero_le _⟩

/-- C16: termination of the placement loop. For every capacity > 0, every
state with `0 <= chunkSizeRemaining <= capacity` and every block, the loop
`for len(chunk) > 0` returns once `fuel` allows `1 + ceil (n / capacity)` rounds
and the check that ends it, where `n` is the length of the block; it runs at
most `1 + ceil (n / capacity)` rounds; and a round that does not end the call
writes `b >= 1` bytes, `b = min (len chunk) room` with `room` the room of the
chunk written to, leaves a strictly shorter rest and keeps
`0 <= chunkSizeRemaining <= capacity`. -/
theorem placement_loop_terminates (env : Env) (opts : options) (relPath : String)
    (chunk : List Byte) (ntc : Bool) (w : State) (hcap : 0 < opts.chunkSize)
    (h0 : 0 ≤ w.chunkSizeRemaining) (h1 : w.chunkSizeRemaining ≤ opts.chunkSize) :
    (∀ fuel, ceilDiv chunk.length opts.chunkSize.toNat + 2 ≤ fuel →
      (∃ r, placeLoop env opts relPath fuel chunk ntc w = some r) ∧
      ∃ k, placeRounds env opts relPath fuel chunk ntc w = some k ∧
        k ≤ 1 + ceilDiv chunk.length opts.chunkSize.toNat) ∧
    (chunk ≠ [] → ∀ c1 n1 w1,
      placeStep env opts relPath chunk ntc w = Except.ok (c1, n1, w1) →
      ∃ (room b : Nat), 1 ≤ room ∧ b = min chunk.length room ∧ 1 ≤ b ∧
        (0 < w.chunkSizeRemaining → (room : Int) = w.chunkSizeRemaining) ∧
        (w.chunkSizeRemaining = 0 → (room : Int) = opts.chunkSize) ∧
        c1 = chunk.drop b ∧ c1.length < chunk.length ∧
        0 ≤ w1.chunkSizeRemaining ∧ w1.chunkSizeRemaining ≤ opts.chunkSize) := by
  constructor
  · intro fuel hfuel
    obtain ⟨k, hk, hkle⟩ := placeRounds_bound env opts relPath hcap chunk ntc w fuel h0 h1 hfuel
    refine ⟨?_, k, hk, hkle⟩
    have h := placeRounds_some_iff env opts relPath fuel chunk ntc w
    rw [hk] at h
    exact Option.isSome_iff_exists.1 h.symm
  · intro hne c1 n1 w1 hstep
    have hlen : 1 ≤ chunk.length := by
      cases chunk with
      | nil => exact absurd rfl hne
      | cons a l => simp
    rcases placeStep_progress env opts relPath chunk ntc w hcap h0 h1 with
      ⟨r, hr⟩ | ⟨room, w2, hroom1, hroom2, hr1, hr2, hstep2, hw2⟩
    · rw [hr] at hstep
      cases hstep
    · rw [hstep2] at hstep
      injection hstep with hstep
      injection hstep with hc hrest
      injection hrest with hn hw
      subst hc hw
      refine ⟨room, min chunk.length room, hroom1, rfl, by omega, hr1, hr2, rfl, ?_, ?_, ?_⟩
      · rw [List.length_drop]; omega
      · omega
      · omega

theorem placement_loop_terminates_witness :
    (∃ r, placeLoop exampleEnv (exampleOpts 3) "aa" 4 [97, 97, 97, 97, 97] false
        exampleSplitState = some r) ∧
    ∃ k, placeRounds exampleEnv (exampleOpts 3) "aa" 4 [97, 97, 97, 97, 97] false
        exampleSplitState = some k ∧ k ≤ 1 + ceilDiv 5 3 :=
  (placement_loop_terminates exampleEnv (exampleOpts 3) "aa" [97, 97, 97, 97, 97] false
    exampleSplitState (by decide) (by decide) (by decide)).1 4 (by decide)

theorem blocks_mem (c : Nat) (hc : 0 < c) :
    ∀ (m : Nat) (u : List Byte), u.length ≤ m →
      ∀ b ∈ blocks c u, b ≠ [] ∧ b.length ≤ c := by
  intro m
  induction m with
  | zero =>
    intro u hu b hb
    have : u = [] := List.length_eq_zero.mp (by omega)
    subst this
    simp [blocks_nil] at hb
  | succ m ih =>
    intro u hu b hb
    by_cases h : u = []
    · subst h; simp [blocks_nil] at hb
    · have hp := List.length_pos.mpr h
      rw [blocks_cons c u hc h, List.mem_cons] at hb
      rcases hb with rfl | hb
      · constructor
        · intro h0
          have := congrArg List.length h0
          simp only [List.length_take, List.length_nil] at this
          omega
        · simp only [List.length_take]; omega
      · exact ih (u.drop c) (by simp; omega) b hb

theorem blocks_init_full (c : Nat) (hc : 0 < c) :
    ∀ (m : Nat) (u : List Byte), u.length ≤ m →
      ∀ (pre : List (List Byte)) (b : List Byte), blocks c u = pre ++ [b] →
        ∀ x ∈ pre, x.length = c := by
  intro m
  induction m with
  | zero =>
    intro u hu pre b hb
    have : u = [] := List.length_eq_zero.mp (by omega)
    subst this
    simp [blocks_nil] at hb
  | succ m ih =>
    intro u hu pre b hb x hx
    by_cases h : u = []
    · subst h; simp [blocks_nil] at hb
    · have hp := List.length_pos.mpr h
      rw [blocks_cons c u hc h] at hb
      cases pre with
      | nil => simp at hx
      | cons y pre =>
        rw [List.cons_append] at hb
        injection hb with h1 h2
        have hrest : blocks c (u.drop c) ≠ [] := by
          rw [h2]; simp
        have hdrop : u.drop c ≠ [] := by
          intro h0
          rw [h0, blocks_nil] at hrest
          exact hrest rfl
        have hlen : c < u.length := by
          by_contra hle
          exact hdrop (List.drop_of_length_le (by omega))
        rw [List.mem_cons] at hx
        rcases hx with rfl | hx
        · rw [← h1, List.length_take]; omega
        · exact ih (u.drop c) (by simp; omega) pre b h2 x hx

/-- With a chunk size above `bufio.MaxScanTokenSize`, a file of at least that
many bytes yields no block and the error `ErrTooLong`. -/
theorem readBlocks_tooLong (opts : options) (hc : (maxScanTokenSize : Int) < opts.chunkSize)
    (content : List Byte) (hlong : maxScanTokenSize ≤ content.length) (fuel n : Nat)
    (hfuel : maxScanTokenSize + 1 ≤ fuel) (hn : 1 ≤ n) :
    readBlocks opts fuel n (NewScanner content) = some ([], some GoError.tooLong) := by
  obtain ⟨s1, h1, h2⟩ := Scanner.Scan_tooLong opts hc maxScanTokenSize (NewScanner content) fuel
    (Scanner.good_new content) rfl rfl (by simpa [NewScanner] using hlong)
    (by simp [NewScanner]) (by omega)
  obtain ⟨k, rfl⟩ : ∃ k, n = k + 1 := ⟨n - 1, by omega⟩
  unfold readBlocks
  rw [h1]
  simp only [h2]

/-- What `split` returns with a token: a non-empty token no longer than the
chunk size, an advance equal to its length, and a token shorter than the chunk
size only at the end of the file, where it is all the data. -/
theorem split_token (opts : options) (hc : 0 < opts.chunkSize) (data : List Byte)
    (atEOF : Bool) (adv : Int) (tok : List Byte)
    (h : split opts data atEOF = some (adv, some tok)) :
    tok ≠ [] ∧ (tok.length : Int) ≤ opts.chunkSize ∧ adv = (tok.length : Int) ∧
      ((tok.length : Int) < opts.chunkSize → atEOF = true ∧ tok = data) := by
  by_cases hge : (data.length : Int) ≥ opts.chunkSize
  · rw [split_full opts data atEOF hc hge] at h
    injection h with h
    injection h with h1 h2
    injection h2 with h2
    subst h1 h2
    have hl : (data.take opts.chunkSize.toNat).length = opts.chunkSize.toNat := by
      rw [List.length_take]; omega
    refine ⟨?_, by omega, by omega, fun hlt => by omega⟩
    intro h0
    rw [h0] at hl
    simp only [List.length_nil] at hl
    omega
  · cases atEOF with
    | false =>
      rw [split_more opts data hge] at h
      cases h
    | true =>
      by_cases hne : data = []
      · subst hne
        rw [split_eof_empty] at h
        cases h
      · rw [split_eof_short opts data hge hne] at h
        injection h with h
        injection h with h1 h2
        injection h2 with h2
        subst h1 h2
        exact ⟨hne, by omega, rfl, fun _ => ⟨rfl, rfl⟩⟩

/-- The block reader. For every capacity > 0, every buffer `data` and every
flag `atEOF`: `split` returns (capacity, the first capacity bytes of `data`)
when `len(data) >= capacity`, (`len(data)`, `data`) when `atEOF` and
`0 < len(data) < capacity`, and (0, no token) otherwise; every token it returns
is non-empty, no longer than the capacity, has an advance equal to its length,
and is shorter than the capacity only at the end of the file. When the scanner
can hold a block (the capacity is at most `bufio.MaxScanTokenSize` = 65536, or
the file is shorter than that) the scanner returns for a file a list of blocks
without an error, each non-empty and no longer than the capacity, all but the
last of exactly the capacity, and their concatenation is the content of the
file. Beyond that limit (a capacity above 65536 and a file of 65536 bytes or
more) the scanner yields no block and the error `bufio.ErrTooLong`. -/
theorem block_reader (opts : options) (hcap : 0 < opts.chunkSize) :
    (∀ (data : List Byte) (atEOF : Bool),
      ((data.length : Int) ≥ opts.chunkSize →
        split opts data atEOF =
          some (opts.chunkSize, some (data.take opts.chunkSize.toNat))) ∧
      (atEOF = true → 0 < data.length → (data.length : Int) < opts.chunkSize →
        split opts data atEOF = some ((data.length : Int), some data)) ∧
      ((data.length : Int) < opts.chunkSize → ¬ (atEOF = true ∧ 0 < data.length) →
        split opts data atEOF = some (0, none))) ∧
    (∀ (data : List Byte) (atEOF : Bool) (adv : Int) (tok : List Byte),
      split opts data atEOF = some (adv, some tok) →
      tok ≠ [] ∧ (tok.length : Int) ≤ opts.chunkSize ∧ adv = (tok.length : Int) ∧
        ((tok.length : Int) < opts.chunkSize → atEOF = true ∧ tok = data)) ∧
    (∀ (content : List Byte) (fuel n : Nat), Fits opts content →
      content.length < n → content.length + 1 < fuel →
      ∃ bs, readBlocks opts fuel n (NewScanner content) = some (bs, none) ∧
        bs.flatten = content ∧
        (∀ b ∈ bs, b ≠ [] ∧ (b.length : Int) ≤ opts.chunkSize) ∧
        (∀ (pre : List (List Byte)) (b : List Byte), bs = pre ++ [b] →
          ∀ x ∈ pre, (x.length : Int) = opts.chunkSize)) ∧
    (∀ (content : List Byte) (fuel n : Nat), (maxScanTokenSize : Int) < opts.chunkSize →
      maxScanTokenSize ≤ content.length → maxScanTokenSize + 1 ≤ fuel → 1 ≤ n →
      readBlocks opts fuel n (NewScanner content) = some ([], some GoError.tooLong)) := by
  have hcn : 0 < opts.chunkSize.toNat := by omega
  refine ⟨?_, ?_, ?_, ?_⟩
  · intro data atEOF
    refine ⟨fun hge => split_full opts data atEOF hcap hge, ?_, ?_⟩
    · intro he hpos hlt
      subst he
      exact split_eof_short opts data (by omega) (List.length_pos.mp hpos)
    · intro hlt hn
      cases atEOF with
      | false => exact split_more opts data (by omega)
      | true =>
        have h0 : data = [] := by
          by_contra hne
          exact hn ⟨rfl, List.length_pos.mpr hne⟩
        subst h0
        exact split_eof_empty opts
  · intro data atEOF adv tok h
    exact split_token opts hcap data atEOF adv tok h
  · intro content fuel n hfit hn hfuel
    have hp := NewScanner_pending content
    have hr := readBlocks_eq opts hcap content.length (NewScanner content) fuel n
      (Scanner.good_new content) (by rw [hp]; exact hfit) (by rw [hp]) hn (by rw [hp]; exact hfuel)
    rw [hp] at hr
    refine ⟨_, hr, blocks_flatten _ hcn _ content (le_refl _), ?_, ?_⟩
    · intro b hb
      have h := blocks_mem _ hcn _ content (le_refl _) b hb
      exact ⟨h.1, by omega⟩
    · intro pre b hb x hx
      have h := blocks_init_full _ hcn _ content (le_refl _) pre b hb x hx
      omega
  · intro content fuel n hc hlong hfuel hn
    exact readBlocks_tooLong opts hc content hlong fuel n hfuel hn

theorem block_reader_witness :
    ∃ bs, readBlocks (exampleOpts 2) 5 4 (NewScanner [97, 97, 97]) = some (bs, none) ∧
      bs.flatten = [97, 97, 97] ∧
      (∀ b ∈ bs, b ≠ [] ∧ (b.length : Int) ≤ (exampleOpts 2).chunkSize) ∧
      (∀ (pre : List (List Byte)) (b : List Byte), bs = pre ++ [b] →
        ∀ x ∈ pre, (x.length : Int) = (exampleOpts 2).chunkSize) :=
  (block_reader (exampleOpts 2) (by decide)).2.2.1 [97, 97, 97] 5 4 (Or.inl (by decide))
    (by decide) (by decide)

/-- C13, the blocks of a file are lost at the default token limit of
`bufio.Scanner`. With capacity 66560 (`-chunksize 65`) the scanner yields for a
file of 65536 bytes no block at all and the error `bufio.ErrTooLong`, so the
blocks of the file concatenated are not its content, although `split` is
written for any capacity. The same file with capacity 65536 (`-chunksize 64`),
and a file of 65535 bytes with capacity 66560, are read in blocks that
concatenate to the content, without an error. -/
theorem blocks_missing_above_max_token :
    (0 : Int) < (exampleOpts 66560).chunkSize ∧
    (∀ fuel n, 65537 ≤ fuel → 1 ≤ n →
      readBlocks (exampleOpts 66560) fuel n (NewScanner (List.replicate 65536 97)) =
        some ([], some GoError.tooLong)) ∧
    ([] : List (List Byte)).flatten ≠ List.replicate 65536 (97 : Byte) ∧
    (∀ fuel n, 65538 ≤ fuel → 65537 ≤ n →
      ∃ bs, readBlocks (exampleOpts 65536) fuel n (NewScanner (List.replicate 65536 97)) =
          some (bs, none) ∧ bs.flatten = List.replicate 65536 97) ∧
    (∀ fuel n, 65537 ≤ fuel → 65536 ≤ n →
      ∃ bs, readBlocks (exampleOpts 66560) fuel n (NewScanner (List.replicate 65535 97)) =
          some (bs, none) ∧ bs.flatten = List.replicate 65535 97) := by
  refine ⟨by decide, ?_, ?_, ?_, ?_⟩
  · intro fuel n hfuel hn
    exact readBlocks_tooLong _ (by decide) (List.replicate 65536 97)
      (by rw [List.length_replicate]; decide) fuel n hfuel hn
  · intro h
    have hl := congrArg List.length h
    rw [List.length_replicate] at hl
    simp at hl
  · intro fuel n hfuel hn
    have hp := NewScanner_pending (List.replicate 65536 (97 : Byte))
    have hr := readBlocks_eq (exampleOpts 65536) (by decide) 65536
      (NewScanner (List.replicate 65536 97)) fuel n (Scanner.good_new _)
      (Or.inl (by decide)) (by rw [hp, List.length_replicate]) (by omega)
      (by rw [hp, List.length_replicate]; omega)
    rw [hp] at hr
    exact ⟨_, hr, blocks_flatten _ (by decide) 65536 _ (by rw [List.length_replicate])⟩
  · intro fuel n hfuel hn
    have hp := NewScanner_pending (List.replicate 65535 (97 : Byte))
    have hr := readBlocks_eq (exampleOpts 66560) (by decide) 65535
      (NewScanner (List.replicate 65535 97)) fuel n (Scanner.good_new _)
      (Or.inr (by rw [hp, List.length_replicate]; decide))
      (by rw [hp, List.length_replicate]) (by omega)
      (by rw [hp, List.length_replicate]; omega)
    rw [hp] at hr
    exact ⟨_, hr, blocks_flatten _ (by decide) 65535 _ (by rw [List.length_replicate])⟩

theorem occursIn_append (pat : List Char) :
    ∀ (pre rest : List Char), occursIn pat (pre ++ pat ++ rest) = true := by
  have hp : ∀ rest : List Char, occursIn pat (pat ++ rest) = true := by
    intro rest
    have hpre : pat.isPrefixOf (pat ++ rest) = true :=
      List.isPrefixOf_iff_prefix.2 (List.prefix_append pat rest)
    cases h : pat ++ rest with
    | nil =>
      rw [h] at hpre
      unfold occursIn
      exact hpre
    | cons c cs =>
      rw [h] at hpre
      unfold occursIn
      rw [hpre]
      rfl
  intro pre
  induction pre with
  | nil => intro rest; exact hp rest
  | cons c pre ih =>
    intro rest
    show occursIn pat (c :: (pre ++ pat ++ rest)) = true
    unfold occursIn
    rw [ih rest]
    simp

/-- C14, the guard of the walk callback: it skips every path that contains
`R/chunk`, the chunk files `R/chunk<N>.txt` among them (whenever joining `R` with
`chunk<N>.txt` gives the join of `R` and `chunk` followed by `<N>.txt`, as
`filepath.Join` does), and not only those. With the output directory `out`, the regular file
`src/layout/chunk.go` is no chunk file of `out` and passes the filter, yet the
guard holds for it: the callback returns nil without a call of `doChunk` and the
state is as before, where `doChunk` on that file would have written its two
bytes. -/
theorem guard_skips_files_that_are_no_chunk_files :
    (∀ (env : Env) (opts : options) (n : Int),
      env.join opts.reportPath ("chunk" ++ (toString n ++ ".txt")) =
        env.join opts.reportPath "chunk" ++ (toString n ++ ".txt") →
      skipsChunkFile env opts (chunkPath env opts n) = true) ∧
    skipsChunkFile layoutEnv (exampleOpts 2) "src/layout/chunk.go" = true ∧
    (∀ n : Int, "src/layout/chunk.go" ≠ chunkPath layoutEnv (exampleOpts 2) n) ∧
    shouldProcess layoutEnv (exampleOpts 2) "src/layout/chunk.go" = true ∧
    (∀ (fuel : Nat) (w : State),
      walkFn layoutEnv (exampleOpts 2) fuel "src/layout/chunk.go" false none w =
        some (Exit.returned none, w)) ∧
    (∃ w1, doChunk layoutEnv (exampleOpts 2) 4 "src/layout/chunk.go" State.init =
        some (Exit.returned none, w1) ∧ w1.payload = [97, 97]) := by
  refine ⟨?_, by decide, ?_, by decide, ?_, ⟨_, rfl, by decide⟩⟩
  · intro env opts n hjoin
    have hp : chunkPath env opts n =
        env.join opts.reportPath "chunk" ++ (toString n ++ ".txt") := by
      unfold chunkPath
      rw [String.append_assoc]
      exact hjoin
    show occursIn (env.join opts.reportPath "chunk").data (chunkPath env opts n).data = true
    rw [hp, String.data_append]
    exact occursIn_append _ [] _
  · intro n h
    have h1 : some 's' = some 'o' := congrArg (fun s : String => s.data.head?) h
    exact absurd h1 (by decide)
  · intro fuel w
    have hg : skipsChunkFile layoutEnv (exampleOpts 2) "src/layout/chunk.go" = true := by decide
    unfold walkFn
    simp only [hg, if_true]

theorem paired_iff (r : String) (segs : List (List Segment)) :
    Paired segs ↔ PairedUpTo false r segs := by
  constructor
  · rintro ⟨pieces, h1, h2, h3, h4, h5⟩
    exact ⟨pieces, h1, h2, h3, h4, fun a ha => ⟨h5 a ha, fun h => by cases h⟩,
      fun h => by cases h⟩
  · rintro ⟨pieces, h1, h2, h3, h4, h5, _⟩
    exact ⟨pieces, h1, h2, h3, h4, fun a ha => (h5 a ha).1⟩

theorem written_append_new (pieces : List (List Piece)) (p : Piece) :
    written (pieces ++ [[p]]) = written pieces ++ [(true, p)] := by
  simp [written, markFirst]

theorem markFirst_append (ps : List Piece) (p : Piece) (h : ps ≠ []) :
    markFirst (ps ++ [p]) = markFirst ps ++ [(false, p)] := by
  cases ps with
  | nil => exact absurd rfl h
  | cons q qs => simp [markFirst]

theorem written_append_last (ppre : List (List Piece)) (ps : List Piece) (p : Piece)
    (h : ps ≠ []) :
    written (ppre ++ [ps ++ [p]]) = written (ppre ++ [ps]) ++ [(false, p)] := by
  simp [written, markFirst_append ps p h]

/-- One more piece keeps the pairing when it fits the last one written. -/
theorem chain_snoc (l : List (Bool × Piece)) (x : Bool × Piece) (ntc : Bool) (r : String)
    (hchain : List.Chain' (fun a b => linked a b = true) l)
    (hhead : ∀ a, l.head? = some a → a.2.continued = false)
    (hlast : ∀ a, l.getLast? = some a → a.2.part = ntc ∧ (ntc = true → a.2.path = r))
    (hne : ntc = true → l ≠ [])
    (hx1 : x.2.continued = ntc) (hx2 : ntc = true → x.1 = true ∧ x.2.path = r) :
    List.Chain' (fun a b => linked a b = true) (l ++ [x]) ∧
    (∀ a, (l ++ [x]).head? = some a → a.2.continued = false) ∧
    (l ++ [x]).getLast? = some x := by
  refine ⟨?_, ?_, by simp⟩
  · rw [List.chain'_append]
    refine ⟨hchain, List.chain'_singleton x, ?_⟩
    intro a ha y hy
    simp only [List.head?_cons, Option.mem_def, Option.some.injEq] at hy
    subst hy
    obtain ⟨h1, h2⟩ := hlast a ha
    unfold linked
    cases hn : ntc with
    | false =>
      rw [hn] at h1 hx1
      simp [h1, hx1]
    | true =>
      rw [hn] at h1 hx1
      obtain ⟨h3, h4⟩ := hx2 hn
      simp [h1, hx1, h3, h4, h2 hn]
  · intro a ha
    cases l with
    | nil =>
      simp only [List.nil_append, List.head?_cons, Option.some.injEq] at ha
      subst ha
      cases hn : ntc with
      | false => rw [hx1, hn]
      | true => exact absurd rfl (hne hn)
    | cons b l =>
      simp only [List.cons_append, List.head?_cons, Option.some.injEq] at ha
      exact hhead a (by simp [ha])

/-- A piece written to a new chunk keeps the pairing. -/
theorem pairedUpTo_new (ntc : Bool) (r : String) (segs : List (List Segment))
    (bytes : List Byte) (n1 : Bool) (h : PairedUpTo ntc r segs) :
    PairedUpTo n1 r (segs ++ [Piece.segments ⟨ntc, r, bytes, n1⟩]) := by
  obtain ⟨pieces, h1, h2, h3, h4, h5, h6⟩ := h
  obtain ⟨c1, c2, c3⟩ := chain_snoc (written pieces) (true, ⟨ntc, r, bytes, n1⟩) ntc r h3 h4 h5 h6
    rfl (fun _ => ⟨rfl, rfl⟩)
  refine ⟨pieces ++ [[⟨ntc, r, bytes, n1⟩]], ?_, ?_, ?_, ?_, ?_, ?_⟩
  · rw [h1]; simp
  · intro ps hps
    rw [List.mem_append] at hps
    rcases hps with hps | hps
    · exact h2 ps hps
    · simp only [List.mem_singleton] at hps
      rw [hps]; simp
  · rw [written_append_new]; exact c1
  · rw [written_append_new]; exact c2
  · rw [written_append_new, c3]
    intro a ha
    simp only [Option.some.injEq] at ha
    subst ha
    exact ⟨rfl, fun _ => rfl⟩
  · intro _
    rw [written_append_new]
    simp

/-- A piece that starts with `BEGIN FILE`, appended to the last chunk, keeps
the pairing. -/
theorem pairedUpTo_last (r r0 : String) (pre : List (List Segment)) (s : List Segment)
    (bytes : List Byte) (n1 : Bool) (h : PairedUpTo false r0 (pre ++ [s])) :
    PairedUpTo n1 r (pre ++ [s ++ Piece.segments ⟨false, r, bytes, n1⟩]) := by
  obtain ⟨pieces, h1, h2, h3, h4, h5, h6⟩ := h
  rcases List.eq_nil_or_concat pieces with hnil | ⟨ppre, ps, hp⟩
  · subst hnil
    simp at h1
  · rw [List.concat_eq_append] at hp
    subst hp
    rw [List.map_append, List.map_cons, List.map_nil] at h1
    obtain ⟨e1, e2⟩ := List.append_inj' h1 rfl
    simp only [List.cons.injEq, and_true] at e2
    have hps : ps ≠ [] := h2 ps (by simp)
    obtain ⟨c1, c2, c3⟩ := chain_snoc (written (ppre ++ [ps])) (false, ⟨false, r, bytes, n1⟩)
      false r h3 h4 (fun a ha => ⟨(h5 a ha).1, fun h => by cases h⟩) (fun h => by cases h)
      rfl (fun h => by cases h)
    refine ⟨ppre ++ [ps ++ [⟨false, r, bytes, n1⟩]], ?_, ?_, ?_, ?_, ?_, ?_⟩
    · rw [e1, e2]; simp
    · intro qs hqs
      rw [List.mem_append] at hqs
      rcases hqs with hqs | hqs
      · exact h2 qs (by simp [hqs])
      · simp only [List.mem_singleton] at hqs
        rw [hqs]; simp
    · rw [written_append_last _ _ _ hps]; exact c1
    · rw [written_append_last _ _ _ hps]; exact c2
    · rw [written_append_last _ _ _ hps, c3]
      intro a ha
      simp only [Option.some.injEq] at ha
      subst ha
      exact ⟨rfl, fun _ => rfl⟩
    · intro _
      rw [written_append_last _ _ _ hps]
      simp

theorem map_segments_modify (l : List ChunkFile) (h : Nat) :
    (List.modify (fun f => { f with closed := true }) h l).map ChunkFile.segments =
      l.map ChunkFile.segments := by
  induction l generalizing h with
  | nil => cases h <;> simp
  | cons a l ih =>
    cases h with
    | zero => simp
    | succ h => simp [ih]

theorem State.close_segments (w : State) :
    w.close.files.map ChunkFile.segments = w.files.map ChunkFile.segments := by
  unfold State.close
  split
  · rfl
  · exact map_segments_modify _ _

/-- What a round of the placement loop writes, from a state that satisfies the
writer invariant: one piece, whose payload is the non-empty part `bytes` of the
block that fits, appended to the current chunk when it has room and put as the
first piece into a new chunk otherwise; its trailer is `END PART OF FILE`
exactly when a rest of the block is left. -/
theorem placeStep_piece (env : Env) (opts : options) (relPath : String) (chunk : List Byte)
    (ntc : Bool) (w : State) (hcap : 0 < opts.chunkSize) (hinv : w.Inv opts.chunkSize)
    (hne : chunk ≠ []) (c1 : List Byte) (n1 : Bool) (w1 : State)
    (hstep : placeStep env opts relPath chunk ntc w = Except.ok (c1, n1, w1)) :
    ∃ bytes : List Byte, bytes ≠ [] ∧ chunk = bytes ++ c1 ∧ n1 = decide (c1 ≠ []) ∧
      (n1 = true → w1.chunkSizeRemaining = 0) ∧
      ((0 < w.chunkSizeRemaining ∧
          (c1 ≠ [] ↔ (chunk.length : Int) > w.chunkSizeRemaining) ∧
          ∃ pre s, w.files.map ChunkFile.segments = pre ++ [s] ∧
            w1.files.map ChunkFile.segments =
              pre ++ [s ++ Piece.segments ⟨ntc, relPath, bytes, n1⟩]) ∨
        (w.chunkSizeRemaining = 0 ∧
          (c1 ≠ [] ↔ (chunk.length : Int) > opts.chunkSize) ∧
          w1.files.map ChunkFile.segments =
            w.files.map ChunkFile.segments ++ [Piece.segments ⟨ntc, relPath, bytes, n1⟩])) := by
  have hlen : 1 ≤ chunk.length := List.length_pos.mpr hne
  have hrest : ∀ m : Nat, chunk.drop (min chunk.length m) ≠ [] ↔ m < chunk.length := by
    intro m
    rw [← List.length_pos, List.length_drop]
    omega
  have h0 := hinv.1
  rcases placeStep_shape env opts relPath chunk ntc w hcap hinv with
    ⟨_, _, he⟩ | ⟨hrem, pre, f, hf, _, _, _, hs⟩ | ⟨hz, _, hs⟩
  · rw [he] at hstep
    cases hstep
  · rw [hs] at hstep
    injection hstep with hstep
    injection hstep with hc hrest2
    injection hrest2 with hn hw
    have hiff : c1 ≠ [] ↔ (chunk.length : Int) > w.chunkSizeRemaining := by
      rw [← hc, hrest]
      omega
    have hn1 : n1 = decide (c1 ≠ []) := by
      rw [← hn]
      exact decide_eq_decide.2 hiff.symm
    refine ⟨chunk.take (min chunk.length w.chunkSizeRemaining.toNat), ?_, ?_, hn1, ?_, ?_⟩
    · rw [← List.length_pos, List.length_take]
      omega
    · rw [← hc, List.take_append_drop]
    · intro ht
      rw [← hn] at ht
      have hgt := of_decide_eq_true ht
      rw [← hw]
      show w.chunkSizeRemaining - ((min chunk.length w.chunkSizeRemaining.toNat : Nat) : Int) = 0
      omega
    · left
      refine ⟨hrem, hiff, pre.map ChunkFile.segments, f.segments, by rw [hf]; simp, ?_⟩
      rw [← hw, ← hn]
      simp [Piece.segments]
  · rw [hs] at hstep
    injection hstep with hstep
    injection hstep with hc hrest2
    injection hrest2 with hn hw
    have hiff : c1 ≠ [] ↔ (chunk.length : Int) > opts.chunkSize := by
      rw [← hc, hrest]
      omega
    have hn1 : n1 = decide (c1 ≠ []) := by
      rw [← hn]
      exact decide_eq_decide.2 hiff.symm
    refine ⟨chunk.take (min chunk.length opts.chunkSize.toNat), ?_, ?_, hn1, ?_, ?_⟩
    · rw [← List.length_pos, List.length_take]
      omega
    · rw [← hc, List.take_append_drop]
    · intro ht
      rw [← hn] at ht
      have hgt := of_decide_eq_true ht
      rw [← hw]
      show opts.chunkSize - ((min chunk.length opts.chunkSize.toNat : Nat) : Int) = 0
      omega
    · right
      refine ⟨hz, hiff, ?_⟩
      rw [← hw, ← hn]
      simp [Piece.segments, State.close_segments]

theorem traceUpTo_new (ntc : Bool) (r : String) (l : List (Option Segment))
    (bytes : List Byte) (n1 : Bool) (h : TraceUpTo ntc r l) :
    TraceUpTo n1 r (l ++ [none, some (header ntc r), some (Segment.payload bytes),
      some (trailer n1 r)]) := by
  obtain ⟨h1, h2, h3⟩ := h
  refine ⟨?_, ?_, ?_⟩
  · intro pre post p heq
    rcases List.append_eq_append_iff.1 heq with ⟨a', ha, hx⟩ | ⟨c', hl, hx⟩
    · right
      rcases a' with _ | ⟨x, _ | ⟨y, _ | ⟨z, _ | ⟨u, a'⟩⟩⟩⟩ <;> cases ntc <;> cases n1 <;>
        simp [header, trailer] at hx ⊢
      all_goals simp [hx]
    · cases c' with
      | nil => simp at hx
      | cons e c' =>
        simp only [List.cons_append, List.cons.injEq] at hx
        obtain ⟨he, hp⟩ := hx
        subst he
        rcases h1 pre c' p hl with ⟨post2, hp2⟩ | ⟨hc, hn, hpr⟩
        · left
          exact ⟨post2 ++ _, by rw [hp, hp2]; rfl⟩
        · left
          subst hc hn hpr
          exact ⟨_, by rw [hp]; rfl⟩
  · intro pre post p heq
    rcases List.append_eq_append_iff.1 heq with ⟨a', ha, hx⟩ | ⟨c', hl, hx⟩
    · rcases a' with _ | ⟨x, _ | ⟨y, _ | ⟨z, _ | ⟨u, a'⟩⟩⟩⟩ <;> cases hn : ntc <;> cases n1 <;>
        simp [header, trailer, hn] at hx
      all_goals
        obtain ⟨pre0, hpre0⟩ := h3 hn
        refine ⟨pre0, ?_⟩
        rw [ha, hpre0, ← hx.1, hx.2.1]
        simp
    · cases c' with
      | nil => simp at hx
      | cons e c' =>
        simp only [List.cons_append, List.cons.injEq] at hx
        obtain ⟨he, hp⟩ := hx
        subst he
        exact h2 pre c' p hl
  · intro hn
    subst hn
    exact ⟨l ++ [none, some (header ntc r), some (Segment.payload bytes)], by simp [trailer]⟩

theorem traceUpTo_last (r r0 : String) (l : List (Option Segment))
    (bytes : List Byte) (n1 : Bool) (h : TraceUpTo false r0 l) :
    TraceUpTo n1 r (l ++ [some (header false r), some (Segment.payload bytes),
      some (trailer n1 r)]) := by
  obtain ⟨h1, h2, h3⟩ := h
  refine ⟨?_, ?_, ?_⟩
  · intro pre post p heq
    rcases List.append_eq_append_iff.1 heq with ⟨a', ha, hx⟩ | ⟨c', hl, hx⟩
    · right
      rcases a' with _ | ⟨x, _ | ⟨y, _ | ⟨z, a'⟩⟩⟩ <;> cases n1 <;>
        simp [header, trailer] at hx ⊢
      all_goals simp [hx]
    · cases c' with
      | nil => simp [header] at hx
      | cons e c' =>
        simp only [List.cons_append, List.cons.injEq] at hx
        obtain ⟨he, hp⟩ := hx
        subst he
        rcases h1 pre c' p hl with ⟨post2, hp2⟩ | ⟨_, hn, _⟩
        · left
          exact ⟨post2 ++ _, by rw [hp, hp2]; rfl⟩
        · cases hn
  · intro pre post p heq
    rcases List.append_eq_append_iff.1 heq with ⟨a', ha, hx⟩ | ⟨c', hl, hx⟩
    · rcases a' with _ | ⟨x, _ | ⟨y, _ | ⟨z, a'⟩⟩⟩ <;> cases n1 <;>
        simp [header, trailer] at hx
    · cases c' with
      | nil => simp [header] at hx
      | cons e c' =>
        simp only [List.cons_append, List.cons.injEq] at hx
        obtain ⟨he, hp⟩ := hx
        subst he
        exact h2 pre c' p hl
  · intro hn
    subst hn
    exact ⟨l ++ [some (header false r), some (Segment.payload bytes)], by simp [trailer]⟩

theorem trace_append_new (segs : List (List Segment)) (p : Piece) :
    trace (segs ++ [p.segments]) =
      trace segs ++ [none, some (header p.continued p.path), some (Segment.payload p.bytes),
        some (trailer p.part p.path)] := by
  simp [trace, Piece.segments]

theorem trace_append_last (pre : List (List Segment)) (s : List Segment) (p : Piece) :
    trace (pre ++ [s ++ p.segments]) =
      trace (pre ++ [s]) ++ [some (header p.continued p.path), some (Segment.payload p.bytes),
        some (trailer p.part p.path)] := by
  simp [trace, Piece.segments]

/-- A round of the placement loop that ends the call does not return nil: it
returns the error of `os.Create`, or panics. -/
theorem placeStep_error_exit (env : Env) (opts : options) (relPath : String)
    (chunk : List Byte) (ntc : Bool) (w : State) (e : Exit) (w1 : State)
    (h : placeStep env opts relPath chunk ntc w = Except.error (e, w1)) :
    e ≠ Exit.returned none := by
  have hws : ∀ w2 : State, writeSegment relPath chunk ntc w2 = Except.error (e, w1) →
      e ≠ Exit.returned none := by
    intro w2 hw
    unfold writeSegment at hw
    simp only at hw
    split_ifs at hw <;>
    · injection hw with hw
      injection hw with hw _
      rw [← hw]
      intro hc
      cases hc
  unfold placeStep at h
  by_cases hrem : 0 < w.chunkSizeRemaining
  · rw [openChunk_room env opts w hrem] at h
    exact hws w h
  · cases hok : env.createOk (chunkPath env opts w.chunkIndex) with
    | true =>
      rw [openChunk_rotate env opts w (by omega) hok] at h
      exact hws _ h
    | false =>
      rw [openChunk_createFailed env opts w (by omega) hok] at h
      injection h with h
      injection h with h _
      rw [← h]
      intro hc
      cases hc

theorem placeLoop_ok_rounds (env : Env) (opts : options) (P : State → Prop)
    (Q : String → List Byte → Bool → State → Prop)
    (hstep : ∀ relPath chunk ntc w, chunk ≠ [] → Q relPath chunk ntc w →
      ∀ c1 n1 w1, placeStep env opts relPath chunk ntc w = Except.ok (c1, n1, w1) →
      Q relPath c1 n1 w1)
    (hexit : ∀ relPath ntc w, Q relPath [] ntc w → ntc = false ∧ P w)
    (relPath : String) :
    ∀ (fuel : Nat) (chunk : List Byte) (ntc : Bool) (w : State), Q relPath chunk ntc w →
      match placeLoop env opts relPath fuel chunk ntc w with
      | none => True
      | some (Except.error (e, _)) => e ≠ Exit.returned none
      | some (Except.ok (ntc1, w1)) => ntc1 = false ∧ P w1 := by
  intro fuel
  induction fuel with
  | zero => intro chunk ntc w _; simp [placeLoop]
  | succ fuel ih =>
    intro chunk ntc w hq
    unfold placeLoop
    by_cases hl : chunk.length > 0
    · rw [if_pos hl]
      have hne : chunk ≠ [] := List.length_pos.mp hl
      cases hr : placeStep env opts relPath chunk ntc w with
      | error r =>
        obtain ⟨e, w1⟩ := r
        exact placeStep_error_exit env opts relPath chunk ntc w e w1 hr
      | ok r =>
        obtain ⟨c1, n1, w1⟩ := r
        exact ih c1 n1 w1 (hstep relPath chunk ntc w hne hq c1 n1 w1 hr)
    · rw [if_neg hl]
      have hnil : chunk = [] := List.length_eq_zero.mp (by omega)
      subst hnil
      exact hexit relPath ntc w hq

theorem scanLoop_ok_rounds (env : Env) (opts : options) (P : State → Prop)
    (Q : String → List Byte → Bool → State → Prop)
    (henter : ∀ relPath chunk w, P w → Q relPath chunk false w)
    (hstep : ∀ relPath chunk ntc w, chunk ≠ [] → Q relPath chunk ntc w →
      ∀ c1 n1 w1, placeStep env opts relPath chunk ntc w = Except.ok (c1, n1, w1) →
      Q relPath c1 n1 w1)
    (hexit : ∀ relPath ntc w, Q relPath [] ntc w → ntc = false ∧ P w)
    (hout : ∀ (w : State) (l : List String), P w → P { w with stdout := l })
    (filePath : String) (fuel : Nat) :
    ∀ (n : Nat) (sc : Scanner) (w : State) (w1 : State), P w →
      scanLoop env opts filePath fuel n sc false w = some (Exit.returned none, w1) → P w1 := by
  intro n
  induction n with
  | zero => intro sc w w1 _ h; simp [scanLoop] at h
  | succ n ih =>
    intro sc w w1 hw h
    unfold scanLoop at h
    cases hs : Scanner.Scan opts fuel sc with
    | none => rw [hs] at h; simp at h
    | some r =>
      rw [hs] at h
      cases r with
      | panic =>
        simp only [Option.some.injEq, Prod.mk.injEq] at h
        rw [← h.2]; exact hw
      | stop s1 =>
        simp only [Option.some.injEq, Prod.mk.injEq] at h
        rw [← h.2]; exact hw
      | token s1 =>
        simp only at h
        split_ifs at h with ht
        · simp only [Option.some.injEq, Prod.mk.injEq] at h
          rw [← h.2]; exact hout w _ hw
        · have hp := placeLoop_ok_rounds env opts P Q hstep hexit
            (env.rel opts.source filePath) fuel s1.Bytes false w (henter _ _ w hw)
          cases hr : placeLoop env opts (env.rel opts.source filePath) fuel s1.Bytes false w with
          | none => rw [hr] at h; simp at h
          | some r =>
            rw [hr] at h hp
            cases r with
            | error r =>
              obtain ⟨e, w2⟩ := r
              simp only [Option.some.injEq, Prod.mk.injEq] at h
              exact absurd h.1 hp
            | ok r =>
              obtain ⟨n1, w2⟩ := r
              simp only at hp h
              obtain ⟨hn, hp2⟩ := hp
              subst hn
              exact ih s1 w2 w1 hp2 h

/-- Induction over the pieces written in a run that has not failed: a property
of the segments of the chunks that holds at program start and is kept by a
piece appended to the last chunk (after a piece that was not truncated) and by
a piece put into a new chunk holds between the calls of `doChunk`. -/
theorem Completed.inv_pieces (env : Env) (opts : options) (hcap : 0 < opts.chunkSize)
    (K : Bool → String → List (List Segment) → Prop)
    (hinit : K false "" [])
    (hfalse : ∀ r r0 segs, K false r0 segs → K false r segs)
    (hlast : ∀ r pre s bytes n1, K false r (pre ++ [s]) →
      K n1 r (pre ++ [s ++ Piece.segments ⟨false, r, bytes, n1⟩]))
    (hnew : ∀ ntc r segs bytes n1, K ntc r segs →
      K n1 r (segs ++ [Piece.segments ⟨ntc, r, bytes, n1⟩]))
    (w : State) (hr : Completed env opts w) :
    w.Inv opts.chunkSize ∧ K false "" (w.files.map ChunkFile.segments) := by
  induction hr with
  | init => exact ⟨State.inv_init _ hcap, hinit⟩
  | call fuel filePath _ hd ih =>
    unfold doChunk at hd
    cases ho : env.openFile filePath with
    | none =>
      rw [ho] at hd
      simp at hd
    | some content =>
      rw [ho] at hd
      refine scanLoop_ok_rounds env opts
        (fun w => w.Inv opts.chunkSize ∧ K false "" (w.files.map ChunkFile.segments))
        (fun relPath chunk ntc w => w.Inv opts.chunkSize ∧
          K ntc relPath (w.files.map ChunkFile.segments) ∧
          (ntc = true → w.chunkSizeRemaining = 0 ∧ chunk ≠ []))
        ?_ ?_ ?_ ?_ filePath fuel fuel _ _ _ ih hd
      · intro relPath chunk w hp
        exact ⟨hp.1, hfalse relPath "" _ hp.2, fun h => by cases h⟩
      · intro relPath chunk ntc w hne hq c1 n1 w1 hres
        obtain ⟨hinv, hpair, hntc⟩ := hq
        have hinv1 : w1.Inv opts.chunkSize := by
          rcases placeStep_inv env opts relPath chunk ntc w hcap hinv with
            ⟨_, _, w2, h2, _⟩ | ⟨n, w2, h2, h3, _⟩
          · rw [h2] at hres
            cases hres
          · rw [h2] at hres
            injection hres with hres
            injection hres with _ hres
            injection hres with _ hres
            rw [← hres]
            exact h3
        obtain ⟨bytes, _, _, hn1, hfull, hcase⟩ :=
          placeStep_piece env opts relPath chunk ntc w hcap hinv hne c1 n1 w1 hres
        refine ⟨hinv1, ?_, ?_⟩
        · rcases hcase with ⟨hrem, _, pre, s, hw, hw1⟩ | ⟨_, _, hw1⟩
          · have hfalse : ntc = false := by
              cases hn : ntc with
              | false => rfl
              | true =>
                have := (hntc hn).1
                omega
            subst hfalse
            rw [hw1]
            rw [hw] at hpair
            exact hlast relPath pre s bytes n1 hpair
          · rw [hw1]
            exact hnew ntc relPath _ bytes n1 hpair
        · intro ht
          refine ⟨hfull ht, ?_⟩
          rw [hn1] at ht
          exact of_decide_eq_true ht
      · intro relPath ntc w hq
        obtain ⟨hinv, hpair, hntc⟩ := hq
        have hfalse : ntc = false := by
          cases hn : ntc with
          | false => rfl
          | true => exact absurd rfl (hntc hn).2
        subst hfalse
        exact ⟨rfl, hinv, hfalse _ relPath _ hpair⟩
      · intro w l hp
        exact hp

/-- The walk over a list of files that returns nil leaves a state of a run
that has not failed. -/
theorem processFiles_completed (env : Env) (opts : options) (fuel : Nat) :
    ∀ (files : List String) (w w1 : State), Completed env opts w →
      processFiles env opts fuel files w = some (Exit.returned none, w1) →
      Completed env opts w1 := by
  intro files
  induction files with
  | nil =>
    intro w w1 hw h
    simp only [processFiles, Option.some.injEq, Prod.mk.injEq, true_and] at h
    rw [← h]; exact hw
  | cons f files ih =>
    intro w w1 hw h
    unfold processFiles at h
    cases hd : doChunk env opts fuel f w with
    | none => rw [hd] at h; simp at h
    | some r =>
      obtain ⟨e, w2⟩ := r
      rw [hd] at h
      cases e with
      | panicked => simp at h
      | returned x =>
        cases x with
        | some g => simp at h
        | none => exact ih w2 w1 (Completed.call fuel f hw hd) h

theorem exampleSplitState_completed : Completed exampleEnv (exampleOpts 3) exampleSplitState :=
  Completed.call 10 "aa" (Completed.call 10 "aa" Completed.init rfl) (by rfl)

theorem traceUpTo_false (r : String) (l : List (Option Segment)) :
    TraceUpTo false r l ↔ EndPartsContinue l ∧ ContinuedAfterEndPart l := by
  constructor
  · rintro ⟨h1, h2, _⟩
    refine ⟨?_, h2⟩
    intro pre post p heq
    rcases h1 pre post p heq with h | ⟨_, hn, _⟩
    · exact h
    · cases hn
  · rintro ⟨h1, h2⟩
    exact ⟨fun pre post p heq => Or.inl (h1 pre post p heq), h2, fun h => by cases h⟩

/-- A piece that starts with `BEGIN FILE`, appended to the last chunk, writes no
`CONTINUED FILE`. -/
theorem continued_last (r : String) (l : List (Option Segment)) (bytes : List Byte)
    (n1 : Bool) (h2 : ContinuedAfterEndPart l) :
    ContinuedAfterEndPart (l ++ [some (header false r), some (Segment.payload bytes),
        some (trailer n1 r)]) ∧
      (n1 = true → ∃ pre, l ++ [some (header false r), some (Segment.payload bytes),
        some (trailer n1 r)] = pre ++ [some (Segment.endPartOfFile r)]) := by
  refine ⟨?_, ?_⟩
  · intro pre post p heq
    rcases List.append_eq_append_iff.1 heq with ⟨a', ha, hx⟩ | ⟨c', hl, hx⟩
    · rcases a' with _ | ⟨x, _ | ⟨y, _ | ⟨z, a'⟩⟩⟩ <;> cases n1 <;>
        simp [header, trailer] at hx
    · cases c' with
      | nil => simp [header] at hx
      | cons e c' =>
        simp only [List.cons_append, List.cons.injEq] at hx
        obtain ⟨he, hp⟩ := hx
        subst he
        exact h2 pre c' p hl
  · intro hn
    subst hn
    exact ⟨l ++ [some (header false r), some (Segment.payload bytes)], by simp [trailer]⟩

/-- A piece put into a new chunk starts with `CONTINUED FILE` only when the
last segment written before is `END PART OF FILE` for the same path. -/
theorem continued_new (ntc : Bool) (r : String) (l : List (Option Segment))
    (bytes : List Byte) (n1 : Bool) (h2 : ContinuedAfterEndPart l)
    (h3 : ntc = true → ∃ pre, l = pre ++ [some (Segment.endPartOfFile r)]) :
    ContinuedAfterEndPart (l ++ [none, some (header ntc r), some (Segment.payload bytes),
        some (trailer n1 r)]) ∧
      (n1 = true → ∃ pre, l ++ [none, some (header ntc r), some (Segment.payload bytes),
        some (trailer n1 r)] = pre ++ [some (Segment.endPartOfFile r)]) := by
  refine ⟨?_, ?_⟩
  · intro pre post p heq
    rcases List.append_eq_append_iff.1 heq with ⟨a', ha, hx⟩ | ⟨c', hl, hx⟩
    · rcases a' with _ | ⟨x, _ | ⟨y, _ | ⟨z, _ | ⟨u, a'⟩⟩⟩⟩ <;> cases hn : ntc <;> cases n1 <;>
        simp [header, trailer, hn] at hx
      all_goals
        obtain ⟨pre0, hpre0⟩ := h3 hn
        refine ⟨pre0, ?_⟩
        rw [ha, hpre0, ← hx.1, hx.2.1]
        simp
    · cases c' with
      | nil => simp at hx
      | cons e c' =>
        simp only [List.cons_append, List.cons.injEq] at hx
        obtain ⟨he, hp⟩ := hx
        subst he
        exact h2 pre c' p hl
  · intro hn
    subst hn
    exact ⟨l ++ [none, some (header ntc r), some (Segment.payload bytes)], by simp [trailer]⟩

/-- Induction over the pieces written since program start, however the calls of
`doChunk` end: a property of the segments of the chunks that holds at program
start, is kept by a piece appended to the last chunk (after a piece that was
not truncated) and by a piece put into a new chunk, and does not depend on the
flag `needToContinue` being remembered, holds between the calls. -/
theorem Reachable.inv_written (env : Env) (opts : options) (hcap : 0 < opts.chunkSize)
    (K : Bool → String → List (List Segment) → Prop)
    (hinit : K false "" [])
    (hfalse : ∀ ntc r r0 segs, K ntc r0 segs → K false r segs)
    (hlast : ∀ r pre s bytes n1, K false r (pre ++ [s]) →
      K n1 r (pre ++ [s ++ Piece.segments ⟨false, r, bytes, n1⟩]))
    (hnew : ∀ ntc r segs bytes n1, K ntc r segs →
      K n1 r (segs ++ [Piece.segments ⟨ntc, r, bytes, n1⟩]))
    (w : State) (hr : Reachable env opts w) :
    K false "" (w.files.map ChunkFile.segments) := by
  refine (Reachable.inv_rounds env opts
    (fun w => w.Inv opts.chunkSize ∧ K false "" (w.files.map ChunkFile.segments))
    (fun relPath chunk ntc w => w.Inv opts.chunkSize ∧
      K ntc relPath (w.files.map ChunkFile.segments) ∧
      (ntc = true → w.chunkSizeRemaining = 0 ∧ chunk ≠ []))
    ?_ ?_ ?_ ?_ ?_ w hr).2
  · exact ⟨State.inv_init _ hcap, hinit⟩
  · intro relPath chunk w hp
    exact ⟨hp.1, hfalse false relPath "" _ hp.2, fun h => by cases h⟩
  · intro relPath chunk ntc w hne hq
    obtain ⟨hinv, hpair, hntc⟩ := hq
    cases hres : placeStep env opts relPath chunk ntc w with
    | error r =>
      obtain ⟨e, w1⟩ := r
      show w1.Inv opts.chunkSize ∧ K false "" (w1.files.map ChunkFile.segments)
      have hinv1 : w1.Inv opts.chunkSize := by
        rcases placeStep_inv env opts relPath chunk ntc w hcap hinv with
          ⟨_, _, w2, h2, h3, _⟩ | ⟨n, w2, h2, _⟩
        · rw [h2] at hres
          injection hres with hres
          injection hres with _ hres
          rw [← hres]
          exact h3
        · rw [h2] at hres
          cases hres
      refine ⟨hinv1, ?_⟩
      rcases placeStep_shape env opts relPath chunk ntc w hcap hinv with
        ⟨_, _, hs⟩ | ⟨_, _, _, _, _, _, _, hs⟩ | ⟨_, _, hs⟩
      · rw [hs] at hres
        injection hres with hres
        injection hres with _ hres
        rw [← hres]
        show K false "" (w.close.files.map ChunkFile.segments)
        rw [State.close_segments]
        exact hfalse ntc "" relPath _ hpair
      · rw [hs] at hres
        cases hres
      · rw [hs] at hres
        cases hres
    | ok r =>
      obtain ⟨c1, n1, w1⟩ := r
      show w1.Inv opts.chunkSize ∧ K n1 relPath (w1.files.map ChunkFile.segments) ∧
        (n1 = true → w1.chunkSizeRemaining = 0 ∧ c1 ≠ [])
      have hinv1 : w1.Inv opts.chunkSize := by
        rcases placeStep_inv env opts relPath chunk ntc w hcap hinv with
          ⟨_, _, w2, h2, _⟩ | ⟨n, w2, h2, h3, _⟩
        · rw [h2] at hres
          cases hres
        · rw [h2] at hres
          injection hres with hres
          injection hres with _ hres
          injection hres with _ hres
          rw [← hres]
          exact h3
      obtain ⟨bytes, _, _, hn1, hfull, hcase⟩ :=
        placeStep_piece env opts relPath chunk ntc w hcap hinv hne c1 n1 w1 hres
      refine ⟨hinv1, ?_, ?_⟩
      · rcases hcase with ⟨hrem, _, pre, s, hw, hw1⟩ | ⟨_, _, hw1⟩
        · have hfalse : ntc = false := by
            cases hn : ntc with
            | false => rfl
            | true =>
              have := (hntc hn).1
              omega
          subst hfalse
          rw [hw1]
          rw [hw] at hpair
          exact hlast relPath pre s bytes n1 hpair
        · rw [hw1]
          exact hnew ntc relPath _ bytes n1 hpair
      · intro ht
        refine ⟨hfull ht, ?_⟩
        rw [hn1] at ht
        exact of_decide_eq_true ht
  · intro relPath ntc w hq
    obtain ⟨hinv, hpair, hntc⟩ := hq
    have hfalse0 : ntc = false := by
      cases hn : ntc with
      | false => rfl
      | true => exact absurd rfl (hntc hn).2
    subst hfalse0
    exact ⟨rfl, hinv, hfalse false "" relPath _ hpair⟩
  · intro w l hp
    exact hp

/-- C12 (delimiter pairing), amended, for every capacity > 0. A round of the
placement loop (from a state that satisfies the writer invariant, as every
state of a run does) writes a header, a non-empty payload `bytes` and a trailer
for the relative path, appended to the current chunk when it has room and as
the first segments of a new chunk otherwise; the payload is the block without
its unwritten rest `c1`; the trailer is `END PART OF FILE` exactly when a rest is
left, which is when the block is longer than the room of the chunk, and
otherwise `END FILE`; and the flag `needToContinue` passed to the next round is
that same condition. Between the calls of `doChunk` in a run where every call
so far returned nil, and so after a walk that returns nil, the chunks are
sequences of such pieces (`Paired`), and in the sequence of chunk creations and
segments written, every `END PART OF FILE` is followed at once by the creation
of a chunk and a `CONTINUED FILE` for the same path. In every state reached by
calls of `doChunk` from program start, however the calls end, every
`CONTINUED FILE` comes right after an `END PART OF FILE` for the same path and
the creation of a chunk. -/
theorem delimiter_pairing (env : Env) (opts : options) (hcap : 0 < opts.chunkSize) :
    (∀ (relPath : String) (chunk : List Byte) (ntc : Bool) (w : State) (c1 : List Byte)
      (n1 : Bool) (w1 : State), w.Inv opts.chunkSize → chunk ≠ [] →
      placeStep env opts relPath chunk ntc w = Except.ok (c1, n1, w1) →
      ∃ bytes : List Byte, bytes ≠ [] ∧ chunk = bytes ++ c1 ∧ n1 = decide (c1 ≠ []) ∧
        ((0 < w.chunkSizeRemaining ∧
            (c1 ≠ [] ↔ (chunk.length : Int) > w.chunkSizeRemaining) ∧
            ∃ pre s, w.files.map ChunkFile.segments = pre ++ [s] ∧
              w1.files.map ChunkFile.segments =
                pre ++ [s ++ [header ntc relPath, Segment.payload bytes,
                  trailer (decide (c1 ≠ [])) relPath]]) ∨
          (w.chunkSizeRemaining = 0 ∧
            (c1 ≠ [] ↔ (chunk.length : Int) > opts.chunkSize) ∧
            w1.files.map ChunkFile.segments =
              w.files.map ChunkFile.segments ++
                [[header ntc relPath, Segment.payload bytes,
                  trailer (decide (c1 ≠ [])) relPath]]))) ∧
    (∀ w, Completed env opts w →
      Paired (w.files.map ChunkFile.segments) ∧
      EndPartsContinue (trace (w.files.map ChunkFile.segments)) ∧
      ContinuedAfterEndPart (trace (w.files.map ChunkFile.segments))) ∧
    (∀ (fuel : Nat) (files : List String) (w : State),
      processFiles env opts fuel files State.init = some (Exit.returned none, w) →
      Completed env opts w) ∧
    (∀ w, Reachable env opts w →
      ContinuedAfterEndPart (trace (w.files.map ChunkFile.segments))) := by
  refine ⟨?_, ?_, ?_, ?_⟩
  · intro relPath chunk ntc w c1 n1 w1 hinv hne hstep
    obtain ⟨bytes, h1, h2, h3, _, h5⟩ :=
      placeStep_piece env opts relPath chunk ntc w hcap hinv hne c1 n1 w1 hstep
    subst h3
    exact ⟨bytes, h1, h2, rfl, h5⟩
  · intro w hr
    constructor
    · refine (paired_iff "" _).2 (Completed.inv_pieces env opts hcap PairedUpTo
        ?_ ?_ ?_ ?_ w hr).2
      · exact (paired_iff "" _).1 ⟨[], rfl, by simp, by simp [written], by simp [written],
          by simp [written]⟩
      · intro r r0 segs h
        exact (paired_iff r _).1 ((paired_iff r0 _).2 h)
      · intro r pre s bytes n1 h
        exact pairedUpTo_last r r pre s bytes n1 h
      · intro ntc r segs bytes n1 h
        exact pairedUpTo_new ntc r segs bytes n1 h
    · refine (traceUpTo_false "" _).1 (Completed.inv_pieces env opts hcap
        (fun ntc r segs => TraceUpTo ntc r (trace segs)) ?_ ?_ ?_ ?_ w hr).2
      · refine (traceUpTo_false "" _).2 ⟨?_, ?_⟩
        · intro pre post p heq
          simp [trace] at heq
        · intro pre post p heq
          simp [trace] at heq
      · intro r r0 segs h
        exact (traceUpTo_false r _).2 ((traceUpTo_false r0 _).1 h)
      · intro r pre s bytes n1 h
        show TraceUpTo n1 r (trace (pre ++ [s ++ Piece.segments ⟨false, r, bytes, n1⟩]))
        rw [trace_append_last]
        exact traceUpTo_last r r _ bytes n1 h
      · intro ntc r segs bytes n1 h
        show TraceUpTo n1 r (trace (segs ++ [Piece.segments ⟨ntc, r, bytes, n1⟩]))
        rw [trace_append_new]
        exact traceUpTo_new ntc r _ bytes n1 h
  · intro fuel files w h
    exact processFiles_completed env opts fuel files State.init w Completed.init h
  · intro w hr
    refine (Reachable.inv_written env opts hcap
      (fun ntc r segs => ContinuedAfterEndPart (trace segs) ∧
        (ntc = true → ∃ pre, trace segs = pre ++ [some (Segment.endPartOfFile r)]))
      ?_ ?_ ?_ ?_ w hr).1
    · refine ⟨?_, fun h => by cases h⟩
      intro pre post p heq
      simp [trace] at heq
    · intro ntc r r0 segs h
      exact ⟨h.1, fun h => by cases h⟩
    · intro r pre s bytes n1 h
      show ContinuedAfterEndPart (trace (pre ++ [s ++ Piece.segments ⟨false, r, bytes, n1⟩])) ∧ _
      rw [trace_append_last]
      exact continued_last r _ bytes n1 h.1
    · intro ntc r segs bytes n1 h
      show ContinuedAfterEndPart (trace (segs ++ [Piece.segments ⟨ntc, r, bytes, n1⟩])) ∧ _
      rw [trace_append_new]
      exact continued_new ntc r _ bytes n1 h.1 h.2

theorem delimiter_pairing_witness :
    Completed exampleEnv (exampleOpts 3) exampleSplitState ∧
    Paired (exampleSplitState.files.map ChunkFile.segments) ∧
    EndPartsContinue (trace (exampleSplitState.files.map ChunkFile.segments)) ∧
    ContinuedAfterEndPart (trace (exampleSplitState.files.map ChunkFile.segments)) :=
  ⟨exampleSplitState_completed,
   (delimiter_pairing exampleEnv (exampleOpts 3) (by decide)).2.1
     exampleSplitState exampleSplitState_completed⟩

/-- C12 fails as stated when `os.Create` fails: with capacity 3 and `os.Create`
succeeding for `out/chunk0.txt` only, the second call of `doChunk` on the
two-byte file `aa` writes one byte and `END PART OF FILE` into `chunk0.txt`,
cannot create `chunk1.txt` and returns that error; the state is reached by
calls of `doChunk` from program start, and its `END PART OF FILE` is the last
segment written, followed by no `CONTINUED FILE`. -/
theorem end_part_left_last_when_create_fails :
    (0 : Int) < (exampleOpts 3).chunkSize ∧
    ∃ w1 w2, doChunk createOnceEnv (exampleOpts 3) 10 "aa" State.init =
        some (Exit.returned none, w1) ∧
      doChunk createOnceEnv (exampleOpts 3) 10 "aa" w1 =
        some (Exit.returned (some GoError.createFailed), w2) ∧
      Reachable createOnceEnv (exampleOpts 3) w2 ∧
      w2.files.map ChunkFile.segments =
        [[Segment.beginFile "aa", Segment.payload [97, 97], Segment.endFile "aa",
          Segment.beginFile "aa", Segment.payload [97], Segment.endPartOfFile "aa"]] ∧
      ¬ EndPartsContinue (trace (w2.files.map ChunkFile.segments)) := by
  refine ⟨by decide, _, _, rfl, rfl,
    Reachable.call 10 "aa" _ (Reachable.call 10 "aa" _ Reachable.init rfl) rfl, rfl, ?_⟩
  intro h
  obtain ⟨post2, hp⟩ := h
    [none, some (Segment.beginFile "aa"), some (Segment.payload [97, 97]),
      some (Segment.endFile "aa"), some (Segment.beginFile "aa"), some (Segment.payload [97])]
    [] "aa" rfl
  cases hp

end Go2ChatGPT
